import Mathlib

/-!
# Fixed-capacity containers of `data_structs.h` (namespace `smi`)

A shallow embedding of the three class templates `SeqList<T>`, `Stack<T>` and
`Queue<T>` together with `RefMemory<T>`.

Modelling conventions.

* A C++ `int` is an `Int`; a signed computation whose mathematical result does
  not fit into 32 bits has no defined result and is modelled by `none`
  (`int_result`).
* The pointer `m_data` is modelled by the block of cells it points to
  (a `List T`, cell `i` of the list being `m_data[i]`).  An access `m_data[i]`
  whose index lies outside the block has no defined behaviour and is modelled
  by `none` (`load`, `store`).  The source performs no bounds check of its
  own, so these are the only failures.
* `new T[n]` may fail.  Whether the free store meets the request, and what the `n`
  cells of the block hold after default-initialisation, is a parameter (`heap`).

The functions of `gr_neighbors_cimp.cpp` are embedded after the containers, over
parameters for the declarations of `mgraph.h` and of the host interface.
-/

namespace smi

/-- Least value of the C++ type `int`. -/
def INT_MIN : Int := -2147483648

/-- Greatest value of the C++ type `int`. -/
def INT_MAX : Int := 2147483647

/-- Value of a signed `int` computation with mathematical result `x`:
defined only when `x` is representable. -/
def int_result (x : Int) : Option Int :=
  if INT_MIN ≤ x ∧ x ≤ INT_MAX then some x else none

/-- Read access `p[i]` on a block of cells. -/
def load {T : Type} (p : List T) (i : Int) : Option T :=
  if 0 ≤ i then p[i.toNat]? else none

/-- Write access `p[i] = e` on a block of cells. -/
def store {T : Type} (p : List T) (i : Int) (e : T) : Option (List T) :=
  if 0 ≤ i ∧ i < p.length then some (p.set i.toNat e) else none

/-- Array allocation `new T[n]`: it throws when the free store cannot meet the request
(`heap = none`, `std::bad_alloc`) and for a negative count; otherwise it yields a block
of `n` cells holding what the free store hands out, `junk 0, ..., junk (n-1)` for
`heap = some junk`. -/
def new_array {T : Type} (n : Int) (heap : Option (Nat → T)) : Option (List T) :=
  match heap with
  | none => none
  | some junk => if 0 ≤ n then some ((List.range n.toNat).map junk) else none

/-- The struct `RefMemory<T>`: a count and a pointer to caller-supplied cells. -/
structure RefMemory (T : Type) where
  n : Int
  base : List T

/-- The function `refmem(n, p)`. -/
def refmem {T : Type} (n : Int) (p : List T) : RefMemory T :=
  { n := n, base := p }

/-- Value returned by a public member function. -/
inductive Ret (T : Type) where
  | void : Ret T
  | int : Int → Ret T
  | bool : Bool → Ret T
  | ref : T → Ret T

/-- Effect of a sequence of calls, made one after the other by `exec`, with the
values they return, in order; undefined as soon as one call is. -/
def runCalls {S O R : Type} (exec : S → O → Option (S × R)) :
    S → List O → Option (S × List R)
  | s, [] => some (s, [])
  | s, op :: ops => match exec s op with
    | none => none
    | some (s1, r) => match runCalls exec s1 ops with
      | none => none
      | some (s2, rs) => some (s2, r :: rs)

/-- Every call of the sequence meets the precondition `pre` in the state in
which it is made (nothing is required after a call without defined effect). -/
def callsInContract {S O R : Type} (pre : S → O → Bool) (exec : S → O → Option (S × R)) :
    S → List O → Bool
  | _, [] => true
  | s, op :: ops => pre s op && (match exec s op with
    | some (s1, _) => callsInContract pre exec s1 ops
    | none => true)

/-- Traffic with the free store: a block of `n` cells obtained by `new T[n]`, or a
block handed to `delete[]`. -/
inductive HeapEvent where
  | acquire : Int → HeapEvent
  | release : HeapEvent

/-! ## SeqList -/

/-- The data members of `SeqList<T>`. -/
structure SeqList (T : Type) where
  m_capa : Int
  m_n : Int
  m_data : List T
  m_own : Bool

namespace SeqList

variable {T : Type}

/-- Constructor `SeqList(int n)`. -/
def ofCapacity (n : Int) (heap : Option (Nat → T)) : Option (SeqList T) :=
  match new_array n heap with
  | some d => some { m_capa := n, m_n := 0, m_data := d, m_own := true }
  | none => none

/-- Constructor `SeqList(RefMemory<T> r)`. -/
def ofRef (r : RefMemory T) : SeqList T :=
  { m_capa := r.n, m_n := 0, m_data := r.base, m_own := false }

/-- Member `capacity()`. -/
def capacity (s : SeqList T) : Int := s.m_capa

/-- Member `size()`. -/
def size (s : SeqList T) : Int := s.m_n

/-- Member `empty()`. -/
def empty (s : SeqList T) : Bool := decide (s.m_n = 0)

/-- Member `data()`. -/
def data (s : SeqList T) : List T := s.m_data

/-- Member `operator[](int i) const`, read through the returned reference. -/
def get (s : SeqList T) (i : Int) : Option T := load s.m_data i

/-- Member `operator[](int i)`, assignment through the returned reference. -/
def set (s : SeqList T) (i : Int) (e : T) : Option (SeqList T) :=
  match store s.m_data i e with
  | some d => some { s with m_data := d }
  | none => none

/-- Member `add(e)`: `m_data[m_n++] = e`. -/
def add (s : SeqList T) (e : T) : Option (SeqList T) :=
  match store s.m_data s.m_n e, int_result (s.m_n + 1) with
  | some d, some n => some { s with m_n := n, m_data := d }
  | _, _ => none

/-- Member `clear()`. -/
def clear (s : SeqList T) : SeqList T := { s with m_n := 0 }

/-- A call of one public member function of `SeqList<T>`. -/
inductive Op (T : Type) where
  | capacity : Op T
  | size : Op T
  | empty : Op T
  | get : Int → Op T
  | set : Int → T → Op T
  | add : T → Op T
  | clear : Op T

/-- Effect and returned value of one call. -/
def exec (s : SeqList T) : Op T → Option (SeqList T × Ret T)
  | Op.capacity => some (s, Ret.int s.capacity)
  | Op.size => some (s, Ret.int s.size)
  | Op.empty => some (s, Ret.bool s.empty)
  | Op.get i => match s.get i with
    | some x => some (s, Ret.ref x)
    | none => none
  | Op.set i e => match s.set i e with
    | some s1 => some (s1, Ret.void)
    | none => none
  | Op.add e => match s.add e with
    | some s1 => some (s1, Ret.void)
    | none => none
  | Op.clear => some (s.clear, Ret.void)

/-- Effect of a sequence of calls with the values they return, in order. -/
def run (s : SeqList T) (ops : List (Op T)) : Option (SeqList T × List (Ret T)) :=
  runCalls exec s ops

/-- Index of the cell of `m_data` that the call reads or writes, if it touches one. -/
def cell (s : SeqList T) : Op T → Option Int
  | Op.get i => some i
  | Op.set i _ => some i
  | Op.add _ => some s.m_n
  | _ => none

/-- Precondition the interface states for each call; the code checks none. -/
def pre (s : SeqList T) : Op T → Bool
  | Op.get i => decide (0 ≤ i ∧ i < s.m_n)
  | Op.set i _ => decide (0 ≤ i ∧ i < s.m_capa)
  | Op.add _ => decide (s.m_n < s.m_capa)
  | _ => true

/-- Every call of the sequence meets its stated precondition in the state in
which it is made. -/
def inContract (s : SeqList T) (ops : List (Op T)) : Bool :=
  callsInContract pre exec s ops

/-- Container built by one of the two constructors with count `C`. -/
def Fresh (C : Int) (s : SeqList T) : Prop :=
  (∃ heap, ofCapacity C heap = some s) ∨ (∃ r : RefMemory T, r.n = C ∧ s = ofRef r)

/-- Cursor invariant: the cursor within `[0, m_capa]`, in order. -/
def CursorsOk (s : SeqList T) : Prop :=
  0 ≤ s.m_n ∧ s.m_n ≤ s.m_capa

/-- The capacity is an `int` and the storage block holds at least that many cells. -/
def StorageOk (s : SeqList T) : Prop :=
  s.m_capa ≤ INT_MAX ∧ s.m_capa ≤ s.m_data.length

/-- Two containers with the same capacity and cursors whose cells agree below the
write cursor. -/
def Similar (a b : SeqList T) : Prop :=
  a.m_capa = b.m_capa ∧ a.m_n = b.m_n ∧
    ∀ j : Nat, (j : Int) < a.m_n → a.m_data[j]? = b.m_data[j]?

/-- Traffic with the free store of the constructor `SeqList(int n)`, once `new T[n]` has
succeeded: the one block of its initialiser list. -/
def ofCapacity_heap (n : Int) : List HeapEvent := [HeapEvent.acquire n]

/-- Traffic with the free store of the constructor `SeqList(RefMemory<T> r)`: none, it
copies the pointer `r.base`. -/
def ofRef_heap (_ : RefMemory T) : List HeapEvent := []

/-- Traffic with the free store of one call of a public member function: none of their
bodies contains `new` or `delete`. -/
def exec_heap (_ : Op T) : List HeapEvent := []

/-- Traffic with the free store of a sequence of calls. -/
def run_heap : List (Op T) → List HeapEvent
  | [] => []
  | op :: ops => exec_heap op ++ run_heap ops

/-- Destructor `~SeqList()`: `if (m_own) delete[] m_data;`. -/
def destroy (s : SeqList T) : List HeapEvent :=
  if s.m_own then [HeapEvent.release] else []

/-- Traffic with the free store over the life of a container made by `SeqList(int n)`:
construction, the calls `ops`, destruction. -/
def lifeOwning (n : Int) (heap : Option (Nat → T)) (ops : List (Op T)) :
    Option (List HeapEvent) :=
  match ofCapacity n heap with
  | none => none
  | some s => match s.run ops with
    | none => none
    | some (s1, _) => some (ofCapacity_heap n ++ run_heap ops ++ s1.destroy)

/-- Traffic with the free store over the life of a container made by
`SeqList(RefMemory<T> r)`: construction, the calls `ops`, destruction. -/
def lifeBorrowing (r : RefMemory T) (ops : List (Op T)) : Option (List HeapEvent) :=
  match (ofRef r).run ops with
  | none => none
  | some (s1, _) => some (ofRef_heap r ++ run_heap ops ++ s1.destroy)

end SeqList

/-! ## Stack -/

/-- The data members of `Stack<T>`. -/
structure Stack (T : Type) where
  m_capa : Int
  m_n : Int
  m_data : List T
  m_own : Bool

namespace Stack

variable {T : Type}

/-- Constructor `Stack(int n)`. -/
def ofCapacity (n : Int) (heap : Option (Nat → T)) : Option (Stack T) :=
  match new_array n heap with
  | some d => some { m_capa := n, m_n := 0, m_data := d, m_own := true }
  | none => none

/-- Constructor `Stack(RefMemory<T> r)`. -/
def ofRef (r : RefMemory T) : Stack T :=
  { m_capa := r.n, m_n := 0, m_data := r.base, m_own := false }

/-- Member `capacity()`. -/
def capacity (s : Stack T) : Int := s.m_capa

/-- Member `size()`. -/
def size (s : Stack T) : Int := s.m_n

/-- Member `empty()`. -/
def empty (s : Stack T) : Bool := decide (s.m_n = 0)

/-- Member `push(e)`: `m_data[m_n++] = e`. -/
def push (s : Stack T) (e : T) : Option (Stack T) :=
  match store s.m_data s.m_n e, int_result (s.m_n + 1) with
  | some d, some n => some { s with m_n := n, m_data := d }
  | _, _ => none

/-- Member `pop()`: `-- m_n`. -/
def pop (s : Stack T) : Option (Stack T) :=
  match int_result (s.m_n - 1) with
  | some n => some { s with m_n := n }
  | none => none

/-- Member `top() const`, read through the returned reference `m_data[m_n-1]`. -/
def top (s : Stack T) : Option T :=
  match int_result (s.m_n - 1) with
  | some i => load s.m_data i
  | none => none

/-- Member `top()`, assignment through the returned reference `m_data[m_n-1]`. -/
def setTop (s : Stack T) (e : T) : Option (Stack T) :=
  match int_result (s.m_n - 1) with
  | some i => (match store s.m_data i e with
    | some d => some { s with m_data := d }
    | none => none)
  | none => none

/-- Member `clear()`. -/
def clear (s : Stack T) : Stack T := { s with m_n := 0 }

/-- A call of one public member function of `Stack<T>`. -/
inductive Op (T : Type) where
  | capacity : Op T
  | size : Op T
  | empty : Op T
  | push : T → Op T
  | pop : Op T
  | top : Op T
  | setTop : T → Op T
  | clear : Op T

/-- Effect and returned value of one call. -/
def exec (s : Stack T) : Op T → Option (Stack T × Ret T)
  | Op.capacity => some (s, Ret.int s.capacity)
  | Op.size => some (s, Ret.int s.size)
  | Op.empty => some (s, Ret.bool s.empty)
  | Op.push e => match s.push e with
    | some s1 => some (s1, Ret.void)
    | none => none
  | Op.pop => match s.pop with
    | some s1 => some (s1, Ret.void)
    | none => none
  | Op.top => match s.top with
    | some x => some (s, Ret.ref x)
    | none => none
  | Op.setTop e => match s.setTop e with
    | some s1 => some (s1, Ret.void)
    | none => none
  | Op.clear => some (s.clear, Ret.void)

/-- Effect of a sequence of calls with the values they return, in order. -/
def run (s : Stack T) (ops : List (Op T)) : Option (Stack T × List (Ret T)) :=
  runCalls exec s ops

/-- Index of the cell of `m_data` that the call reads or writes, if it touches one. -/
def cell (s : Stack T) : Op T → Option Int
  | Op.push _ => some s.m_n
  | Op.top => some (s.m_n - 1)
  | Op.setTop _ => some (s.m_n - 1)
  | _ => none

/-- Precondition the interface states for each call; the code checks none. -/
def pre (s : Stack T) : Op T → Bool
  | Op.push _ => decide (s.m_n < s.m_capa)
  | Op.pop => decide (0 < s.m_n)
  | Op.top => decide (0 < s.m_n)
  | Op.setTop _ => decide (0 < s.m_n)
  | _ => true

/-- Every call of the sequence meets its stated precondition in the state in
which it is made. -/
def inContract (s : Stack T) (ops : List (Op T)) : Bool :=
  callsInContract pre exec s ops

/-- Container built by one of the two constructors with count `C`. -/
def Fresh (C : Int) (s : Stack T) : Prop :=
  (∃ heap, ofCapacity C heap = some s) ∨ (∃ r : RefMemory T, r.n = C ∧ s = ofRef r)

/-- Cursor invariant: the cursor within `[0, m_capa]`, in order. -/
def CursorsOk (s : Stack T) : Prop :=
  0 ≤ s.m_n ∧ s.m_n ≤ s.m_capa

/-- The capacity is an `int` and the storage block holds at least that many cells. -/
def StorageOk (s : Stack T) : Prop :=
  s.m_capa ≤ INT_MAX ∧ s.m_capa ≤ s.m_data.length

/-- Two containers with the same capacity and cursors whose cells agree below the
write cursor. -/
def Similar (a b : Stack T) : Prop :=
  a.m_capa = b.m_capa ∧ a.m_n = b.m_n ∧
    ∀ j : Nat, (j : Int) < a.m_n → a.m_data[j]? = b.m_data[j]?

/-- Traffic with the free store of the constructor `Stack(int n)`, once `new T[n]` has
succeeded: the one block of its initialiser list. -/
def ofCapacity_heap (n : Int) : List HeapEvent := [HeapEvent.acquire n]

/-- Traffic with the free store of the constructor `Stack(RefMemory<T> r)`: none, it
copies the pointer `r.base`. -/
def ofRef_heap (_ : RefMemory T) : List HeapEvent := []

/-- Traffic with the free store of one call of a public member function: none of their
bodies contains `new` or `delete`. -/
def exec_heap (_ : Op T) : List HeapEvent := []

/-- Traffic with the free store of a sequence of calls. -/
def run_heap : List (Op T) → List HeapEvent
  | [] => []
  | op :: ops => exec_heap op ++ run_heap ops

/-- Destructor `~Stack()`: `if (m_own) delete[] m_data;`. -/
def destroy (s : Stack T) : List HeapEvent :=
  if s.m_own then [HeapEvent.release] else []

/-- Traffic with the free store over the life of a container made by `Stack(int n)`:
construction, the calls `ops`, destruction. -/
def lifeOwning (n : Int) (heap : Option (Nat → T)) (ops : List (Op T)) :
    Option (List HeapEvent) :=
  match ofCapacity n heap with
  | none => none
  | some s => match s.run ops with
    | none => none
    | some (s1, _) => some (ofCapacity_heap n ++ run_heap ops ++ s1.destroy)

/-- Traffic with the free store over the life of a container made by
`Stack(RefMemory<T> r)`: construction, the calls `ops`, destruction. -/
def lifeBorrowing (r : RefMemory T) (ops : List (Op T)) : Option (List HeapEvent) :=
  match (ofRef r).run ops with
  | none => none
  | some (s1, _) => some (ofRef_heap r ++ run_heap ops ++ s1.destroy)

/-- Abstraction of a stack state (the `abs` of the refinement): the first `m_n` cells of
the block, bottom of the stack first. -/
def abs (s : Stack T) : List T := s.m_data.take s.m_n.toNat

/-- Abstract LIFO list, following the specification: effect of a call on the list of
stacked values (`push` appends, `pop` removes the last, `clear` empties; a write
through `top()` replaces the last). -/
def lifoStep (l : List T) : Op T → List T
  | Op.push v => l ++ [v]
  | Op.pop => l.dropLast
  | Op.setTop e => l.dropLast ++ [e]
  | Op.clear => []
  | _ => l

/-- Abstract LIFO list of capacity `C`, following the specification: value a call
returns (`size()` the length, `top()` the last element, none on the empty list). -/
def lifoRet (C : Int) (l : List T) : Op T → Option (Ret T)
  | Op.capacity => some (Ret.int C)
  | Op.size => some (Ret.int l.length)
  | Op.empty => some (Ret.bool l.isEmpty)
  | Op.top => match l.getLast? with
    | some x => some (Ret.ref x)
    | none => none
  | _ => some Ret.void

/-- Abstract LIFO list of capacity `C`: effect and returned value of one call. -/
def lifoExec (C : Int) (l : List T) (op : Op T) : Option (List T × Ret T) :=
  match lifoRet C l op with
  | some r => some (lifoStep l op, r)
  | none => none

end Stack

/-! ## Queue -/

/-- The data members of `Queue<T>`. -/
structure Queue (T : Type) where
  m_capa : Int
  m_ifront : Int
  m_iback : Int
  m_data : List T
  m_own : Bool

namespace Queue

variable {T : Type}

/-- Constructor `Queue(int n)`. -/
def ofCapacity (n : Int) (heap : Option (Nat → T)) : Option (Queue T) :=
  match new_array n heap with
  | some d => some { m_capa := n, m_ifront := 0, m_iback := 0, m_data := d, m_own := true }
  | none => none

/-- Constructor `Queue(RefMemory<T> r)`. -/
def ofRef (r : RefMemory T) : Queue T :=
  { m_capa := r.n, m_ifront := 0, m_iback := 0, m_data := r.base, m_own := false }

/-- Member `capacity()`. -/
def capacity (q : Queue T) : Int := q.m_capa

/-- Member `size()`: `m_iback - m_ifront`. -/
def size (q : Queue T) : Option Int := int_result (q.m_iback - q.m_ifront)

/-- Member `empty()`. -/
def empty (q : Queue T) : Bool := decide (q.m_ifront = q.m_iback)

/-- Member `enqueue(e)`: `m_data[m_iback++] = e`. -/
def enqueue (q : Queue T) (e : T) : Option (Queue T) :=
  match store q.m_data q.m_iback e, int_result (q.m_iback + 1) with
  | some d, some b => some { q with m_iback := b, m_data := d }
  | _, _ => none

/-- Member `dequeue()`: `m_ifront++`. -/
def dequeue (q : Queue T) : Option (Queue T) :=
  match int_result (q.m_ifront + 1) with
  | some f => some { q with m_ifront := f }
  | none => none

/-- Member `front() const`, read through the returned reference `m_data[m_ifront]`. -/
def front (q : Queue T) : Option T := load q.m_data q.m_ifront

/-- Member `front()`, assignment through the returned reference `m_data[m_ifront]`. -/
def setFront (q : Queue T) (e : T) : Option (Queue T) :=
  match store q.m_data q.m_ifront e with
  | some d => some { q with m_data := d }
  | none => none

/-- Member `clear()`: `m_ifront = m_iback = 0`. -/
def clear (q : Queue T) : Queue T := { q with m_ifront := 0, m_iback := 0 }

/-- A call of one public member function of `Queue<T>`. -/
inductive Op (T : Type) where
  | capacity : Op T
  | size : Op T
  | empty : Op T
  | enqueue : T → Op T
  | dequeue : Op T
  | front : Op T
  | setFront : T → Op T
  | clear : Op T

/-- Whether the call is an `enqueue`. -/
def Op.isEnqueue : Op T → Bool
  | Op.enqueue _ => true
  | _ => false

/-- Whether the call is a `dequeue`. -/
def Op.isDequeue : Op T → Bool
  | Op.dequeue => true
  | _ => false

/-- Effect and returned value of one call. -/
def exec (q : Queue T) : Op T → Option (Queue T × Ret T)
  | Op.capacity => some (q, Ret.int q.capacity)
  | Op.size => match q.size with
    | some n => some (q, Ret.int n)
    | none => none
  | Op.empty => some (q, Ret.bool q.empty)
  | Op.enqueue e => match q.enqueue e with
    | some q1 => some (q1, Ret.void)
    | none => none
  | Op.dequeue => match q.dequeue with
    | some q1 => some (q1, Ret.void)
    | none => none
  | Op.front => match q.front with
    | some x => some (q, Ret.ref x)
    | none => none
  | Op.setFront e => match q.setFront e with
    | some q1 => some (q1, Ret.void)
    | none => none
  | Op.clear => some (q.clear, Ret.void)

/-- Effect of a sequence of calls with the values they return, in order. -/
def run (q : Queue T) (ops : List (Op T)) : Option (Queue T × List (Ret T)) :=
  runCalls exec q ops

/-- Index of the cell of `m_data` that the call reads or writes, if it touches one. -/
def cell (q : Queue T) : Op T → Option Int
  | Op.enqueue _ => some q.m_iback
  | Op.front => some q.m_ifront
  | Op.setFront _ => some q.m_ifront
  | _ => none

/-- Precondition the interface states for each call; the code checks none. -/
def pre (q : Queue T) : Op T → Bool
  | Op.enqueue _ => decide (q.m_iback < q.m_capa)
  | Op.dequeue => decide (q.m_ifront < q.m_iback)
  | Op.front => decide (q.m_ifront < q.m_iback)
  | Op.setFront _ => decide (q.m_ifront < q.m_iback)
  | _ => true

/-- Every call of the sequence meets its stated precondition in the state in
which it is made. -/
def inContract (q : Queue T) (ops : List (Op T)) : Bool :=
  callsInContract pre exec q ops

/-- Container built by one of the two constructors with count `C`. -/
def Fresh (C : Int) (q : Queue T) : Prop :=
  (∃ heap, ofCapacity C heap = some q) ∨ (∃ r : RefMemory T, r.n = C ∧ q = ofRef r)

/-- Cursor invariant: the cursors within `[0, m_capa]`, in order. -/
def CursorsOk (q : Queue T) : Prop :=
  0 ≤ q.m_ifront ∧ q.m_ifront ≤ q.m_iback ∧ q.m_iback ≤ q.m_capa

/-- The capacity is an `int` and the storage block holds at least that many cells. -/
def StorageOk (q : Queue T) : Prop :=
  q.m_capa ≤ INT_MAX ∧ q.m_capa ≤ q.m_data.length

/-- Two containers with the same capacity and cursors whose cells agree below the
write cursor. -/
def Similar (a b : Queue T) : Prop :=
  a.m_capa = b.m_capa ∧ a.m_ifront = b.m_ifront ∧ a.m_iback = b.m_iback ∧
    ∀ j : Nat, (j : Int) < a.m_iback → a.m_data[j]? = b.m_data[j]?

/-- Traffic with the free store of the constructor `Queue(int n)`, once `new T[n]` has
succeeded: the one block of its initialiser list. -/
def ofCapacity_heap (n : Int) : List HeapEvent := [HeapEvent.acquire n]

/-- Traffic with the free store of the constructor `Queue(RefMemory<T> r)`: none, it
copies the pointer `r.base`. -/
def ofRef_heap (_ : RefMemory T) : List HeapEvent := []

/-- Traffic with the free store of one call of a public member function: none of their
bodies contains `new` or `delete`. -/
def exec_heap (_ : Op T) : List HeapEvent := []

/-- Traffic with the free store of a sequence of calls. -/
def run_heap : List (Op T) → List HeapEvent
  | [] => []
  | op :: ops => exec_heap op ++ run_heap ops

/-- Destructor `~Queue()`: `if (m_own) delete[] m_data;`. -/
def destroy (q : Queue T) : List HeapEvent :=
  if q.m_own then [HeapEvent.release] else []

/-- Traffic with the free store over the life of a container made by `Queue(int n)`:
construction, the calls `ops`, destruction. -/
def lifeOwning (n : Int) (heap : Option (Nat → T)) (ops : List (Op T)) :
    Option (List HeapEvent) :=
  match ofCapacity n heap with
  | none => none
  | some q => match q.run ops with
    | none => none
    | some (q1, _) => some (ofCapacity_heap n ++ run_heap ops ++ q1.destroy)

/-- Traffic with the free store over the life of a container made by
`Queue(RefMemory<T> r)`: construction, the calls `ops`, destruction. -/
def lifeBorrowing (r : RefMemory T) (ops : List (Op T)) : Option (List HeapEvent) :=
  match (ofRef r).run ops with
  | none => none
  | some (q1, _) => some (ofRef_heap r ++ run_heap ops ++ q1.destroy)

/-- Abstraction of a queue state (the `abs` of the refinement): the cells with index
`m_ifront`, ..., `m_iback - 1` of the block, oldest first. -/
def abs (q : Queue T) : List T := (q.m_data.take q.m_iback.toNat).drop q.m_ifront.toNat

/-- Abstract FIFO list, following the specification: effect of a call on the list of
waiting values (`enqueue` appends at the end, `dequeue` removes the first, `clear`
empties; a write through `front()` replaces the first). -/
def fifoStep (l : List T) : Op T → List T
  | Op.enqueue v => l ++ [v]
  | Op.dequeue => l.tail
  | Op.setFront e => e :: l.tail
  | Op.clear => []
  | _ => l

/-- Abstract FIFO list of capacity `C`, following the specification: value a call
returns (`size()` the length, `front()` the first element, none on the empty list). -/
def fifoRet (C : Int) (l : List T) : Op T → Option (Ret T)
  | Op.capacity => some (Ret.int C)
  | Op.size => some (Ret.int l.length)
  | Op.empty => some (Ret.bool l.isEmpty)
  | Op.front => match l.head? with
    | some x => some (Ret.ref x)
    | none => none
  | _ => some Ret.void

/-- Abstract FIFO list of capacity `C`: effect and returned value of one call. -/
def fifoExec (C : Int) (l : List T) (op : Op T) : Option (List T × Ret T) :=
  match fifoRet C l op with
  | some r => some (fifoStep l op, r)
  | none => none

end Queue

/-! ## The mex function of `gr_neighbors_cimp.cpp`

The file includes `mgraph.h`, which is not part of the sources.  What it uses of that
header and of the host interface (array handles, cell arrays, graph views, adjacency
lists) is taken as parameters; the functions of the file itself are embedded.
-/

/-- Error raised through `mexErrMsgIdAndTxt(id, text)`. -/
structure MexError where
  id : String
  text : String

/-- The class identifiers `mxClassID` of the host interface. -/
inductive mxClassID where
  | mxUNKNOWN_CLASS
  | mxCELL_CLASS
  | mxSTRUCT_CLASS
  | mxLOGICAL_CLASS
  | mxCHAR_CLASS
  | mxVOID_CLASS
  | mxDOUBLE_CLASS
  | mxSINGLE_CLASS
  | mxINT8_CLASS
  | mxUINT8_CLASS
  | mxINT16_CLASS
  | mxUINT16_CLASS
  | mxINT32_CLASS
  | mxUINT32_CLASS
  | mxINT64_CLASS
  | mxUINT64_CLASS
  | mxFUNCTION_CLASS
  | mxOPAQUE_CLASS
  | mxOBJECT_CLASS

/-- Cell arrays of the host interface over array handles `Mx`: `mxCreateCellMatrix(m, n)`
and `mxSetCell(c, i, v)`, the latter as the cell array after the assignment. -/
structure CellApi (Mx : Type) where
  mxCreateCellMatrix : Int → Int → Mx
  mxSetCell : Mx → Int → Mx → Mx

/-- What the file uses of the wrapper `MArray` of an array handle: the reader
`get_scalar<mxChar>()` (a 16-bit code) and `get_graph_weight_class`. -/
structure MArrayApi (MArray : Type) where
  get_scalar_mxChar : MArray → Nat
  get_graph_weight_class : MArray → mxClassID

/-- What the file uses of `mgraph.h` for unweighted graphs: `to_refgraph`, `transpose`,
the constructor `AdjList(G)` with its readers `nnodes()`, `neighbor_num(i)`,
`neighbor_nodes(i)`, and `src_to_matlab_matrix<int>(m, n, src)`. -/
structure GraphLib (MArray Mx : Type) where
  RefGraph : Type
  AdjList : Type
  IntPtr : Type
  to_refgraph : MArray → RefGraph
  transpose : RefGraph → RefGraph
  adjList : RefGraph → AdjList
  nnodes : AdjList → Int
  neighbor_num : AdjList → Int → Int
  neighbor_nodes : AdjList → Int → IntPtr
  src_to_matlab_matrix : Int → Int → IntPtr → Mx

/-- What the file uses of `mgraph.h` for graphs with weights of one type `T`:
`to_refwgraph<T>`, `transpose`, the constructor `WAdjList<T>(G)`, its use where a
`const AdjList&` is expected, its readers `nnodes()`, `neighbor_num(i)`,
`neighbor_weights(i)`, and `src_to_matlab_matrix<T>(m, n, src)`. -/
structure WGraphLib (MArray Mx : Type) (G : GraphLib MArray Mx) where
  RefWGraph : Type
  WAdjList : Type
  WPtr : Type
  to_refwgraph : MArray → RefWGraph
  transpose : RefWGraph → RefWGraph
  wadjList : RefWGraph → WAdjList
  toAdjList : WAdjList → G.AdjList
  nnodes : WAdjList → Int
  neighbor_num : WAdjList → Int → Int
  neighbor_weights : WAdjList → Int → WPtr
  src_to_matlab_matrix : Int → Int → WPtr → Mx

section Mex

variable {MArray Mx : Type}

/-- Function `raise_operr()`: `mexErrMsgIdAndTxt` hands control back to the host, so
the statements after the call do not run. -/
def raise_operr {α : Type} : Except MexError α :=
  Except.error { id := "gr_neighbors:invalidarg", text := "The op char is invalid." }

/-- Function `nbnodes_to_matlab_cells(nbh)`: a cell array of `n` cells, cell `i` set to
the row of the neighbours of node `i`, for `i = 0, ..., n-1` in turn. -/
def nbnodes_to_matlab_cells (api : CellApi Mx) (G : GraphLib MArray Mx) (nbh : G.AdjList) :
    Mx :=
  let n := G.nnodes nbh
  (List.range n.toNat).foldl
    (fun mxC i =>
      api.mxSetCell mxC i
        (G.src_to_matlab_matrix 1 (G.neighbor_num nbh i) (G.neighbor_nodes nbh i)))
    (api.mxCreateCellMatrix n 1)

/-- Function `nbweights_to_matlab_cells<T>(nbh)`: a cell array of `n` cells, cell `i`
set to the row of the weights of the edges of node `i`. -/
def nbweights_to_matlab_cells (api : CellApi Mx) {G : GraphLib MArray Mx}
    (W : WGraphLib MArray Mx G) (nbh : W.WAdjList) : Mx :=
  let n := W.nnodes nbh
  (List.range n.toNat).foldl
    (fun mxC i =>
      api.mxSetCell mxC i
        (W.src_to_matlab_matrix 1 (W.neighbor_num nbh i) (W.neighbor_weights nbh i)))
    (api.mxCreateCellMatrix n 1)

/-- Function `do_extract_nbs(mG, op)`. -/
def do_extract_nbs (api : CellApi Mx) (G : GraphLib MArray Mx) (mG : MArray) (op : Char) :
    Except MexError Mx :=
  let g := G.to_refgraph mG
  if op = 'o' ∨ op = 'O' then
    Except.ok (nbnodes_to_matlab_cells api G (G.adjList g))
  else if op = 'i' ∨ op = 'I' then
    Except.ok (nbnodes_to_matlab_cells api G (G.adjList (G.transpose g)))
  else
    raise_operr

/-- Function `do_extract_wnbs<T>(mG, op, mxNbs, mxWs)`, returning the values assigned
to the two reference parameters `mxNbs` and `mxWs`. -/
def do_extract_wnbs (api : CellApi Mx) {G : GraphLib MArray Mx} (W : WGraphLib MArray Mx G)
    (mG : MArray) (op : Char) : Except MexError (Mx × Mx) :=
  let g := W.to_refwgraph mG
  if op = 'o' ∨ op = 'O' then
    Except.ok (nbnodes_to_matlab_cells api G (W.toAdjList (W.wadjList g)),
      nbweights_to_matlab_cells api W (W.wadjList g))
  else if op = 'i' ∨ op = 'I' then
    Except.ok (nbnodes_to_matlab_cells api G (W.toAdjList (W.wadjList (W.transpose g))),
      nbweights_to_matlab_cells api W (W.wadjList (W.transpose g)))
  else
    raise_operr

/-- Conversion `(char)` of an `mxChar` (16 bits) value: its low 8 bits. -/
def char_of_mxChar (v : Nat) : Char := Char.ofNat (v % 256)

/-- Function `mexFunction(nlhs, plhs, nrhs, prhs)`, with `prhs[0]` and `prhs[1]` as
`prhs0` and `prhs1`; `Wd`, `Wi`, `Wf` stand for the instances of the weighted library
at `double`, `int` and `float`.  The result is what the call leaves in `plhs[0]` and
`plhs[1]` (`none` for an output it does not assign). -/
def mexFunction (api : CellApi Mx) (A : MArrayApi MArray) (G : GraphLib MArray Mx)
    (Wd Wi Wf : WGraphLib MArray Mx G) (nlhs : Int) (prhs0 prhs1 : MArray) :
    Except MexError (Option Mx × Option Mx) :=
  let mG := prhs0
  let mOp := prhs1
  let op := char_of_mxChar (A.get_scalar_mxChar mOp)
  if nlhs ≤ 1 then
    match do_extract_nbs api G mG op with
    | Except.ok nbs => Except.ok (some nbs, none)
    | Except.error e => Except.error e
  else
    match A.get_graph_weight_class mG with
    | mxClassID.mxDOUBLE_CLASS =>
      match do_extract_wnbs api Wd mG op with
      | Except.ok (nbs, ws) => Except.ok (some nbs, some ws)
      | Except.error e => Except.error e
    | mxClassID.mxINT32_CLASS =>
      match do_extract_wnbs api Wi mG op with
      | Except.ok (nbs, ws) => Except.ok (some nbs, some ws)
      | Except.error e => Except.error e
    | mxClassID.mxSINGLE_CLASS =>
      match do_extract_wnbs api Wf mG op with
      | Except.ok (nbs, ws) => Except.ok (some nbs, some ws)
      | Except.error e => Except.error e
    | _ => Except.ok (none, none)

end Mex

/-! ### A small host, on which the mex function can be evaluated -/

/-- Array handles of the small host: a numeric row, a cell array of rows (a cell may be
unset), a graph given by the out-neighbours `(node, weight)` of each node together with
its weight class, or a character code. -/
inductive ToyArray where
  | row : List Int → ToyArray
  | cells : List (Option (List Int)) → ToyArray
  | graph : List (List (Int × Int)) → mxClassID → ToyArray
  | char : Nat → ToyArray

/-- Cell arrays of the small host. -/
def toyCells : CellApi ToyArray where
  mxCreateCellMatrix := fun m _ => ToyArray.cells (List.replicate m.toNat none)
  mxSetCell := fun c i v =>
    match c, v with
    | ToyArray.cells l, ToyArray.row r => ToyArray.cells (l.set i.toNat (some r))
    | _, _ => c

/-- Readers of the array handles of the small host. -/
def toyArrays : MArrayApi ToyArray where
  get_scalar_mxChar := fun a =>
    match a with
    | ToyArray.char c => c
    | _ => 0
  get_graph_weight_class := fun a =>
    match a with
    | ToyArray.graph _ c => c
    | _ => mxClassID.mxUNKNOWN_CLASS

/-- Graph views and adjacency lists of the small host. -/
def toyGraphLib : GraphLib ToyArray ToyArray where
  RefGraph := List (List (Int × Int))
  AdjList := List (List (Int × Int))
  IntPtr := List Int
  to_refgraph := fun a =>
    match a with
    | ToyArray.graph g _ => g
    | _ => []
  transpose := fun g =>
    (List.range g.length).map fun j =>
      (List.range g.length).flatMap fun i =>
        ((g.getD i []).filter fun e => decide (e.1 = (j : Int))).map fun e => ((i : Int), e.2)
  adjList := fun g => g
  nnodes := fun a => a.length
  neighbor_num := fun a i => ((a.getD i.toNat []).length : Int)
  neighbor_nodes := fun a i => (a.getD i.toNat []).map Prod.fst
  src_to_matlab_matrix := fun _ n p => ToyArray.row (p.take n.toNat)

/-- Weighted graph views of the small host (one instance serves every weight type). -/
def toyWGraphLib : WGraphLib ToyArray ToyArray toyGraphLib where
  RefWGraph := List (List (Int × Int))
  WAdjList := List (List (Int × Int))
  WPtr := List Int
  to_refwgraph := toyGraphLib.to_refgraph
  transpose := toyGraphLib.transpose
  wadjList := fun g => g
  toAdjList := fun a => a
  nnodes := fun a => a.length
  neighbor_num := fun a i => ((a.getD i.toNat []).length : Int)
  neighbor_weights := fun a i => (a.getD i.toNat []).map Prod.snd
  src_to_matlab_matrix := fun _ n p => ToyArray.row (p.take n.toNat)

/-- A graph of the small host with three nodes and the edges `0 -> 1` (weight 5),
`0 -> 2` (weight 7) and `1 -> 2` (weight 9), of weight class `c`. -/
def toyGraph (c : mxClassID) : ToyArray :=
  ToyArray.graph [[(1, 5), (2, 7)], [(2, 9)], []] c

/-! ## Memory and arithmetic lemmas -/

section Memory

variable {T : Type}

theorem int_result_eq_some_iff {x y : Int} :
    int_result x = some y ↔ (-2147483648 ≤ x ∧ x ≤ 2147483647) ∧ y = x := by
  unfold int_result INT_MIN INT_MAX
  by_cases h : (-2147483648 : Int) ≤ x ∧ x ≤ 2147483647
  · rw [if_pos h]
    constructor
    · intro e
      exact ⟨h, (Option.some.inj e).symm⟩
    · rintro ⟨_, rfl⟩
      rfl
  · rw [if_neg h]
    constructor
    · intro e
      cases e
    · rintro ⟨h1, _⟩
      exact absurd h1 h

theorem int_result_of_range {x : Int} (h1 : -2147483648 ≤ x) (h2 : x ≤ 2147483647) :
    int_result x = some x :=
  int_result_eq_some_iff.mpr ⟨⟨h1, h2⟩, rfl⟩

theorem store_eq_some_iff {p d : List T} {i : Int} {e : T} :
    store p i e = some d ↔ (0 ≤ i ∧ i < p.length) ∧ d = p.set i.toNat e := by
  unfold store
  by_cases h : 0 ≤ i ∧ i < (p.length : Int)
  · rw [if_pos h]
    constructor
    · intro e
      exact ⟨h, (Option.some.inj e).symm⟩
    · rintro ⟨_, rfl⟩
      rfl
  · rw [if_neg h]
    constructor
    · intro e
      cases e
    · rintro ⟨h1, _⟩
      exact absurd h1 h

theorem store_of_range {p : List T} {i : Int} (e : T) (h1 : 0 ≤ i) (h2 : i < p.length) :
    store p i e = some (p.set i.toNat e) :=
  store_eq_some_iff.mpr ⟨⟨h1, h2⟩, rfl⟩

theorem load_of_nonneg {p : List T} {i : Int} (h : 0 ≤ i) : load p i = p[i.toNat]? := by
  unfold load
  rw [if_pos h]

theorem load_natCast (p : List T) (j : Nat) : load p (j : Int) = p[j]? := by
  rw [load_of_nonneg (Int.ofNat_nonneg j)]
  simp

theorem new_array_eq_some_iff {n : Int} {heap : Option (Nat → T)} {d : List T} :
    new_array n heap = some d ↔
      ∃ junk, heap = some junk ∧ 0 ≤ n ∧ d = (List.range n.toNat).map junk := by
  unfold new_array
  cases heap with
  | none =>
    constructor
    · intro e
      cases e
    · rintro ⟨junk, hj, -, -⟩
      cases hj
  | some junk =>
    simp only
    by_cases h : 0 ≤ n
    · rw [if_pos h]
      constructor
      · intro e
        exact ⟨junk, rfl, h, (Option.some.inj e).symm⟩
      · rintro ⟨junk1, hj, -, rfl⟩
        cases hj
        rfl
    · rw [if_neg h]
      constructor
      · intro e
        cases e
      · rintro ⟨junk1, -, h1, -⟩
        exact absurd h1 h

end Memory

/-! ## Sequences of calls -/

section Calls

variable {S O R : Type} {exec : S → O → Option (S × R)} {pre : S → O → Bool}

theorem runCalls_nil (s : S) : runCalls exec s [] = some (s, []) := rfl

theorem runCalls_cons_of_exec {s s1 : S} {op : O} {r : R} (ops : List O)
    (h : exec s op = some (s1, r)) :
    runCalls exec s (op :: ops) =
      (runCalls exec s1 ops).map fun p => (p.1, r :: p.2) := by
  rw [runCalls, h]
  dsimp only
  rcases runCalls exec s1 ops with _ | ⟨s2, rs⟩ <;> rfl

theorem runCalls_cons_eq_some_iff {s s2 : S} {op : O} {ops : List O} {rs : List R} :
    runCalls exec s (op :: ops) = some (s2, rs) ↔
      ∃ s1 r rs1, exec s op = some (s1, r) ∧ runCalls exec s1 ops = some (s2, rs1) ∧
        rs = r :: rs1 := by
  constructor
  · intro h
    rw [runCalls] at h
    split at h
    · cases h
    · next s1 r he =>
      split at h
      · cases h
      · next s3 rs1 hr =>
        cases h
        exact ⟨s1, r, rs1, he, hr, rfl⟩
  · rintro ⟨s1, r, rs1, he, hr, rfl⟩
    rw [runCalls_cons_of_exec ops he, hr]
    rfl

theorem runCalls_append_of_some {s s1 : S} {ops1 : List O} {rs1 : List R} (ops2 : List O)
    (h : runCalls exec s ops1 = some (s1, rs1)) :
    runCalls exec s (ops1 ++ ops2) =
      (runCalls exec s1 ops2).map fun p => (p.1, rs1 ++ p.2) := by
  induction ops1 generalizing s rs1 with
  | nil =>
    cases h
    rw [List.nil_append]
    rcases runCalls exec s1 ops2 with _ | ⟨s2, rs⟩ <;> rfl
  | cons op ops1 ih =>
    obtain ⟨s0, r, rs0, he, hr, rfl⟩ := runCalls_cons_eq_some_iff.mp h
    rw [List.cons_append, runCalls_cons_of_exec _ he, ih hr]
    rcases runCalls exec s1 ops2 with _ | ⟨s2, rs⟩ <;> rfl

theorem callsInContract_cons_of_exec {s s1 : S} {op : O} {r : R} (ops : List O)
    (h : exec s op = some (s1, r)) :
    callsInContract pre exec s (op :: ops) = (pre s op && callsInContract pre exec s1 ops) := by
  rw [callsInContract, h]

theorem callsInContract_append_of_some {s s1 : S} {ops1 : List O} {rs1 : List R}
    (ops2 : List O) (h : runCalls exec s ops1 = some (s1, rs1)) :
    callsInContract pre exec s (ops1 ++ ops2) =
      (callsInContract pre exec s ops1 && callsInContract pre exec s1 ops2) := by
  induction ops1 generalizing s rs1 with
  | nil =>
    cases h
    simp [callsInContract]
  | cons op ops1 ih =>
    obtain ⟨s0, r, rs0, he, hr, rfl⟩ := runCalls_cons_eq_some_iff.mp h
    rw [List.cons_append, callsInContract_cons_of_exec _ he, callsInContract_cons_of_exec _ he,
      ih hr, Bool.and_assoc]

end Calls

/-! ## Queue: single calls -/

section QueueCalls

open Queue

variable {T : Type}

theorem enqueue_eq_some_iff {q q1 : Queue T} {e : T} :
    q.enqueue e = some q1 ↔
      (0 ≤ q.m_iback ∧ q.m_iback < q.m_data.length) ∧ q.m_iback + 1 ≤ 2147483647 ∧
        q1 = { q with m_iback := q.m_iback + 1, m_data := q.m_data.set q.m_iback.toNat e } := by
  unfold enqueue
  constructor
  · intro h
    split at h
    · next d b hd hb =>
      obtain ⟨hr, rfl⟩ := store_eq_some_iff.mp hd
      obtain ⟨hb1, rfl⟩ := int_result_eq_some_iff.mp hb
      exact ⟨hr, hb1.2, (Option.some.inj h).symm⟩
    · cases h
  · rintro ⟨hr, hb, rfl⟩
    rw [store_of_range e hr.1 hr.2, int_result_of_range (by omega) hb]

theorem dequeue_eq_some_iff {q q1 : Queue T} :
    q.dequeue = some q1 ↔
      (-2147483648 ≤ q.m_ifront + 1 ∧ q.m_ifront + 1 ≤ 2147483647) ∧
        q1 = { q with m_ifront := q.m_ifront + 1 } := by
  unfold dequeue
  constructor
  · intro h
    split at h
    · next f hf =>
      obtain ⟨hf1, rfl⟩ := int_result_eq_some_iff.mp hf
      exact ⟨hf1, (Option.some.inj h).symm⟩
    · cases h
  · rintro ⟨hr, rfl⟩
    rw [int_result_of_range hr.1 hr.2]

theorem setFront_eq_some_iff {q q1 : Queue T} {e : T} :
    q.setFront e = some q1 ↔
      (0 ≤ q.m_ifront ∧ q.m_ifront < q.m_data.length) ∧
        q1 = { q with m_data := q.m_data.set q.m_ifront.toNat e } := by
  unfold setFront
  constructor
  · intro h
    split at h
    · next d hd =>
      obtain ⟨hr, rfl⟩ := store_eq_some_iff.mp hd
      exact ⟨hr, (Option.some.inj h).symm⟩
    · cases h
  · rintro ⟨hr, rfl⟩
    rw [store_of_range e hr.1 hr.2]

theorem queue_fresh_fields {C : Int} {q : Queue T} (h : q.Fresh C) :
    q.m_capa = C ∧ q.m_ifront = 0 ∧ q.m_iback = 0 := by
  rcases h with ⟨heap, h⟩ | ⟨r, hr, rfl⟩
  · unfold ofCapacity at h
    split at h
    · cases h
      exact ⟨rfl, rfl, rfl⟩
    · cases h
  · exact ⟨hr, rfl, rfl⟩

theorem queue_ofCapacity_eq_some_iff {n : Int} {heap : Option (Nat → T)} {q : Queue T} :
    ofCapacity n heap = some q ↔ ∃ junk, heap = some junk ∧ 0 ≤ n ∧
      q = { m_capa := n, m_ifront := 0, m_iback := 0, m_data := (List.range n.toNat).map junk, m_own := true } := by
  unfold ofCapacity
  constructor
  · intro h
    split at h
    · next d hd =>
      obtain ⟨junk, hj, h0, rfl⟩ := new_array_eq_some_iff.mp hd
      exact ⟨junk, hj, h0, (Option.some.inj h).symm⟩
    · cases h
  · rintro ⟨junk, hj, h0, rfl⟩
    rw [new_array_eq_some_iff.mpr ⟨junk, hj, h0, rfl⟩]

/-- The block obtained by the allocating constructor has exactly `n` cells. -/
theorem queue_ofCapacity_length {n : Int} {heap : Option (Nat → T)} {q : Queue T}
    (h : ofCapacity n heap = some q) : (q.m_data.length : Int) = n := by
  obtain ⟨junk, -, h0, rfl⟩ := queue_ofCapacity_eq_some_iff.mp h
  simp
  omega

end QueueCalls

/-! ## Queue: sequences of calls -/

section QueueRuns

open Queue

variable {T : Type}

theorem exec_enqueue {q q1 : Queue T} {e : T} (h : q.enqueue e = some q1) :
    exec q (Op.enqueue e) = some (q1, Ret.void) := by
  simp only [exec, h]

theorem exec_dequeue {q q1 : Queue T} (h : q.dequeue = some q1) :
    exec q Op.dequeue = some (q1, Ret.void) := by
  simp only [exec, h]

theorem exec_setFront {q q1 : Queue T} {e : T} (h : q.setFront e = some q1) :
    exec q (Op.setFront e) = some (q1, Ret.void) := by
  simp only [exec, h]

theorem run_enqueues (vs : List T) : ∀ q : Queue T, 0 ≤ q.m_iback →
    q.m_iback + vs.length ≤ q.m_data.length → q.m_iback + vs.length ≤ 2147483647 →
    ∃ q1, q.run (vs.map Op.enqueue) = some (q1, List.replicate vs.length Ret.void) ∧
      q1.m_capa = q.m_capa ∧ q1.m_ifront = q.m_ifront ∧ q1.m_iback = q.m_iback + vs.length ∧
      q1.m_own = q.m_own ∧ q1.m_data.length = q.m_data.length ∧
      (∀ j : Nat, (j : Int) < q.m_iback → q1.m_data[j]? = q.m_data[j]?) ∧
      (∀ j : Nat, j < vs.length → q1.m_data[q.m_iback.toNat + j]? = vs[j]?) := by
  induction vs with
  | nil =>
    intro q _ _ _
    exact ⟨q, rfl, rfl, rfl, by simp, rfl, rfl, fun _ _ => rfl, fun j hj => by simp at hj⟩
  | cons v vs ih =>
    intro q h0 hlen hmax
    simp only [List.length_cons, Nat.cast_add, Nat.cast_one] at hlen hmax
    have he := (enqueue_eq_some_iff (q := q) (e := v)).mpr ⟨⟨h0, by omega⟩, by omega, rfl⟩
    obtain ⟨q1, hrun, hc, hf, hb, ho, hl, hlow, hnew⟩ :=
      ih { q with m_iback := q.m_iback + 1, m_data := q.m_data.set q.m_iback.toNat v }
        (by simp only; omega) (by simp only [List.length_set]; omega) (by simp only; omega)
    simp only [List.length_set] at hc hf hb ho hl hlow hnew
    refine ⟨q1, ?_, hc, hf, ?_, ho, hl, ?_, ?_⟩
    · unfold run at hrun ⊢
      rw [List.map_cons, runCalls_cons_of_exec _ (exec_enqueue he), hrun]
      rfl
    · rw [hb]
      simp only [List.length_cons, Nat.cast_add, Nat.cast_one]
      omega
    · intro j hj
      rw [hlow j (by omega), List.getElem?_set_ne (by omega)]
    · intro j hj
      cases j with
      | zero =>
        have hk : ((q.m_iback.toNat : Nat) : Int) < q.m_iback + 1 := by omega
        rw [Nat.add_zero, hlow _ hk, List.getElem?_set_self (by omega), List.getElem?_cons_zero]
      | succ j =>
        have hj1 : j < vs.length := by simpa using hj
        have hidx : q.m_iback.toNat + (j + 1) = (q.m_iback + 1).toNat + j := by omega
        rw [hidx, hnew j hj1, List.getElem?_cons_succ]

theorem inContract_enqueues (vs : List T) : ∀ q : Queue T, 0 ≤ q.m_iback →
    q.m_iback + vs.length ≤ q.m_capa → q.inContract (vs.map Op.enqueue) = true := by
  induction vs with
  | nil =>
    intro q _ _
    rfl
  | cons v vs ih =>
    intro q h0 hcap
    simp only [List.length_cons, Nat.cast_add, Nat.cast_one] at hcap
    unfold inContract at ih ⊢
    rw [List.map_cons, callsInContract]
    have hp : pre q (Op.enqueue v) = true := by
      simp only [pre, decide_eq_true_eq]
      omega
    rw [hp, Bool.true_and]
    split
    · next q1 r he =>
      simp only [exec] at he
      split at he
      · next q2 he2 =>
        cases he
        obtain ⟨_, _, rfl⟩ := enqueue_eq_some_iff.mp he2
        exact ih _ (by simp only; omega) (by simp only; omega)
      · cases he
    · rfl

end QueueRuns

section QueueWindow

open Queue

variable {T : Type}

theorem exec_enqueue_inv {q q1 : Queue T} {e : T} {r : Ret T}
    (h : exec q (Op.enqueue e) = some (q1, r)) : q.enqueue e = some q1 ∧ r = Ret.void := by
  simp only [exec] at h
  split at h
  · next q2 he =>
    cases h
    exact ⟨he, rfl⟩
  · cases h

theorem exec_dequeue_inv {q q1 : Queue T} {r : Ret T}
    (h : exec q Op.dequeue = some (q1, r)) : q.dequeue = some q1 ∧ r = Ret.void := by
  simp only [exec] at h
  split at h
  · next q2 he =>
    cases h
    exact ⟨he, rfl⟩
  · cases h

theorem run_dequeues (n : Nat) : ∀ q : Queue T, -2147483648 ≤ q.m_ifront →
    q.m_ifront + n ≤ 2147483647 →
    q.run (List.replicate n Op.dequeue) =
      some ({ q with m_ifront := q.m_ifront + n }, List.replicate n Ret.void) := by
  induction n with
  | zero =>
    intro q _ _
    simp [run, runCalls]
  | succ n ih =>
    intro q hlo hhi
    simp only [Nat.cast_add, Nat.cast_one] at hhi
    have hd := (dequeue_eq_some_iff (q := q)).mpr ⟨⟨by omega, by omega⟩, rfl⟩
    have hr := ih { q with m_ifront := q.m_ifront + 1 } (by simp only; omega)
      (by simp only; omega)
    unfold run at hr ⊢
    rw [List.replicate_succ, runCalls_cons_of_exec _ (exec_dequeue hd), hr]
    simp only [Option.map_some', List.replicate_succ, Nat.cast_add, Nat.cast_one, add_assoc,
      add_comm (1 : Int)]

theorem run_enqueue_dequeue_back (ops : List (Op T)) : ∀ (q q1 : Queue T) (rs : List (Ret T)),
    (∀ op ∈ ops, op.isEnqueue = true ∨ op.isDequeue = true) → q.run ops = some (q1, rs) →
    q1.m_iback = q.m_iback + (ops.countP Op.isEnqueue : Nat) ∧ q1.m_capa = q.m_capa := by
  induction ops with
  | nil =>
    intro q q1 rs _ h
    cases h
    simp
  | cons op ops ih =>
    intro q q1 rs hops h
    unfold run at h ih
    obtain ⟨qa, r, rs1, he, hr, rfl⟩ := runCalls_cons_eq_some_iff.mp h
    have hrest := ih qa q1 rs1 (fun o ho => hops o (List.mem_cons_of_mem _ ho)) hr
    have hop := hops op (List.mem_cons_self _ _)
    cases op with
    | enqueue e =>
      obtain ⟨he1, -⟩ := exec_enqueue_inv he
      obtain ⟨-, -, rfl⟩ := enqueue_eq_some_iff.mp he1
      simp only at hrest
      rw [List.countP_cons_of_pos _ _ (by rfl)]
      refine ⟨?_, hrest.2⟩
      rw [hrest.1]
      push_cast
      omega
    | dequeue =>
      obtain ⟨he1, -⟩ := exec_dequeue_inv he
      obtain ⟨-, rfl⟩ := dequeue_eq_some_iff.mp he1
      simp only at hrest
      rw [List.countP_cons_of_neg _ _ (by simp [Op.isEnqueue])]
      exact hrest
    | capacity => simp [Op.isEnqueue, Op.isDequeue] at hop
    | size => simp [Op.isEnqueue, Op.isDequeue] at hop
    | empty => simp [Op.isEnqueue, Op.isDequeue] at hop
    | front => simp [Op.isEnqueue, Op.isDequeue] at hop
    | setFront e => simp [Op.isEnqueue, Op.isDequeue] at hop
    | clear => simp [Op.isEnqueue, Op.isDequeue] at hop

end QueueWindow

/-! ## Queue: calls within the contract -/

section QueueContract

open Queue

variable {T : Type}

theorem getElem?_set_congr {l1 l2 : List T} {i j : Nat} (e : T) (h1 : i < l1.length)
    (h2 : i < l2.length) (h : i ≠ j → l1[j]? = l2[j]?) :
    (l1.set i e)[j]? = (l2.set i e)[j]? := by
  by_cases hij : i = j
  · subst hij
    rw [List.getElem?_set_self h1, List.getElem?_set_self h2]
  · rw [List.getElem?_set_ne hij, List.getElem?_set_ne hij]
    exact h hij

theorem queue_similar_refl (a : Queue T) : a.Similar a :=
  ⟨rfl, rfl, rfl, fun _ _ => rfl⟩

theorem queue_exec_similar {a b : Queue T} {op : Op T}
    (ha : a.CursorsOk) (hsa : a.StorageOk) (hsb : b.StorageOk) (hab : a.Similar b)
    (hop : a.pre op = true) :
    ∃ a1 b1 r, exec a op = some (a1, r) ∧ exec b op = some (b1, r) ∧
      a1.CursorsOk ∧ a1.StorageOk ∧ b1.StorageOk ∧ a1.Similar b1 := by
  obtain ⟨hf0, hfb, hbc⟩ := ha
  obtain ⟨hmaxa, hlena⟩ := hsa
  obtain ⟨hmaxb, hlenb⟩ := hsb
  obtain ⟨hcap, hfr, hbk, hcells⟩ := hab
  unfold INT_MAX at hmaxa hmaxb
  cases op with
  | capacity =>
    refine ⟨a, b, Ret.int a.m_capa, rfl, ?_, ⟨hf0, hfb, hbc⟩, ⟨hmaxa, hlena⟩, ⟨hmaxb, hlenb⟩,
      ⟨hcap, hfr, hbk, hcells⟩⟩
    simp only [exec, capacity, hcap]
  | size =>
    have hs : a.size = some (a.m_iback - a.m_ifront) :=
      int_result_eq_some_iff.mpr ⟨⟨by omega, by omega⟩, rfl⟩
    have hs2 : b.size = some (a.m_iback - a.m_ifront) :=
      int_result_eq_some_iff.mpr ⟨⟨by omega, by omega⟩, by omega⟩
    refine ⟨a, b, Ret.int (a.m_iback - a.m_ifront), ?_, ?_, ⟨hf0, hfb, hbc⟩, ⟨hmaxa, hlena⟩,
      ⟨hmaxb, hlenb⟩, ⟨hcap, hfr, hbk, hcells⟩⟩
    · simp only [exec, hs]
    · simp only [exec, hs2]
  | empty =>
    refine ⟨a, b, Ret.bool a.empty, rfl, ?_, ⟨hf0, hfb, hbc⟩, ⟨hmaxa, hlena⟩, ⟨hmaxb, hlenb⟩,
      ⟨hcap, hfr, hbk, hcells⟩⟩
    simp only [exec, Queue.empty, hfr, hbk]
  | enqueue e =>
    simp only [pre, decide_eq_true_eq] at hop
    have h1 := (enqueue_eq_some_iff (q := a) (e := e)).mpr ⟨⟨by omega, by omega⟩, by omega, rfl⟩
    have h2 := (enqueue_eq_some_iff (q := b) (e := e)).mpr ⟨⟨by omega, by omega⟩, by omega, rfl⟩
    refine ⟨_, _, Ret.void, exec_enqueue h1, exec_enqueue h2, ?_, ?_, ?_, ?_⟩
    · exact ⟨hf0, by simp only; omega, by simp only; omega⟩
    · exact ⟨hmaxa, by simp only [List.length_set]; exact hlena⟩
    · exact ⟨hmaxb, by simp only [List.length_set]; exact hlenb⟩
    · refine ⟨hcap, hfr, by simp only; omega, ?_⟩
      intro j hj
      simp only at hj ⊢
      rw [← hbk]
      exact getElem?_set_congr e (by omega) (by omega) (fun hne => hcells j (by omega))
  | dequeue =>
    simp only [pre, decide_eq_true_eq] at hop
    have h1 := (dequeue_eq_some_iff (q := a)).mpr ⟨⟨by omega, by omega⟩, rfl⟩
    have h2 := (dequeue_eq_some_iff (q := b)).mpr ⟨⟨by omega, by omega⟩, rfl⟩
    refine ⟨_, _, Ret.void, exec_dequeue h1, exec_dequeue h2, ?_, ⟨hmaxa, hlena⟩,
      ⟨hmaxb, hlenb⟩, ?_⟩
    · exact ⟨by simp only; omega, by simp only; omega, hbc⟩
    · exact ⟨hcap, by simp only; omega, hbk, hcells⟩
  | front =>
    simp only [pre, decide_eq_true_eq] at hop
    have hlt : a.m_ifront.toNat < a.m_data.length := by omega
    have h1 : a.front = some (a.m_data[a.m_ifront.toNat]) := by
      unfold Queue.front
      rw [load_of_nonneg hf0, List.getElem?_eq_getElem hlt]
    have h2 : b.front = some (a.m_data[a.m_ifront.toNat]) := by
      unfold Queue.front
      rw [← hfr, load_of_nonneg hf0, ← hcells _ (by omega), List.getElem?_eq_getElem hlt]
    refine ⟨a, b, Ret.ref (a.m_data[a.m_ifront.toNat]), ?_, ?_, ⟨hf0, hfb, hbc⟩,
      ⟨hmaxa, hlena⟩, ⟨hmaxb, hlenb⟩, ⟨hcap, hfr, hbk, hcells⟩⟩
    · simp only [exec, h1]
    · simp only [exec, h2]
  | setFront e =>
    simp only [pre, decide_eq_true_eq] at hop
    have h1 := (setFront_eq_some_iff (q := a) (e := e)).mpr ⟨⟨by omega, by omega⟩, rfl⟩
    have h2 := (setFront_eq_some_iff (q := b) (e := e)).mpr ⟨⟨by omega, by omega⟩, rfl⟩
    refine ⟨_, _, Ret.void, exec_setFront h1, exec_setFront h2, ?_, ?_, ?_, ?_⟩
    · exact ⟨hf0, hfb, hbc⟩
    · exact ⟨hmaxa, by simp only [List.length_set]; exact hlena⟩
    · exact ⟨hmaxb, by simp only [List.length_set]; exact hlenb⟩
    · refine ⟨hcap, hfr, hbk, ?_⟩
      intro j hj
      simp only at hj ⊢
      rw [← hfr]
      exact getElem?_set_congr e (by omega) (by omega) (fun _ => hcells j hj)
  | clear =>
    refine ⟨a.clear, b.clear, Ret.void, rfl, rfl, ?_, ⟨hmaxa, hlena⟩, ⟨hmaxb, hlenb⟩, ?_⟩
    · exact ⟨le_refl 0, le_refl 0, by simp only [Queue.clear]; omega⟩
    · refine ⟨hcap, rfl, rfl, ?_⟩
      intro j hj
      simp only [Queue.clear] at hj
      omega

theorem queue_pre_similar {a b : Queue T} (h : a.Similar b) (op : Op T) :
    b.pre op = a.pre op := by
  obtain ⟨hc, hf, hb, -⟩ := h
  cases op <;> simp only [pre, hc, hf, hb]

theorem queue_run_similar (ops : List (Op T)) : ∀ a b : Queue T,
    a.CursorsOk → a.StorageOk → b.StorageOk → a.Similar b → a.inContract ops = true →
    b.inContract ops = true ∧
    ∃ a1 b1 rs, a.run ops = some (a1, rs) ∧ b.run ops = some (b1, rs) ∧
      a1.CursorsOk ∧ a1.StorageOk ∧ b1.StorageOk ∧ a1.Similar b1 := by
  induction ops with
  | nil =>
    intro a b ha hsa hsb hab _
    exact ⟨rfl, a, b, [], rfl, rfl, ha, hsa, hsb, hab⟩
  | cons op ops ih =>
    intro a b ha hsa hsb hab hc
    unfold inContract at hc ih ⊢
    unfold run at ih ⊢
    have hp : a.pre op = true := by
      rw [callsInContract] at hc
      exact (Bool.and_eq_true_iff.mp hc).1
    obtain ⟨a1, b1, r, hea, heb, ha1, hsa1, hsb1, hab1⟩ := queue_exec_similar ha hsa hsb hab hp
    rw [callsInContract_cons_of_exec _ hea] at hc
    obtain ⟨hcb, a2, b2, rs, hra, hrb, h2⟩ :=
      ih a1 b1 ha1 hsa1 hsb1 hab1 (Bool.and_eq_true_iff.mp hc).2
    refine ⟨?_, a2, b2, r :: rs, ?_, ?_, h2⟩
    · rw [callsInContract_cons_of_exec _ heb, hcb, queue_pre_similar hab, hp]
      rfl
    · rw [runCalls_cons_of_exec _ hea, hra]
      rfl
    · rw [runCalls_cons_of_exec _ heb, hrb]
      rfl

theorem queue_fresh_cursorsOk {C : Int} {q : Queue T} (hq : q.Fresh C) (h0 : 0 ≤ C) :
    q.CursorsOk := by
  obtain ⟨hcap, hf, hb⟩ := queue_fresh_fields hq
  exact ⟨by omega, by omega, by omega⟩

end QueueContract

section QueueFrame

open Queue

variable {T : Type}

theorem queue_exec_frame {q q1 : Queue T} {op : Op T} {r : Ret T}
    (h : exec q op = some (q1, r)) :
    q1.m_capa = q.m_capa ∧ q1.m_own = q.m_own ∧ q1.m_data.length = q.m_data.length := by
  cases op with
  | capacity =>
    cases h
    exact ⟨rfl, rfl, rfl⟩
  | size =>
    simp only [exec] at h
    split at h
    · cases h
      exact ⟨rfl, rfl, rfl⟩
    · cases h
  | empty =>
    cases h
    exact ⟨rfl, rfl, rfl⟩
  | enqueue e =>
    obtain ⟨he, -⟩ := exec_enqueue_inv h
    obtain ⟨-, -, rfl⟩ := enqueue_eq_some_iff.mp he
    exact ⟨rfl, rfl, List.length_set _ _ _⟩
  | dequeue =>
    obtain ⟨he, -⟩ := exec_dequeue_inv h
    obtain ⟨-, rfl⟩ := dequeue_eq_some_iff.mp he
    exact ⟨rfl, rfl, rfl⟩
  | front =>
    simp only [exec] at h
    split at h
    · cases h
      exact ⟨rfl, rfl, rfl⟩
    · cases h
  | setFront e =>
    simp only [exec] at h
    split at h
    · next q2 he =>
      cases h
      obtain ⟨-, rfl⟩ := setFront_eq_some_iff.mp he
      exact ⟨rfl, rfl, List.length_set _ _ _⟩
    · cases h
  | clear =>
    cases h
    exact ⟨rfl, rfl, rfl⟩

theorem queue_run_frame (ops : List (Op T)) : ∀ (q q1 : Queue T) (rs : List (Ret T)),
    q.run ops = some (q1, rs) →
    q1.m_capa = q.m_capa ∧ q1.m_own = q.m_own ∧ q1.m_data.length = q.m_data.length := by
  induction ops with
  | nil =>
    intro q q1 rs h
    cases h
    exact ⟨rfl, rfl, rfl⟩
  | cons op ops ih =>
    intro q q1 rs h
    unfold run at h ih
    obtain ⟨qa, r, rs1, he, hr, -⟩ := runCalls_cons_eq_some_iff.mp h
    obtain ⟨h1, h2, h3⟩ := queue_exec_frame he
    obtain ⟨k1, k2, k3⟩ := ih qa q1 rs1 hr
    exact ⟨k1.trans h1, k2.trans h2, k3.trans h3⟩

end QueueFrame

/-! ## Stack: single calls and sequences -/

section StackCalls

open Stack

variable {T : Type}

theorem push_eq_some_iff {s s1 : Stack T} {e : T} :
    s.push e = some s1 ↔
      (0 ≤ s.m_n ∧ s.m_n < s.m_data.length) ∧ s.m_n + 1 ≤ 2147483647 ∧
        s1 = { s with m_n := s.m_n + 1, m_data := s.m_data.set s.m_n.toNat e } := by
  unfold push
  constructor
  · intro h
    split at h
    · next d b hd hb =>
      obtain ⟨hr, rfl⟩ := store_eq_some_iff.mp hd
      obtain ⟨hb1, rfl⟩ := int_result_eq_some_iff.mp hb
      exact ⟨hr, hb1.2, (Option.some.inj h).symm⟩
    · cases h
  · rintro ⟨hr, hb, rfl⟩
    rw [store_of_range e hr.1 hr.2, int_result_of_range (by omega) hb]

theorem pop_eq_some_iff {s s1 : Stack T} :
    s.pop = some s1 ↔
      (-2147483648 ≤ s.m_n - 1 ∧ s.m_n - 1 ≤ 2147483647) ∧ s1 = { s with m_n := s.m_n - 1 } := by
  unfold pop
  constructor
  · intro h
    split at h
    · next f hf =>
      obtain ⟨hf1, rfl⟩ := int_result_eq_some_iff.mp hf
      exact ⟨hf1, (Option.some.inj h).symm⟩
    · cases h
  · rintro ⟨hr, rfl⟩
    rw [int_result_of_range hr.1 hr.2]

theorem top_of_pos {s : Stack T} (h1 : 0 < s.m_n) (h2 : s.m_n ≤ 2147483647) :
    s.top = s.m_data[(s.m_n - 1).toNat]? := by
  unfold top
  rw [int_result_of_range (by omega) (by omega)]
  exact load_of_nonneg (by omega)

theorem setTop_eq_some_iff {s s1 : Stack T} {e : T} :
    s.setTop e = some s1 ↔
      (-2147483648 ≤ s.m_n - 1 ∧ s.m_n - 1 ≤ 2147483647) ∧
      (0 ≤ s.m_n - 1 ∧ s.m_n - 1 < s.m_data.length) ∧
        s1 = { s with m_data := s.m_data.set (s.m_n - 1).toNat e } := by
  unfold setTop
  constructor
  · intro h
    split at h
    · next i hi =>
      obtain ⟨hi1, rfl⟩ := int_result_eq_some_iff.mp hi
      split at h
      · next d hd =>
        obtain ⟨hr, rfl⟩ := store_eq_some_iff.mp hd
        exact ⟨hi1, hr, (Option.some.inj h).symm⟩
      · cases h
    · cases h
  · rintro ⟨hi, hr, rfl⟩
    rw [int_result_of_range hi.1 hi.2]
    simp only
    rw [store_of_range e hr.1 hr.2]

theorem stack_fresh_fields {C : Int} {s : Stack T} (h : s.Fresh C) :
    s.m_capa = C ∧ s.m_n = 0 := by
  rcases h with ⟨heap, h⟩ | ⟨r, hr, rfl⟩
  · unfold ofCapacity at h
    split at h
    · cases h
      exact ⟨rfl, rfl⟩
    · cases h
  · exact ⟨hr, rfl⟩

theorem stack_ofCapacity_eq_some_iff {n : Int} {heap : Option (Nat → T)} {s : Stack T} :
    ofCapacity n heap = some s ↔ ∃ junk, heap = some junk ∧ 0 ≤ n ∧
      s = { m_capa := n, m_n := 0, m_data := (List.range n.toNat).map junk, m_own := true } := by
  unfold ofCapacity
  constructor
  · intro h
    split at h
    · next d hd =>
      obtain ⟨junk, hj, h0, rfl⟩ := new_array_eq_some_iff.mp hd
      exact ⟨junk, hj, h0, (Option.some.inj h).symm⟩
    · cases h
  · rintro ⟨junk, hj, h0, rfl⟩
    rw [new_array_eq_some_iff.mpr ⟨junk, hj, h0, rfl⟩]

/-- The block obtained by the allocating constructor has exactly `n` cells. -/
theorem stack_ofCapacity_length {n : Int} {heap : Option (Nat → T)} {s : Stack T}
    (h : ofCapacity n heap = some s) : (s.m_data.length : Int) = n := by
  obtain ⟨junk, -, h0, rfl⟩ := stack_ofCapacity_eq_some_iff.mp h
  simp
  omega

theorem exec_push {s s1 : Stack T} {e : T} (h : s.push e = some s1) :
    exec s (Op.push e) = some (s1, Ret.void) := by
  simp only [exec, h]

theorem exec_pop {s s1 : Stack T} (h : s.pop = some s1) :
    exec s Op.pop = some (s1, Ret.void) := by
  simp only [exec, h]

theorem exec_setTop {s s1 : Stack T} {e : T} (h : s.setTop e = some s1) :
    exec s (Op.setTop e) = some (s1, Ret.void) := by
  simp only [exec, h]

theorem exec_top {s : Stack T} {x : T} (h : s.top = some x) :
    exec s Op.top = some (s, Ret.ref x) := by
  simp only [exec, h]

theorem run_pushes (vs : List T) : ∀ s : Stack T, 0 ≤ s.m_n →
    s.m_n + vs.length ≤ s.m_data.length → s.m_n + vs.length ≤ 2147483647 →
    ∃ s1, s.run (vs.map Op.push) = some (s1, List.replicate vs.length Ret.void) ∧
      s1.m_capa = s.m_capa ∧ s1.m_n = s.m_n + vs.length ∧
      s1.m_own = s.m_own ∧ s1.m_data.length = s.m_data.length ∧
      (∀ j : Nat, (j : Int) < s.m_n → s1.m_data[j]? = s.m_data[j]?) ∧
      (∀ j : Nat, j < vs.length → s1.m_data[s.m_n.toNat + j]? = vs[j]?) := by
  induction vs with
  | nil =>
    intro s _ _ _
    exact ⟨s, rfl, rfl, by simp, rfl, rfl, fun _ _ => rfl, fun j hj => by simp at hj⟩
  | cons v vs ih =>
    intro s h0 hlen hmax
    simp only [List.length_cons, Nat.cast_add, Nat.cast_one] at hlen hmax
    have he := (push_eq_some_iff (s := s) (e := v)).mpr ⟨⟨h0, by omega⟩, by omega, rfl⟩
    obtain ⟨s1, hrun, hc, hb, ho, hl, hlow, hnew⟩ :=
      ih { s with m_n := s.m_n + 1, m_data := s.m_data.set s.m_n.toNat v }
        (by simp only; omega) (by simp only [List.length_set]; omega) (by simp only; omega)
    simp only [List.length_set] at hc hb ho hl hlow hnew
    refine ⟨s1, ?_, hc, ?_, ho, hl, ?_, ?_⟩
    · unfold run at hrun ⊢
      rw [List.map_cons, runCalls_cons_of_exec _ (exec_push he), hrun]
      rfl
    · rw [hb]
      simp only [List.length_cons, Nat.cast_add, Nat.cast_one]
      omega
    · intro j hj
      rw [hlow j (by omega), List.getElem?_set_ne (by omega)]
    · intro j hj
      cases j with
      | zero =>
        have hk : ((s.m_n.toNat : Nat) : Int) < s.m_n + 1 := by omega
        rw [Nat.add_zero, hlow _ hk, List.getElem?_set_self (by omega), List.getElem?_cons_zero]
      | succ j =>
        have hj1 : j < vs.length := by simpa using hj
        have hidx : s.m_n.toNat + (j + 1) = (s.m_n + 1).toNat + j := by omega
        rw [hidx, hnew j hj1, List.getElem?_cons_succ]

theorem inContract_pushes (vs : List T) : ∀ s : Stack T, 0 ≤ s.m_n →
    s.m_n + vs.length ≤ s.m_capa → s.inContract (vs.map Op.push) = true := by
  induction vs with
  | nil =>
    intro s _ _
    rfl
  | cons v vs ih =>
    intro s h0 hcap
    simp only [List.length_cons, Nat.cast_add, Nat.cast_one] at hcap
    unfold inContract at ih ⊢
    rw [List.map_cons, callsInContract]
    have hp : pre s (Op.push v) = true := by
      simp only [pre, decide_eq_true_eq]
      omega
    rw [hp, Bool.true_and]
    split
    · next s1 r he =>
      simp only [exec] at he
      split at he
      · next s2 he2 =>
        cases he
        obtain ⟨_, _, rfl⟩ := push_eq_some_iff.mp he2
        exact ih _ (by simp only; omega) (by simp only; omega)
      · cases he
    · rfl

theorem run_pops (n : Nat) : ∀ s : Stack T, (n : Int) ≤ s.m_n → s.m_n ≤ 2147483647 →
    s.run (List.replicate n Op.pop) =
        some ({ s with m_n := s.m_n - n }, List.replicate n Ret.void) ∧
      s.inContract (List.replicate n Op.pop) = true := by
  induction n with
  | zero =>
    intro s _ _
    simp [run, runCalls, inContract, callsInContract]
  | succ n ih =>
    intro s hlo hhi
    simp only [Nat.cast_add, Nat.cast_one] at hlo
    have hd := (pop_eq_some_iff (s := s)).mpr ⟨⟨by omega, by omega⟩, rfl⟩
    obtain ⟨hr, hc⟩ := ih { s with m_n := s.m_n - 1 } (by simp only; omega)
      (by simp only; omega)
    unfold run at hr ⊢
    unfold inContract at hc ⊢
    constructor
    · rw [List.replicate_succ, runCalls_cons_of_exec _ (exec_pop hd), hr]
      simp only [Option.map_some', List.replicate_succ, Nat.cast_add, Nat.cast_one]
      congr 3
      omega
    · rw [List.replicate_succ, callsInContract_cons_of_exec _ (exec_pop hd), hc,
        Bool.and_true]
      simp only [pre, decide_eq_true_eq]
      omega

end StackCalls

/-! ## SeqList: single calls and sequences -/

section SeqListCalls

open SeqList

variable {T : Type}

theorem add_eq_some_iff {s s1 : SeqList T} {e : T} :
    s.add e = some s1 ↔
      (0 ≤ s.m_n ∧ s.m_n < s.m_data.length) ∧ s.m_n + 1 ≤ 2147483647 ∧
        s1 = { s with m_n := s.m_n + 1, m_data := s.m_data.set s.m_n.toNat e } := by
  unfold add
  constructor
  · intro h
    split at h
    · next d b hd hb =>
      obtain ⟨hr, rfl⟩ := store_eq_some_iff.mp hd
      obtain ⟨hb1, rfl⟩ := int_result_eq_some_iff.mp hb
      exact ⟨hr, hb1.2, (Option.some.inj h).symm⟩
    · cases h
  · rintro ⟨hr, hb, rfl⟩
    rw [store_of_range e hr.1 hr.2, int_result_of_range (by omega) hb]

theorem set_eq_some_iff {s s1 : SeqList T} {i : Int} {e : T} :
    s.set i e = some s1 ↔
      (0 ≤ i ∧ i < s.m_data.length) ∧ s1 = { s with m_data := s.m_data.set i.toNat e } := by
  unfold SeqList.set
  constructor
  · intro h
    split at h
    · next d hd =>
      obtain ⟨hr, rfl⟩ := store_eq_some_iff.mp hd
      exact ⟨hr, (Option.some.inj h).symm⟩
    · cases h
  · rintro ⟨hr, rfl⟩
    rw [store_of_range e hr.1 hr.2]

theorem seqlist_fresh_fields {C : Int} {s : SeqList T} (h : s.Fresh C) :
    s.m_capa = C ∧ s.m_n = 0 := by
  rcases h with ⟨heap, h⟩ | ⟨r, hr, rfl⟩
  · unfold ofCapacity at h
    split at h
    · cases h
      exact ⟨rfl, rfl⟩
    · cases h
  · exact ⟨hr, rfl⟩

theorem seqlist_ofCapacity_eq_some_iff {n : Int} {heap : Option (Nat → T)} {s : SeqList T} :
    ofCapacity n heap = some s ↔ ∃ junk, heap = some junk ∧ 0 ≤ n ∧
      s = { m_capa := n, m_n := 0, m_data := (List.range n.toNat).map junk, m_own := true } := by
  unfold ofCapacity
  constructor
  · intro h
    split at h
    · next d hd =>
      obtain ⟨junk, hj, h0, rfl⟩ := new_array_eq_some_iff.mp hd
      exact ⟨junk, hj, h0, (Option.some.inj h).symm⟩
    · cases h
  · rintro ⟨junk, hj, h0, rfl⟩
    rw [new_array_eq_some_iff.mpr ⟨junk, hj, h0, rfl⟩]

/-- The block obtained by the allocating constructor has exactly `n` cells. -/
theorem seqlist_ofCapacity_length {n : Int} {heap : Option (Nat → T)} {s : SeqList T}
    (h : ofCapacity n heap = some s) : (s.m_data.length : Int) = n := by
  obtain ⟨junk, -, h0, rfl⟩ := seqlist_ofCapacity_eq_some_iff.mp h
  simp
  omega

theorem exec_add {s s1 : SeqList T} {e : T} (h : s.add e = some s1) :
    exec s (Op.add e) = some (s1, Ret.void) := by
  simp only [exec, h]

theorem exec_set {s s1 : SeqList T} {i : Int} {e : T} (h : s.set i e = some s1) :
    exec s (Op.set i e) = some (s1, Ret.void) := by
  simp only [exec, h]

theorem exec_get {s : SeqList T} {i : Int} {x : T} (h : s.get i = some x) :
    exec s (Op.get i) = some (s, Ret.ref x) := by
  simp only [exec, h]

theorem run_adds (vs : List T) : ∀ s : SeqList T, 0 ≤ s.m_n →
    s.m_n + vs.length ≤ s.m_data.length → s.m_n + vs.length ≤ 2147483647 →
    ∃ s1, s.run (vs.map Op.add) = some (s1, List.replicate vs.length Ret.void) ∧
      s1.m_capa = s.m_capa ∧ s1.m_n = s.m_n + vs.length ∧
      s1.m_own = s.m_own ∧ s1.m_data.length = s.m_data.length ∧
      (∀ j : Nat, (j : Int) < s.m_n → s1.m_data[j]? = s.m_data[j]?) ∧
      (∀ j : Nat, j < vs.length → s1.m_data[s.m_n.toNat + j]? = vs[j]?) := by
  induction vs with
  | nil =>
    intro s _ _ _
    exact ⟨s, rfl, rfl, by simp, rfl, rfl, fun _ _ => rfl, fun j hj => by simp at hj⟩
  | cons v vs ih =>
    intro s h0 hlen hmax
    simp only [List.length_cons, Nat.cast_add, Nat.cast_one] at hlen hmax
    have he := (add_eq_some_iff (s := s) (e := v)).mpr ⟨⟨h0, by omega⟩, by omega, rfl⟩
    obtain ⟨s1, hrun, hc, hb, ho, hl, hlow, hnew⟩ :=
      ih { s with m_n := s.m_n + 1, m_data := s.m_data.set s.m_n.toNat v }
        (by simp only; omega) (by simp only [List.length_set]; omega) (by simp only; omega)
    simp only [List.length_set] at hc hb ho hl hlow hnew
    refine ⟨s1, ?_, hc, ?_, ho, hl, ?_, ?_⟩
    · unfold run at hrun ⊢
      rw [List.map_cons, runCalls_cons_of_exec _ (exec_add he), hrun]
      rfl
    · rw [hb]
      simp only [List.length_cons, Nat.cast_add, Nat.cast_one]
      omega
    · intro j hj
      rw [hlow j (by omega), List.getElem?_set_ne (by omega)]
    · intro j hj
      cases j with
      | zero =>
        have hk : ((s.m_n.toNat : Nat) : Int) < s.m_n + 1 := by omega
        rw [Nat.add_zero, hlow _ hk, List.getElem?_set_self (by omega), List.getElem?_cons_zero]
      | succ j =>
        have hj1 : j < vs.length := by simpa using hj
        have hidx : s.m_n.toNat + (j + 1) = (s.m_n + 1).toNat + j := by omega
        rw [hidx, hnew j hj1, List.getElem?_cons_succ]

end SeqListCalls

/-! ## Stack and SeqList: calls within the contract -/

section StackContract

open Stack

variable {T : Type}

theorem stack_similar_refl (a : Stack T) : a.Similar a :=
  ⟨rfl, rfl, fun _ _ => rfl⟩

theorem stack_exec_similar {a b : Stack T} {op : Op T}
    (ha : a.CursorsOk) (hsa : a.StorageOk) (hsb : b.StorageOk) (hab : a.Similar b)
    (hop : a.pre op = true) :
    ∃ a1 b1 r, exec a op = some (a1, r) ∧ exec b op = some (b1, r) ∧
      a1.CursorsOk ∧ a1.StorageOk ∧ b1.StorageOk ∧ a1.Similar b1 := by
  obtain ⟨hn0, hnc⟩ := ha
  obtain ⟨hmaxa, hlena⟩ := hsa
  obtain ⟨hmaxb, hlenb⟩ := hsb
  obtain ⟨hcap, hn, hcells⟩ := hab
  unfold INT_MAX at hmaxa hmaxb
  cases op with
  | capacity =>
    refine ⟨a, b, Ret.int a.m_capa, rfl, ?_, ⟨hn0, hnc⟩, ⟨hmaxa, hlena⟩, ⟨hmaxb, hlenb⟩,
      ⟨hcap, hn, hcells⟩⟩
    simp only [exec, capacity, hcap]
  | size =>
    refine ⟨a, b, Ret.int a.m_n, rfl, ?_, ⟨hn0, hnc⟩, ⟨hmaxa, hlena⟩, ⟨hmaxb, hlenb⟩,
      ⟨hcap, hn, hcells⟩⟩
    simp only [exec, size, hn]
  | empty =>
    refine ⟨a, b, Ret.bool a.empty, rfl, ?_, ⟨hn0, hnc⟩, ⟨hmaxa, hlena⟩, ⟨hmaxb, hlenb⟩,
      ⟨hcap, hn, hcells⟩⟩
    simp only [exec, Stack.empty, hn]
  | push e =>
    simp only [pre, decide_eq_true_eq] at hop
    have h1 := (push_eq_some_iff (s := a) (e := e)).mpr ⟨⟨by omega, by omega⟩, by omega, rfl⟩
    have h2 := (push_eq_some_iff (s := b) (e := e)).mpr ⟨⟨by omega, by omega⟩, by omega, rfl⟩
    refine ⟨_, _, Ret.void, exec_push h1, exec_push h2, ?_, ?_, ?_, ?_⟩
    · exact ⟨by simp only; omega, by simp only; omega⟩
    · exact ⟨hmaxa, by simp only [List.length_set]; exact hlena⟩
    · exact ⟨hmaxb, by simp only [List.length_set]; exact hlenb⟩
    · refine ⟨hcap, by simp only; omega, ?_⟩
      intro j hj
      simp only at hj ⊢
      rw [← hn]
      exact getElem?_set_congr e (by omega) (by omega) (fun hne => hcells j (by omega))
  | pop =>
    simp only [pre, decide_eq_true_eq] at hop
    have h1 := (pop_eq_some_iff (s := a)).mpr ⟨⟨by omega, by omega⟩, rfl⟩
    have h2 := (pop_eq_some_iff (s := b)).mpr ⟨⟨by omega, by omega⟩, rfl⟩
    refine ⟨_, _, Ret.void, exec_pop h1, exec_pop h2, ?_, ⟨hmaxa, hlena⟩,
      ⟨hmaxb, hlenb⟩, ?_⟩
    · exact ⟨by simp only; omega, by simp only; omega⟩
    · refine ⟨hcap, by simp only; omega, ?_⟩
      intro j hj
      simp only at hj
      exact hcells j (by omega)
  | top =>
    simp only [pre, decide_eq_true_eq] at hop
    have hlt : (a.m_n - 1).toNat < a.m_data.length := by omega
    have h1 : a.top = some (a.m_data[(a.m_n - 1).toNat]) := by
      rw [top_of_pos hop (by omega), List.getElem?_eq_getElem hlt]
    have h2 : b.top = some (a.m_data[(a.m_n - 1).toNat]) := by
      rw [top_of_pos (by omega) (by omega), ← hn, ← hcells _ (by omega),
        List.getElem?_eq_getElem hlt]
    exact ⟨a, b, _, exec_top h1, exec_top h2, ⟨hn0, hnc⟩, ⟨hmaxa, hlena⟩, ⟨hmaxb, hlenb⟩,
      ⟨hcap, hn, hcells⟩⟩
  | setTop e =>
    simp only [pre, decide_eq_true_eq] at hop
    have h1 := (setTop_eq_some_iff (s := a) (e := e)).mpr
      ⟨⟨by omega, by omega⟩, ⟨by omega, by omega⟩, rfl⟩
    have h2 := (setTop_eq_some_iff (s := b) (e := e)).mpr
      ⟨⟨by omega, by omega⟩, ⟨by omega, by omega⟩, rfl⟩
    refine ⟨_, _, Ret.void, exec_setTop h1, exec_setTop h2, ?_, ?_, ?_, ?_⟩
    · exact ⟨hn0, hnc⟩
    · exact ⟨hmaxa, by simp only [List.length_set]; exact hlena⟩
    · exact ⟨hmaxb, by simp only [List.length_set]; exact hlenb⟩
    · refine ⟨hcap, hn, ?_⟩
      intro j hj
      simp only at hj ⊢
      rw [← hn]
      exact getElem?_set_congr e (by omega) (by omega) (fun _ => hcells j hj)
  | clear =>
    refine ⟨a.clear, b.clear, Ret.void, rfl, rfl, ?_, ⟨hmaxa, hlena⟩, ⟨hmaxb, hlenb⟩, ?_⟩
    · exact ⟨le_refl 0, by simp only [Stack.clear]; omega⟩
    · refine ⟨hcap, rfl, ?_⟩
      intro j hj
      simp only [Stack.clear] at hj
      omega

theorem stack_pre_similar {a b : Stack T} (h : a.Similar b) (op : Op T) :
    b.pre op = a.pre op := by
  obtain ⟨hc, hn, -⟩ := h
  cases op <;> simp only [pre, hc, hn]

theorem stack_run_similar (ops : List (Op T)) : ∀ a b : Stack T,
    a.CursorsOk → a.StorageOk → b.StorageOk → a.Similar b → a.inContract ops = true →
    b.inContract ops = true ∧
    ∃ a1 b1 rs, a.run ops = some (a1, rs) ∧ b.run ops = some (b1, rs) ∧
      a1.CursorsOk ∧ a1.StorageOk ∧ b1.StorageOk ∧ a1.Similar b1 := by
  induction ops with
  | nil =>
    intro a b ha hsa hsb hab _
    exact ⟨rfl, a, b, [], rfl, rfl, ha, hsa, hsb, hab⟩
  | cons op ops ih =>
    intro a b ha hsa hsb hab hc
    unfold inContract at hc ih ⊢
    unfold run at ih ⊢
    have hp : a.pre op = true := by
      rw [callsInContract] at hc
      exact (Bool.and_eq_true_iff.mp hc).1
    obtain ⟨a1, b1, r, hea, heb, ha1, hsa1, hsb1, hab1⟩ := stack_exec_similar ha hsa hsb hab hp
    rw [callsInContract_cons_of_exec _ hea] at hc
    obtain ⟨hcb, a2, b2, rs, hra, hrb, h2⟩ :=
      ih a1 b1 ha1 hsa1 hsb1 hab1 (Bool.and_eq_true_iff.mp hc).2
    refine ⟨?_, a2, b2, r :: rs, ?_, ?_, h2⟩
    · rw [callsInContract_cons_of_exec _ heb, hcb, stack_pre_similar hab, hp]
      rfl
    · rw [runCalls_cons_of_exec _ hea, hra]
      rfl
    · rw [runCalls_cons_of_exec _ heb, hrb]
      rfl

theorem stack_fresh_cursorsOk {C : Int} {s : Stack T} (hs : s.Fresh C) (h0 : 0 ≤ C) :
    s.CursorsOk := by
  obtain ⟨hcap, hn⟩ := stack_fresh_fields hs
  exact ⟨by omega, by omega⟩

end StackContract

section SeqListContract

open SeqList

variable {T : Type}

theorem seqlist_similar_refl (a : SeqList T) : a.Similar a :=
  ⟨rfl, rfl, fun _ _ => rfl⟩

theorem seqlist_exec_similar {a b : SeqList T} {op : Op T}
    (ha : a.CursorsOk) (hsa : a.StorageOk) (hsb : b.StorageOk) (hab : a.Similar b)
    (hop : a.pre op = true) :
    ∃ a1 b1 r, exec a op = some (a1, r) ∧ exec b op = some (b1, r) ∧
      a1.CursorsOk ∧ a1.StorageOk ∧ b1.StorageOk ∧ a1.Similar b1 := by
  obtain ⟨hn0, hnc⟩ := ha
  obtain ⟨hmaxa, hlena⟩ := hsa
  obtain ⟨hmaxb, hlenb⟩ := hsb
  obtain ⟨hcap, hn, hcells⟩ := hab
  unfold INT_MAX at hmaxa hmaxb
  cases op with
  | capacity =>
    refine ⟨a, b, Ret.int a.m_capa, rfl, ?_, ⟨hn0, hnc⟩, ⟨hmaxa, hlena⟩, ⟨hmaxb, hlenb⟩,
      ⟨hcap, hn, hcells⟩⟩
    simp only [exec, capacity, hcap]
  | size =>
    refine ⟨a, b, Ret.int a.m_n, rfl, ?_, ⟨hn0, hnc⟩, ⟨hmaxa, hlena⟩, ⟨hmaxb, hlenb⟩,
      ⟨hcap, hn, hcells⟩⟩
    simp only [exec, size, hn]
  | empty =>
    refine ⟨a, b, Ret.bool a.empty, rfl, ?_, ⟨hn0, hnc⟩, ⟨hmaxa, hlena⟩, ⟨hmaxb, hlenb⟩,
      ⟨hcap, hn, hcells⟩⟩
    simp only [exec, SeqList.empty, hn]
  | get i =>
    simp only [pre, decide_eq_true_eq] at hop
    have hlt : i.toNat < a.m_data.length := by omega
    have h1 : a.get i = some (a.m_data[i.toNat]) := by
      unfold SeqList.get
      rw [load_of_nonneg hop.1, List.getElem?_eq_getElem hlt]
    have h2 : b.get i = some (a.m_data[i.toNat]) := by
      unfold SeqList.get
      rw [load_of_nonneg hop.1, ← hcells _ (by omega), List.getElem?_eq_getElem hlt]
    exact ⟨a, b, _, exec_get h1, exec_get h2, ⟨hn0, hnc⟩, ⟨hmaxa, hlena⟩, ⟨hmaxb, hlenb⟩,
      ⟨hcap, hn, hcells⟩⟩
  | set i e =>
    simp only [pre, decide_eq_true_eq] at hop
    have h1 := (set_eq_some_iff (s := a) (i := i) (e := e)).mpr ⟨⟨by omega, by omega⟩, rfl⟩
    have h2 := (set_eq_some_iff (s := b) (i := i) (e := e)).mpr ⟨⟨by omega, by omega⟩, rfl⟩
    refine ⟨_, _, Ret.void, exec_set h1, exec_set h2, ?_, ?_, ?_, ?_⟩
    · exact ⟨hn0, hnc⟩
    · exact ⟨hmaxa, by simp only [List.length_set]; exact hlena⟩
    · exact ⟨hmaxb, by simp only [List.length_set]; exact hlenb⟩
    · refine ⟨hcap, hn, ?_⟩
      intro j hj
      simp only at hj ⊢
      exact getElem?_set_congr e (by omega) (by omega) (fun _ => hcells j hj)
  | add e =>
    simp only [pre, decide_eq_true_eq] at hop
    have h1 := (add_eq_some_iff (s := a) (e := e)).mpr ⟨⟨by omega, by omega⟩, by omega, rfl⟩
    have h2 := (add_eq_some_iff (s := b) (e := e)).mpr ⟨⟨by omega, by omega⟩, by omega, rfl⟩
    refine ⟨_, _, Ret.void, exec_add h1, exec_add h2, ?_, ?_, ?_, ?_⟩
    · exact ⟨by simp only; omega, by simp only; omega⟩
    · exact ⟨hmaxa, by simp only [List.length_set]; exact hlena⟩
    · exact ⟨hmaxb, by simp only [List.length_set]; exact hlenb⟩
    · refine ⟨hcap, by simp only; omega, ?_⟩
      intro j hj
      simp only at hj ⊢
      rw [← hn]
      exact getElem?_set_congr e (by omega) (by omega) (fun hne => hcells j (by omega))
  | clear =>
    refine ⟨a.clear, b.clear, Ret.void, rfl, rfl, ?_, ⟨hmaxa, hlena⟩, ⟨hmaxb, hlenb⟩, ?_⟩
    · exact ⟨le_refl 0, by simp only [SeqList.clear]; omega⟩
    · refine ⟨hcap, rfl, ?_⟩
      intro j hj
      simp only [SeqList.clear] at hj
      omega

theorem seqlist_pre_similar {a b : SeqList T} (h : a.Similar b) (op : Op T) :
    b.pre op = a.pre op := by
  obtain ⟨hc, hn, -⟩ := h
  cases op <;> simp only [pre, hc, hn]

theorem seqlist_run_similar (ops : List (Op T)) : ∀ a b : SeqList T,
    a.CursorsOk → a.StorageOk → b.StorageOk → a.Similar b → a.inContract ops = true →
    b.inContract ops = true ∧
    ∃ a1 b1 rs, a.run ops = some (a1, rs) ∧ b.run ops = some (b1, rs) ∧
      a1.CursorsOk ∧ a1.StorageOk ∧ b1.StorageOk ∧ a1.Similar b1 := by
  induction ops with
  | nil =>
    intro a b ha hsa hsb hab _
    exact ⟨rfl, a, b, [], rfl, rfl, ha, hsa, hsb, hab⟩
  | cons op ops ih =>
    intro a b ha hsa hsb hab hc
    unfold inContract at hc ih ⊢
    unfold run at ih ⊢
    have hp : a.pre op = true := by
      rw [callsInContract] at hc
      exact (Bool.and_eq_true_iff.mp hc).1
    obtain ⟨a1, b1, r, hea, heb, ha1, hsa1, hsb1, hab1⟩ :=
      seqlist_exec_similar ha hsa hsb hab hp
    rw [callsInContract_cons_of_exec _ hea] at hc
    obtain ⟨hcb, a2, b2, rs, hra, hrb, h2⟩ :=
      ih a1 b1 ha1 hsa1 hsb1 hab1 (Bool.and_eq_true_iff.mp hc).2
    refine ⟨?_, a2, b2, r :: rs, ?_, ?_, h2⟩
    · rw [callsInContract_cons_of_exec _ heb, hcb, seqlist_pre_similar hab, hp]
      rfl
    · rw [runCalls_cons_of_exec _ hea, hra]
      rfl
    · rw [runCalls_cons_of_exec _ heb, hrb]
      rfl

theorem seqlist_fresh_cursorsOk {C : Int} {s : SeqList T} (hs : s.Fresh C) (h0 : 0 ≤ C) :
    s.CursorsOk := by
  obtain ⟨hcap, hn⟩ := seqlist_fresh_fields hs
  exact ⟨by omega, by omega⟩

end SeqListContract

/-! ## Stack: arbitrary calls after `clear()` -/

section StackAnyCalls

open Stack

variable {T : Type}

theorem stack_top_similar {a b : Stack T} (hab : a.Similar b) : a.top = b.top := by
  obtain ⟨-, hn, hcells⟩ := hab
  unfold top
  rw [← hn]
  cases hi : int_result (a.m_n - 1) with
  | none => rfl
  | some i =>
    obtain ⟨-, rfl⟩ := int_result_eq_some_iff.mp hi
    simp only
    unfold load
    by_cases h0 : 0 ≤ a.m_n - 1
    · rw [if_pos h0, if_pos h0]
      exact hcells _ (by omega)
    · rw [if_neg h0, if_neg h0]

theorem stack_exec_agree {a b : Stack T} (hab : a.Similar b)
    (hlen : a.m_data.length = b.m_data.length) (op : Op T) :
    (exec a op = none ∧ exec b op = none) ∨
      ∃ a1 b1 r, exec a op = some (a1, r) ∧ exec b op = some (b1, r) ∧ a1.Similar b1 ∧
        a1.m_data.length = b1.m_data.length := by
  have htop := stack_top_similar hab
  obtain ⟨hcap, hn, hcells⟩ := hab
  cases op with
  | capacity =>
    refine Or.inr ⟨a, b, Ret.int a.m_capa, rfl, ?_, ⟨hcap, hn, hcells⟩, hlen⟩
    simp only [exec, capacity, hcap]
  | size =>
    refine Or.inr ⟨a, b, Ret.int a.m_n, rfl, ?_, ⟨hcap, hn, hcells⟩, hlen⟩
    simp only [exec, size, hn]
  | empty =>
    refine Or.inr ⟨a, b, Ret.bool a.empty, rfl, ?_, ⟨hcap, hn, hcells⟩, hlen⟩
    simp only [exec, Stack.empty, hn]
  | push e =>
    by_cases h : (0 ≤ a.m_n ∧ a.m_n < a.m_data.length) ∧ a.m_n + 1 ≤ 2147483647
    · have h1 := (push_eq_some_iff (s := a) (e := e)).mpr ⟨h.1, h.2, rfl⟩
      have h2 := (push_eq_some_iff (s := b) (e := e)).mpr
        ⟨⟨by omega, by omega⟩, by omega, rfl⟩
      refine Or.inr ⟨_, _, Ret.void, exec_push h1, exec_push h2, ⟨hcap, ?_, ?_⟩, ?_⟩
      · simp only
        omega
      · intro j hj
        simp only at hj ⊢
        rw [← hn]
        exact getElem?_set_congr e (by omega) (by omega) (fun hne => hcells j (by omega))
      · simp only [List.length_set]
        exact hlen
    · have h1 : a.push e = none := by
        cases hp : a.push e with
        | none => rfl
        | some x =>
          obtain ⟨k1, k2, -⟩ := push_eq_some_iff.mp hp
          exact absurd ⟨k1, k2⟩ h
      have h2 : b.push e = none := by
        cases hp : b.push e with
        | none => rfl
        | some x =>
          obtain ⟨k1, k2, -⟩ := push_eq_some_iff.mp hp
          exact absurd ⟨⟨by omega, by omega⟩, by omega⟩ h
      exact Or.inl ⟨by simp only [exec, h1], by simp only [exec, h2]⟩
  | pop =>
    by_cases h : -2147483648 ≤ a.m_n - 1 ∧ a.m_n - 1 ≤ 2147483647
    · have h1 := (pop_eq_some_iff (s := a)).mpr ⟨h, rfl⟩
      have h2 := (pop_eq_some_iff (s := b)).mpr ⟨⟨by omega, by omega⟩, rfl⟩
      refine Or.inr ⟨_, _, Ret.void, exec_pop h1, exec_pop h2, ⟨hcap, ?_, ?_⟩, hlen⟩
      · simp only
        omega
      · intro j hj
        simp only at hj
        exact hcells j (by omega)
    · have h1 : a.pop = none := by
        cases hp : a.pop with
        | none => rfl
        | some x => exact absurd (pop_eq_some_iff.mp hp).1 h
      have h2 : b.pop = none := by
        cases hp : b.pop with
        | none => rfl
        | some x =>
          obtain ⟨k1, -⟩ := pop_eq_some_iff.mp hp
          exact absurd ⟨by omega, by omega⟩ h
      exact Or.inl ⟨by simp only [exec, h1], by simp only [exec, h2]⟩
  | top =>
    cases ht : a.top with
    | none =>
      exact Or.inl ⟨by simp only [exec, ht], by simp only [exec, ← htop, ht]⟩
    | some x =>
      exact Or.inr ⟨a, b, Ret.ref x, exec_top ht, exec_top (htop ▸ ht), ⟨hcap, hn, hcells⟩,
        hlen⟩
  | setTop e =>
    by_cases h : (-2147483648 ≤ a.m_n - 1 ∧ a.m_n - 1 ≤ 2147483647) ∧
        (0 ≤ a.m_n - 1 ∧ a.m_n - 1 < a.m_data.length)
    · have h1 := (setTop_eq_some_iff (s := a) (e := e)).mpr ⟨h.1, h.2, rfl⟩
      have h2 := (setTop_eq_some_iff (s := b) (e := e)).mpr
        ⟨⟨by omega, by omega⟩, ⟨by omega, by omega⟩, rfl⟩
      refine Or.inr ⟨_, _, Ret.void, exec_setTop h1, exec_setTop h2, ⟨hcap, hn, ?_⟩, ?_⟩
      · intro j hj
        simp only at hj ⊢
        rw [← hn]
        exact getElem?_set_congr e (by omega) (by omega) (fun _ => hcells j hj)
      · simp only [List.length_set]
        exact hlen
    · have h1 : a.setTop e = none := by
        cases hp : a.setTop e with
        | none => rfl
        | some x =>
          obtain ⟨k1, k2, -⟩ := setTop_eq_some_iff.mp hp
          exact absurd ⟨k1, k2⟩ h
      have h2 : b.setTop e = none := by
        cases hp : b.setTop e with
        | none => rfl
        | some x =>
          obtain ⟨k1, k2, -⟩ := setTop_eq_some_iff.mp hp
          exact absurd ⟨⟨by omega, by omega⟩, ⟨by omega, by omega⟩⟩ h
      exact Or.inl ⟨by simp only [exec, h1], by simp only [exec, h2]⟩
  | clear =>
    refine Or.inr ⟨a.clear, b.clear, Ret.void, rfl, rfl, ⟨hcap, rfl, ?_⟩, hlen⟩
    intro j hj
    simp only [Stack.clear] at hj
    omega

theorem stack_run_agree (ops : List (Op T)) : ∀ a b : Stack T, a.Similar b →
    a.m_data.length = b.m_data.length →
    (a.run ops).map Prod.snd = (b.run ops).map Prod.snd := by
  induction ops with
  | nil =>
    intro a b _ _
    rfl
  | cons op ops ih =>
    intro a b hab hlen
    unfold run at ih ⊢
    rcases stack_exec_agree hab hlen op with ⟨h1, h2⟩ | ⟨a1, b1, r, h1, h2, hab1, hlen1⟩
    · rw [runCalls, runCalls, h1, h2]
    · rw [runCalls_cons_of_exec _ h1, runCalls_cons_of_exec _ h2, Option.map_map,
        Option.map_map]
      have hi := ih a1 b1 hab1 hlen1
      have hcomp : (Prod.snd ∘ fun p : Stack T × List (Ret T) => (p.1, r :: p.2)) =
          (fun l => r :: l) ∘ Prod.snd := rfl
      rw [hcomp, ← Option.map_map, ← Option.map_map, hi]

end StackAnyCalls

/-! ## Frame of the calls: capacity, ownership flag and block length -/

section StackFrame

open Stack

variable {T : Type}

theorem stack_exec_frame {s s1 : Stack T} {op : Op T} {r : Ret T}
    (h : exec s op = some (s1, r)) :
    s1.m_capa = s.m_capa ∧ s1.m_own = s.m_own ∧ s1.m_data.length = s.m_data.length := by
  cases op with
  | capacity =>
    cases h
    exact ⟨rfl, rfl, rfl⟩
  | size =>
    cases h
    exact ⟨rfl, rfl, rfl⟩
  | empty =>
    cases h
    exact ⟨rfl, rfl, rfl⟩
  | push e =>
    simp only [exec] at h
    split at h
    · next s2 he =>
      cases h
      obtain ⟨-, -, rfl⟩ := push_eq_some_iff.mp he
      exact ⟨rfl, rfl, List.length_set _ _ _⟩
    · cases h
  | pop =>
    simp only [exec] at h
    split at h
    · next s2 he =>
      cases h
      obtain ⟨-, rfl⟩ := pop_eq_some_iff.mp he
      exact ⟨rfl, rfl, rfl⟩
    · cases h
  | top =>
    simp only [exec] at h
    split at h
    · cases h
      exact ⟨rfl, rfl, rfl⟩
    · cases h
  | setTop e =>
    simp only [exec] at h
    split at h
    · next s2 he =>
      cases h
      obtain ⟨-, -, rfl⟩ := setTop_eq_some_iff.mp he
      exact ⟨rfl, rfl, List.length_set _ _ _⟩
    · cases h
  | clear =>
    cases h
    exact ⟨rfl, rfl, rfl⟩

theorem stack_run_frame (ops : List (Op T)) : ∀ (s s1 : Stack T) (rs : List (Ret T)),
    s.run ops = some (s1, rs) →
    s1.m_capa = s.m_capa ∧ s1.m_own = s.m_own ∧ s1.m_data.length = s.m_data.length := by
  induction ops with
  | nil =>
    intro s s1 rs h
    cases h
    exact ⟨rfl, rfl, rfl⟩
  | cons op ops ih =>
    intro s s1 rs h
    unfold run at h ih
    obtain ⟨sa, r, rs1, he, hr, -⟩ := runCalls_cons_eq_some_iff.mp h
    obtain ⟨h1, h2, h3⟩ := stack_exec_frame he
    obtain ⟨k1, k2, k3⟩ := ih sa s1 rs1 hr
    exact ⟨k1.trans h1, k2.trans h2, k3.trans h3⟩

end StackFrame

section SeqListFrame

open SeqList

variable {T : Type}

theorem seqlist_exec_frame {s s1 : SeqList T} {op : Op T} {r : Ret T}
    (h : exec s op = some (s1, r)) :
    s1.m_capa = s.m_capa ∧ s1.m_own = s.m_own ∧ s1.m_data.length = s.m_data.length := by
  cases op with
  | capacity =>
    cases h
    exact ⟨rfl, rfl, rfl⟩
  | size =>
    cases h
    exact ⟨rfl, rfl, rfl⟩
  | empty =>
    cases h
    exact ⟨rfl, rfl, rfl⟩
  | get i =>
    simp only [exec] at h
    split at h
    · cases h
      exact ⟨rfl, rfl, rfl⟩
    · cases h
  | set i e =>
    simp only [exec] at h
    split at h
    · next s2 he =>
      cases h
      obtain ⟨-, rfl⟩ := set_eq_some_iff.mp he
      exact ⟨rfl, rfl, List.length_set _ _ _⟩
    · cases h
  | add e =>
    simp only [exec] at h
    split at h
    · next s2 he =>
      cases h
      obtain ⟨-, -, rfl⟩ := add_eq_some_iff.mp he
      exact ⟨rfl, rfl, List.length_set _ _ _⟩
    · cases h
  | clear =>
    cases h
    exact ⟨rfl, rfl, rfl⟩

theorem seqlist_run_frame (ops : List (Op T)) : ∀ (s s1 : SeqList T) (rs : List (Ret T)),
    s.run ops = some (s1, rs) →
    s1.m_capa = s.m_capa ∧ s1.m_own = s.m_own ∧ s1.m_data.length = s.m_data.length := by
  induction ops with
  | nil =>
    intro s s1 rs h
    cases h
    exact ⟨rfl, rfl, rfl⟩
  | cons op ops ih =>
    intro s s1 rs h
    unfold run at h ih
    obtain ⟨sa, r, rs1, he, hr, -⟩ := runCalls_cons_eq_some_iff.mp h
    obtain ⟨h1, h2, h3⟩ := seqlist_exec_frame he
    obtain ⟨k1, k2, k3⟩ := ih sa s1 rs1 hr
    exact ⟨k1.trans h1, k2.trans h2, k3.trans h3⟩

end SeqListFrame

/-! ## Claims on the queue -/

section QueueClaims

open Queue

variable {T : Type}

/-- C1: the queue is first-in-first-out. For every capacity `C` (an `int`), a queue
built by either constructor with count `C` over storage of at least `C` cells, and
values `v1 :: rest` with `k = 1 + rest.length <= C`: the `k` calls `enqueue(v1)`, ...
all have a defined effect, after them `size()` returns `k` and `front()` returns `v1`;
and when there is a second value `v2`, one `dequeue()` is defined and afterwards
`front()` returns `v2` and `size()` returns `k - 1`. -/
theorem queue_fifo (C : Int) (hC : C ≤ INT_MAX) (q : Queue T) (hq : q.Fresh C)
    (hroom : C ≤ q.m_data.length) (v1 : T) (rest : List T)
    (hk : ((v1 :: rest).length : Int) ≤ C) :
    ∃ q1 rs, q.run ((v1 :: rest).map Op.enqueue) = some (q1, rs) ∧
      q1.size = some ((v1 :: rest).length : Int) ∧ q1.front = some v1 ∧
      ∀ v2 rest2, rest = v2 :: rest2 →
        ∃ q2, q1.dequeue = some q2 ∧ q2.front = some v2 ∧
          q2.size = some (((v1 :: rest).length : Int) - 1) := by
  obtain ⟨hcap, hf, hb⟩ := queue_fresh_fields hq
  unfold INT_MAX at hC
  obtain ⟨q1, hrun, hc1, hf1, hb1, -, hl1, -, hnew⟩ :=
    run_enqueues (v1 :: rest) q (by omega) (by omega) (by omega)
  rw [hb] at hb1 hnew
  rw [hf] at hf1
  simp only [List.length_cons, Nat.cast_add, Nat.cast_one] at hk hb1 ⊢
  refine ⟨q1, _, hrun, ?_, ?_, ?_⟩
  · unfold size
    rw [hb1, hf1]
    exact int_result_eq_some_iff.mpr ⟨⟨by omega, by omega⟩, by omega⟩
  · unfold front
    rw [hf1, load_of_nonneg (le_refl 0)]
    have := hnew 0 (by simp)
    simpa using this
  · rintro v2 rest2 rfl
    have hd := (dequeue_eq_some_iff (q := q1)).mpr ⟨⟨by omega, by omega⟩, rfl⟩
    refine ⟨_, hd, ?_, ?_⟩
    · unfold front
      simp only [hf1]
      rw [load_of_nonneg (by omega)]
      have := hnew 1 (by simp)
      simpa using this
    · unfold size
      simp only [hf1, hb1]
      exact int_result_eq_some_iff.mpr ⟨⟨by omega, by omega⟩, by omega⟩

/-- Witness for C1: `Queue<int>` of capacity 3, enqueue 1, 2, 3. -/
theorem queue_fifo_witness :
    ∃ q1 rs, (Queue.ofRef (refmem 3 [(0 : Int), 0, 0])).run
        ([1, 2, 3].map Op.enqueue) = some (q1, rs) ∧
      q1.size = some (([(1 : Int), 2, 3].length : Int)) ∧ q1.front = some 1 ∧
      ∀ v2 rest2, [(2 : Int), 3] = v2 :: rest2 →
        ∃ q2, q1.dequeue = some q2 ∧ q2.front = some v2 ∧
          q2.size = some ((([(1 : Int), 2, 3]).length : Int) - 1) :=
  queue_fifo 3 (by decide) (Queue.ofRef (refmem 3 [(0 : Int), 0, 0]))
    (Or.inr ⟨refmem 3 [0, 0, 0], rfl, rfl⟩) (by decide) 1 [2, 3] (by decide)

end QueueClaims

section QueueWindowClaim

open Queue

variable {T : Type}

/-- C2: the queue is a non-circular one-shot window. For a queue built by either
constructor with count `C`: (1) `dequeue()` never changes `m_iback`; (2) after every
sequence of `enqueue` and `dequeue` calls with a defined effect, `m_iback` is the number
of `enqueue` calls made, and the precondition `m_iback < m_capa` of one more `enqueue`
holds exactly when fewer than `C` were made, however many `dequeue` calls there were;
(3) after `C` enqueues and `C` dequeues (storage of at least `C` cells) `empty()` is true
and `size()` is `0`, yet one more `enqueue` is out of contract: it addresses cell `C`,
so it writes there when the block happens to be longer and has no defined effect when
the block has exactly `C` cells; it never goes back to cell `0`. -/
theorem queue_one_shot_window (C : Int) (q : Queue T) (hq : q.Fresh C) :
    (∀ a b : Queue T, a.dequeue = some b → b.m_iback = a.m_iback) ∧
    (∀ (ops : List (Op T)) (q1 : Queue T) (rs : List (Ret T)),
      (∀ op ∈ ops, op.isEnqueue = true ∨ op.isDequeue = true) →
      q.run ops = some (q1, rs) →
        q1.m_iback = (ops.countP Op.isEnqueue : Nat) ∧
        (q1.m_iback < q1.m_capa ↔ ((ops.countP Op.isEnqueue : Nat) : Int) < C) ∧
        ∀ v, q1.pre (Op.enqueue v) = decide (((ops.countP Op.isEnqueue : Nat) : Int) < C)) ∧
    (C ≤ INT_MAX → C ≤ q.m_data.length → ∀ vs : List T, (vs.length : Int) = C →
      ∃ q1 rs, q.run (vs.map Op.enqueue ++ List.replicate vs.length Op.dequeue) =
          some (q1, rs) ∧
        q1.empty = true ∧ q1.size = some 0 ∧ q1.m_iback = C ∧
        ∀ v, q1.pre (Op.enqueue v) = false ∧
          (∀ q2, q1.enqueue v = some q2 → q2.m_data = q1.m_data.set C.toNat v) ∧
          ((q1.m_data.length : Int) = C → q1.enqueue v = none)) := by
  obtain ⟨hcap, hf, hb⟩ := queue_fresh_fields hq
  refine ⟨?_, ?_, ?_⟩
  · intro a b h
    obtain ⟨-, rfl⟩ := dequeue_eq_some_iff.mp h
    rfl
  · intro ops q1 rs hops hrun
    obtain ⟨h1, h2⟩ := run_enqueue_dequeue_back ops q q1 rs hops hrun
    rw [hb, zero_add] at h1
    rw [hcap] at h2
    refine ⟨h1, ?_, ?_⟩
    · rw [h1, h2]
    · intro v
      simp only [pre, h1, h2]
  · intro hC hroom vs hlen
    unfold INT_MAX at hC
    obtain ⟨qa, hrun, hca, hfa, hba, -, hla, -, -⟩ :=
      run_enqueues vs q (by omega) (by omega) (by omega)
    have hdq := run_dequeues vs.length qa (by omega) (by omega)
    unfold run at hrun hdq ⊢
    rw [runCalls_append_of_some _ hrun, hdq]
    refine ⟨_, _, rfl, ?_, ?_, ?_, ?_⟩
    · simp only [Queue.empty, decide_eq_true_eq]
      omega
    · simp only [size]
      exact int_result_eq_some_iff.mpr ⟨⟨by omega, by omega⟩, by omega⟩
    · simp only
      omega
    · intro v
      refine ⟨?_, ?_, ?_⟩
      · simp only [pre, decide_eq_false_iff_not]
        omega
      · intro q2 h2
        obtain ⟨-, -, rfl⟩ := enqueue_eq_some_iff.mp h2
        have : qa.m_iback = C := by omega
        simp only [this]
      · intro hexact
        cases h2 : Queue.enqueue _ v with
        | none => rfl
        | some q2 =>
          obtain ⟨⟨-, hlt⟩, -, -⟩ := enqueue_eq_some_iff.mp h2
          simp only at hlt hexact
          omega

/-- Witness for C2: a `Queue<int>` over three borrowed cells; two enqueues with two
dequeues in between, and three enqueues followed by three dequeues. -/
theorem queue_one_shot_window_witness :
    ((Queue.ofRef (refmem 3 [(0 : Int), 0, 0])).run
        [Op.enqueue 1, Op.dequeue, Op.dequeue, Op.enqueue 2] =
      some ({ m_capa := 3, m_ifront := 2, m_iback := 2, m_data := [1, 2, 0], m_own := false },
        [Ret.void, Ret.void, Ret.void, Ret.void])) ∧
    ((2 : Int) = (([Op.enqueue (1 : Int), Op.dequeue, Op.dequeue, Op.enqueue 2].countP
        Op.isEnqueue : Nat) : Int) ∧
      ((2 : Int) < 3 ↔ (([Op.enqueue (1 : Int), Op.dequeue, Op.dequeue, Op.enqueue 2].countP
        Op.isEnqueue : Nat) : Int) < 3)) ∧
    (∃ q1 rs, (Queue.ofRef (refmem 3 [(0 : Int), 0, 0])).run
          ([1, 2, 3].map Op.enqueue ++ List.replicate 3 Op.dequeue) = some (q1, rs) ∧
        q1.empty = true ∧ q1.size = some 0 ∧ q1.m_iback = 3 ∧
        ∀ v, q1.pre (Op.enqueue v) = false ∧
          (∀ q2, q1.enqueue v = some q2 → q2.m_data = q1.m_data.set (3 : Int).toNat v) ∧
          ((q1.m_data.length : Int) = 3 → q1.enqueue v = none)) :=
  have h := queue_one_shot_window 3 (Queue.ofRef (refmem 3 [(0 : Int), 0, 0]))
    (Or.inr ⟨refmem 3 [0, 0, 0], rfl, rfl⟩)
  have h2 := h.2.1 [Op.enqueue 1, Op.dequeue, Op.dequeue, Op.enqueue 2]
    { m_capa := 3, m_ifront := 2, m_iback := 2, m_data := [1, 2, 0], m_own := false }
    [Ret.void, Ret.void, Ret.void, Ret.void] (by decide) rfl
  ⟨rfl, ⟨h2.1, h2.2.1⟩, h.2.2 (by decide) (by decide) [1, 2, 3] rfl⟩

end QueueWindowClaim

section QueueClearClaim

open Queue

variable {T : Type}

/-- C3: `clear()` reclaims the full window of the queue. For a queue built by either
constructor with count `C` (`0 <= C`, an `int`, storage of at least `C` cells) and every
state it reaches by calls that each meet their stated precondition (the exhausted state
`m_iback == C` among them): after `clear()` each of `C` consecutive calls `enqueue(v1)`,
..., `enqueue(vC)` meets its precondition and has a defined effect, afterwards `size()`
returns `C` and `front()` returns `v1`. -/
theorem queue_clear_reclaims (C : Int) (h0 : 0 ≤ C) (hC : C ≤ INT_MAX) (q0 : Queue T)
    (hq : q0.Fresh C) (hroom : C ≤ q0.m_data.length) (ops : List (Op T))
    (hops : q0.inContract ops = true) :
    ∃ q rs, q0.run ops = some (q, rs) ∧
      ∀ vs : List T, (vs.length : Int) = C →
        q.clear.inContract (vs.map Op.enqueue) = true ∧
        ∃ q1 rs1, q.clear.run (vs.map Op.enqueue) = some (q1, rs1) ∧ q1.size = some C ∧
          ∀ v1 rest, vs = v1 :: rest → q1.front = some v1 := by
  obtain ⟨hcap, hf, hb⟩ := queue_fresh_fields hq
  have hs0 : q0.StorageOk := ⟨by rw [hcap]; exact hC, by rw [hcap]; exact hroom⟩
  obtain ⟨-, q, -, rs, hrun, -, -, -, -, -⟩ :=
    queue_run_similar ops q0 q0 (queue_fresh_cursorsOk hq h0) hs0 hs0 (queue_similar_refl q0) hops
  obtain ⟨hc1, -, hl1⟩ := queue_run_frame ops q0 q rs hrun
  refine ⟨q, rs, hrun, ?_⟩
  intro vs hlen
  unfold INT_MAX at hC
  have hcb : q.clear.m_iback = 0 := rfl
  have hcf : q.clear.m_ifront = 0 := rfl
  have hcc : q.clear.m_capa = C := by
    simp only [Queue.clear]
    omega
  have hcl : q.clear.m_data.length = q0.m_data.length := by
    simp only [Queue.clear]
    exact hl1
  refine ⟨inContract_enqueues vs q.clear (by omega) (by omega), ?_⟩
  obtain ⟨q1, hrun1, -, hf1, hb1, -, -, -, hnew⟩ :=
    run_enqueues vs q.clear (by omega) (by omega) (by omega)
  rw [hcb] at hb1 hnew
  rw [hcf] at hf1
  refine ⟨q1, _, hrun1, ?_, ?_⟩
  · unfold size
    rw [hb1, hf1]
    exact int_result_eq_some_iff.mpr ⟨⟨by omega, by omega⟩, by omega⟩
  · rintro v1 rest rfl
    unfold front
    rw [hf1, load_of_nonneg (le_refl 0)]
    have := hnew 0 (by simp)
    simpa using this

/-- Witness for C3: a `Queue<int>` over three borrowed cells, exhausted by three
enqueues and two dequeues before the `clear()`. -/
theorem queue_clear_reclaims_witness :
    ∃ q rs, (Queue.ofRef (refmem 3 [(0 : Int), 0, 0])).run
        [Op.enqueue 7, Op.enqueue 8, Op.enqueue 9, Op.dequeue, Op.dequeue] = some (q, rs) ∧
      ∀ vs : List Int, (vs.length : Int) = 3 →
        q.clear.inContract (vs.map Op.enqueue) = true ∧
        ∃ q1 rs1, q.clear.run (vs.map Op.enqueue) = some (q1, rs1) ∧ q1.size = some 3 ∧
          ∀ v1 rest, vs = v1 :: rest → q1.front = some v1 :=
  queue_clear_reclaims 3 (by decide) (by decide) (Queue.ofRef (refmem 3 [(0 : Int), 0, 0]))
    (Or.inr ⟨refmem 3 [0, 0, 0], rfl, rfl⟩) (by decide)
    [Op.enqueue 7, Op.enqueue 8, Op.enqueue 9, Op.dequeue, Op.dequeue] rfl

end QueueClearClaim

/-! ## Claims on the stack -/

section StackClaims

open Stack

variable {T : Type}

/-- C4: the stack is last-in-first-out. For every capacity `C` (an `int`), a stack
built by either constructor with count `C` over storage of at least `C` cells, and
values `below ++ [vk]` with `k = below.length + 1 <= C`: the `k` calls `push(v1)`, ...,
`push(vk)` all have a defined effect, after them `top()` returns `vk` and `size()`
returns `k`; and when there is a value `vj` pushed just before `vk`, one `pop()` is
defined and afterwards `top()` returns `vj` and `size()` returns `k - 1`. -/
theorem stack_lifo (C : Int) (hC : C ≤ INT_MAX) (s : Stack T) (hs : s.Fresh C)
    (hroom : C ≤ s.m_data.length) (below : List T) (vk : T)
    (hk : ((below ++ [vk]).length : Int) ≤ C) :
    ∃ s1 rs, s.run ((below ++ [vk]).map Op.push) = some (s1, rs) ∧
      s1.top = some vk ∧ s1.size = ((below ++ [vk]).length : Int) ∧
      ∀ below2 vj, below = below2 ++ [vj] →
        ∃ s2, s1.pop = some s2 ∧ s2.top = some vj ∧
          s2.size = ((below ++ [vk]).length : Int) - 1 := by
  obtain ⟨hcap, hn⟩ := stack_fresh_fields hs
  unfold INT_MAX at hC
  obtain ⟨s1, hrun, -, hn1, -, hl1, -, hnew⟩ :=
    run_pushes (below ++ [vk]) s (by omega) (by omega) (by omega)
  rw [hn] at hn1 hnew
  simp only [List.length_append, List.length_singleton, Nat.cast_add, Nat.cast_one,
    Int.toNat_zero, zero_add] at hk hn1 hnew ⊢
  refine ⟨s1, _, hrun, ?_, hn1, ?_⟩
  · rw [top_of_pos (by omega) (by omega)]
    have hidx : (s1.m_n - 1).toNat = below.length := by omega
    rw [hidx, hnew below.length (by omega)]
    simp
  · rintro below2 vj rfl
    simp only [List.length_append, List.length_singleton, Nat.cast_add, Nat.cast_one]
      at hk hn1 hnew
    have hp := (pop_eq_some_iff (s := s1)).mpr ⟨⟨by omega, by omega⟩, rfl⟩
    refine ⟨_, hp, ?_, ?_⟩
    · rw [top_of_pos (by simp only; omega) (by simp only; omega)]
      have hidx : (s1.m_n - 1 - 1).toNat = below2.length := by omega
      simp only [hidx]
      rw [hnew below2.length (by omega), List.append_assoc,
        List.getElem?_append_right (le_refl _), Nat.sub_self]
      rfl
    · simp only [size, List.length_append, List.length_singleton, Nat.cast_add, Nat.cast_one]
      omega

/-- Witness for C4: a `Stack<int>` of capacity 3 built by the allocating constructor
(cells initially `0`), pushes of 1, 2, 3. -/
theorem stack_lifo_witness :
    ∃ s1 rs, ({ m_capa := 3, m_n := 0, m_data := [0, 0, 0], m_own := true } : Stack Int).run
        ((([1, 2] : List Int) ++ [3]).map Op.push) = some (s1, rs) ∧
      s1.top = some 3 ∧ s1.size = ((([1, 2] : List Int) ++ [3]).length : Int) ∧
      ∀ below2 vj, ([1, 2] : List Int) = below2 ++ [vj] →
        ∃ s2, s1.pop = some s2 ∧ s2.top = some vj ∧
          s2.size = ((([1, 2] : List Int) ++ [3]).length : Int) - 1 :=
  stack_lifo 3 (by decide)
    ({ m_capa := 3, m_n := 0, m_data := [0, 0, 0], m_own := true } : Stack Int)
    (Or.inl ⟨some fun _ => (0 : Int), rfl⟩) (by decide) [1, 2] 3 (by decide)

/-- C5: for every capacity `C >= 0` (an `int`) and values `v1..vC`, on a stack built by
either constructor with count `C` over storage of at least `C` cells, `C` pushes
followed by `C` calls of `pop()` all meet their stated precondition and have a defined
effect, and afterwards `empty()` is true and `size()` is `0`. -/
theorem stack_push_pop_all (C : Int) (hC : C ≤ INT_MAX) (s : Stack T) (hs : s.Fresh C)
    (hroom : C ≤ s.m_data.length) (vs : List T) (hlen : (vs.length : Int) = C) :
    s.inContract (vs.map Op.push ++ List.replicate vs.length Op.pop) = true ∧
    ∃ s1 rs, s.run (vs.map Op.push ++ List.replicate vs.length Op.pop) = some (s1, rs) ∧
      s1.empty = true ∧ s1.size = 0 := by
  obtain ⟨hcap, hn⟩ := stack_fresh_fields hs
  unfold INT_MAX at hC
  obtain ⟨sa, hrun, hca, hna, -, -, -, -⟩ := run_pushes vs s (by omega) (by omega) (by omega)
  have hic := inContract_pushes vs s (by omega) (by omega)
  obtain ⟨hpr, hpc⟩ := run_pops vs.length sa (by omega) (by omega)
  unfold run at hrun hpr ⊢
  unfold inContract at hic hpc ⊢
  constructor
  · rw [callsInContract_append_of_some _ hrun, hic, hpc]
    rfl
  · rw [runCalls_append_of_some _ hrun, hpr]
    refine ⟨_, _, rfl, ?_, ?_⟩
    · simp only [Stack.empty, decide_eq_true_eq]
      omega
    · simp only [size]
      omega

/-- Witness for C5: a `Stack<int>` over two borrowed cells. -/
theorem stack_push_pop_all_witness :
    (Stack.ofRef (refmem 2 [(0 : Int), 0])).inContract
        (([5, 6] : List Int).map Op.push ++ List.replicate [(5 : Int), 6].length Op.pop) = true ∧
    ∃ s1 rs, (Stack.ofRef (refmem 2 [(0 : Int), 0])).run
        (([5, 6] : List Int).map Op.push ++ List.replicate [(5 : Int), 6].length Op.pop) =
          some (s1, rs) ∧
      s1.empty = true ∧ s1.size = 0 :=
  stack_push_pop_all 2 (by decide) (Stack.ofRef (refmem 2 [(0 : Int), 0]))
    (Or.inr ⟨refmem 2 [0, 0], rfl, rfl⟩) (by decide) [5, 6] rfl

end StackClaims

/-! ## Claims on the sequential list -/

section SeqListClaims

open SeqList

variable {T : Type}

/-- C6: append round trip of the list. For every capacity `C` (an `int`), a list built
by either constructor with count `C` over storage of at least `C` cells, and values `vs`
with `k = vs.length <= C`: the `k` calls of `add` all have a defined effect, afterwards
`size()` returns `k` and `operator[](j)` returns, for every `0 <= j < k`, the value
given to the append number `j + 1`; and whatever is appended later (within the
capacity), these reads return the same values. -/
theorem seqlist_append_roundtrip (C : Int) (hC : C ≤ INT_MAX) (s : SeqList T)
    (hs : s.Fresh C) (hroom : C ≤ s.m_data.length) (vs : List T)
    (hk : (vs.length : Int) ≤ C) :
    ∃ s1 rs, s.run (vs.map Op.add) = some (s1, rs) ∧ s1.size = (vs.length : Int) ∧
      (∀ (j : Nat) (hj : j < vs.length), s1.get (j : Int) = some vs[j]) ∧
      ∀ more : List T, ((vs ++ more).length : Int) ≤ C →
        ∃ s2 rs2, s1.run (more.map Op.add) = some (s2, rs2) ∧
          s2.size = ((vs ++ more).length : Int) ∧
          ∀ (j : Nat) (hj : j < vs.length), s2.get (j : Int) = some vs[j] := by
  obtain ⟨hcap, hn⟩ := seqlist_fresh_fields hs
  unfold INT_MAX at hC
  obtain ⟨s1, hrun, -, hn1, -, hl1, -, hnew⟩ := run_adds vs s (by omega) (by omega) (by omega)
  rw [hn] at hn1 hnew
  simp only [Int.toNat_zero, zero_add] at hn1 hnew
  have hget : ∀ (j : Nat) (hj : j < vs.length), s1.get (j : Int) = some vs[j] := by
    intro j hj
    unfold SeqList.get
    rw [load_natCast, hnew j hj, List.getElem?_eq_getElem hj]
  refine ⟨s1, _, hrun, hn1, hget, ?_⟩
  intro more hm
  simp only [List.length_append, Nat.cast_add] at hm ⊢
  obtain ⟨s2, hrun2, -, hn2, -, -, hlow, -⟩ :=
    run_adds more s1 (by omega) (by omega) (by omega)
  refine ⟨s2, _, hrun2, ?_, ?_⟩
  · simp only [size]
    omega
  · intro j hj
    have h1 := hget j hj
    unfold SeqList.get at h1 ⊢
    rw [load_natCast] at h1 ⊢
    rw [hlow j (by omega), h1]

/-- Witness for C6: a `SeqList<int>` over four borrowed cells, appends of 10, 20, 30. -/
theorem seqlist_append_roundtrip_witness :
    ∃ s1 rs, (SeqList.ofRef (refmem 4 [(0 : Int), 0, 0, 0])).run
        (([10, 20, 30] : List Int).map Op.add) = some (s1, rs) ∧
      s1.size = (([10, 20, 30] : List Int).length : Int) ∧
      (∀ (j : Nat) (hj : j < ([10, 20, 30] : List Int).length),
        s1.get (j : Int) = some ([10, 20, 30] : List Int)[j]) ∧
      ∀ more : List Int, ((([10, 20, 30] : List Int) ++ more).length : Int) ≤ 4 →
        ∃ s2 rs2, s1.run (more.map Op.add) = some (s2, rs2) ∧
          s2.size = ((([10, 20, 30] : List Int) ++ more).length : Int) ∧
          ∀ (j : Nat) (hj : j < ([10, 20, 30] : List Int).length),
            s2.get (j : Int) = some ([10, 20, 30] : List Int)[j] :=
  seqlist_append_roundtrip 4 (by decide) (SeqList.ofRef (refmem 4 [(0 : Int), 0, 0, 0]))
    (Or.inr ⟨refmem 4 [0, 0, 0, 0], rfl, rfl⟩) (by decide) [10, 20, 30] (by decide)

end SeqListClaims

/-! ## Claims on all three containers -/

section ContainerClaims

variable {T : Type}

/-- C7: a freshly constructed container is empty and has the requested capacity. For
each of `SeqList`, `Stack` and `Queue` and each construction path: the container the
allocating constructor with count `C` yields, whenever that constructor completes, and
the container the borrowing constructor yields over a `RefMemory` with count `C`, have
`size() == 0`, `empty() == true` and `capacity() == C`. -/
theorem fresh_container_is_empty (C : Int) :
    (∀ (heap : Option (Nat → T)) (s : SeqList T), SeqList.ofCapacity C heap = some s →
      s.size = 0 ∧ s.empty = true ∧ s.capacity = C) ∧
    (∀ r : RefMemory T, r.n = C → (SeqList.ofRef r).size = 0 ∧
      (SeqList.ofRef r).empty = true ∧ (SeqList.ofRef r).capacity = C) ∧
    (∀ (heap : Option (Nat → T)) (s : Stack T), Stack.ofCapacity C heap = some s →
      s.size = 0 ∧ s.empty = true ∧ s.capacity = C) ∧
    (∀ r : RefMemory T, r.n = C → (Stack.ofRef r).size = 0 ∧
      (Stack.ofRef r).empty = true ∧ (Stack.ofRef r).capacity = C) ∧
    (∀ (heap : Option (Nat → T)) (q : Queue T), Queue.ofCapacity C heap = some q →
      q.size = some 0 ∧ q.empty = true ∧ q.capacity = C) ∧
    (∀ r : RefMemory T, r.n = C → (Queue.ofRef r).size = some 0 ∧
      (Queue.ofRef r).empty = true ∧ (Queue.ofRef r).capacity = C) := by
  refine ⟨?_, ?_, ?_, ?_, ?_, ?_⟩
  · intro heap s h
    obtain ⟨junk, -, -, rfl⟩ := seqlist_ofCapacity_eq_some_iff.mp h
    exact ⟨rfl, rfl, rfl⟩
  · intro r hr
    exact ⟨rfl, rfl, hr⟩
  · intro heap s h
    obtain ⟨junk, -, -, rfl⟩ := stack_ofCapacity_eq_some_iff.mp h
    exact ⟨rfl, rfl, rfl⟩
  · intro r hr
    exact ⟨rfl, rfl, hr⟩
  · intro heap q h
    obtain ⟨junk, -, -, rfl⟩ := queue_ofCapacity_eq_some_iff.mp h
    exact ⟨rfl, rfl, rfl⟩
  · intro r hr
    exact ⟨rfl, rfl, hr⟩

/-- Witness for C7: the three allocating constructors with count 3, the free store
handing out three cells holding `0`, and the three borrowing constructors over three
cells, element type `int`. -/
theorem fresh_container_is_empty_witness :
    (SeqList.ofCapacity 3 (some fun _ => (0 : Int)) =
        some { m_capa := 3, m_n := 0, m_data := [0, 0, 0], m_own := true } ∧
      ({ m_capa := 3, m_n := 0, m_data := [0, 0, 0], m_own := true } : SeqList Int).size = 0 ∧
      ({ m_capa := 3, m_n := 0, m_data := [0, 0, 0], m_own := true } : SeqList Int).empty = true ∧
      ({ m_capa := 3, m_n := 0, m_data := [0, 0, 0], m_own := true } : SeqList Int).capacity = 3) ∧
    ((SeqList.ofRef (refmem 3 [(1 : Int), 2, 3])).size = 0 ∧
      (SeqList.ofRef (refmem 3 [(1 : Int), 2, 3])).empty = true ∧
      (SeqList.ofRef (refmem 3 [(1 : Int), 2, 3])).capacity = 3) ∧
    (Stack.ofCapacity 3 (some fun _ => (0 : Int)) =
        some { m_capa := 3, m_n := 0, m_data := [0, 0, 0], m_own := true } ∧
      ({ m_capa := 3, m_n := 0, m_data := [0, 0, 0], m_own := true } : Stack Int).size = 0 ∧
      ({ m_capa := 3, m_n := 0, m_data := [0, 0, 0], m_own := true } : Stack Int).empty = true ∧
      ({ m_capa := 3, m_n := 0, m_data := [0, 0, 0], m_own := true } : Stack Int).capacity = 3) ∧
    ((Stack.ofRef (refmem 3 [(1 : Int), 2, 3])).size = 0 ∧
      (Stack.ofRef (refmem 3 [(1 : Int), 2, 3])).empty = true ∧
      (Stack.ofRef (refmem 3 [(1 : Int), 2, 3])).capacity = 3) ∧
    (Queue.ofCapacity 3 (some fun _ => (0 : Int)) =
        some { m_capa := 3, m_ifront := 0, m_iback := 0, m_data := [0, 0, 0], m_own := true } ∧
      ({ m_capa := 3, m_ifront := 0, m_iback := 0, m_data := [0, 0, 0], m_own := true } : Queue Int).size = some 0 ∧
      ({ m_capa := 3, m_ifront := 0, m_iback := 0, m_data := [0, 0, 0], m_own := true } : Queue Int).empty = true ∧
      ({ m_capa := 3, m_ifront := 0, m_iback := 0, m_data := [0, 0, 0], m_own := true } : Queue Int).capacity = 3) ∧
    ((Queue.ofRef (refmem 3 [(1 : Int), 2, 3])).size = some 0 ∧
      (Queue.ofRef (refmem 3 [(1 : Int), 2, 3])).empty = true ∧
      (Queue.ofRef (refmem 3 [(1 : Int), 2, 3])).capacity = 3) :=
  have h := fresh_container_is_empty (T := Int) 3
  ⟨⟨rfl, h.1 (some fun _ => 0) _ rfl⟩, h.2.1 (refmem 3 [1, 2, 3]) rfl,
    ⟨rfl, h.2.2.1 (some fun _ => 0) _ rfl⟩, h.2.2.2.1 (refmem 3 [1, 2, 3]) rfl,
    ⟨rfl, h.2.2.2.2.1 (some fun _ => 0) _ rfl⟩, h.2.2.2.2.2 (refmem 3 [1, 2, 3]) rfl⟩

/-- C8: for each of `SeqList`, `Stack` and `Queue` and every state, whatever the
cursor values are, after `clear()` the call `size()` returns `0` and `empty()` returns
true. -/
theorem clear_gives_empty :
    (∀ s : SeqList T, s.clear.size = 0 ∧ s.clear.empty = true) ∧
    (∀ s : Stack T, s.clear.size = 0 ∧ s.clear.empty = true) ∧
    (∀ q : Queue T, q.clear.size = some 0 ∧ q.clear.empty = true) :=
  ⟨fun _ => ⟨rfl, rfl⟩, fun _ => ⟨rfl, rfl⟩, fun _ => ⟨rfl, rfl⟩⟩

end ContainerClaims

section ClearClaims

variable {T : Type}

/-- C9: after `clear()` a container behaves like a freshly constructed one of the same
capacity on every subsequent sequence of calls that each meet their stated
precondition. For a capacity `0 <= C` (an `int`), any state `s` with capacity `C`
(whatever its cursors and cells), and a container `f` built by either constructor with
count `C`, both over storage of at least `C` cells: a sequence of calls within the
contract on `f` is within the contract on `s.clear` too, has a defined effect on both,
and every call returns the same value on both, so what the cells held before the
`clear()` is not observed. For the stack the restriction to the contract is not
needed: over storage blocks of the same length every sequence of calls is defined on
both or on neither, with the same returned values, since `top()` only reads below the
cursor. -/
theorem clear_like_fresh (C : Int) (h0 : 0 ≤ C) (hC : C ≤ INT_MAX) :
    (∀ (s f : SeqList T) (ops : List (SeqList.Op T)), s.m_capa = C → C ≤ s.m_data.length →
      f.Fresh C → C ≤ f.m_data.length → f.inContract ops = true →
        s.clear.inContract ops = true ∧
        ∃ s1 f1 rs, s.clear.run ops = some (s1, rs) ∧ f.run ops = some (f1, rs)) ∧
    (∀ (s f : Stack T) (ops : List (Stack.Op T)), s.m_capa = C → C ≤ s.m_data.length →
      f.Fresh C → C ≤ f.m_data.length → f.inContract ops = true →
        s.clear.inContract ops = true ∧
        ∃ s1 f1 rs, s.clear.run ops = some (s1, rs) ∧ f.run ops = some (f1, rs)) ∧
    (∀ (q f : Queue T) (ops : List (Queue.Op T)), q.m_capa = C → C ≤ q.m_data.length →
      f.Fresh C → C ≤ f.m_data.length → f.inContract ops = true →
        q.clear.inContract ops = true ∧
        ∃ q1 f1 rs, q.clear.run ops = some (q1, rs) ∧ f.run ops = some (f1, rs)) ∧
    (∀ (s f : Stack T) (ops : List (Stack.Op T)), s.m_capa = C → f.Fresh C →
      s.m_data.length = f.m_data.length →
        (s.clear.run ops).map Prod.snd = (f.run ops).map Prod.snd) := by
  refine ⟨?_, ?_, ?_, ?_⟩
  · intro s f ops hcap hlen hf hflen hops
    obtain ⟨hfc, hfn⟩ := seqlist_fresh_fields hf
    have hsim : f.Similar s.clear := by
      refine ⟨by rw [hfc]; exact hcap.symm, hfn, ?_⟩
      intro j hj
      omega
    obtain ⟨hin, f1, s1, rs, hrf, hrs, -⟩ := seqlist_run_similar ops f s.clear
      (seqlist_fresh_cursorsOk hf h0) ⟨by rw [hfc]; exact hC, by rw [hfc]; exact hflen⟩
      ⟨by rw [← hcap] at hC; exact hC, by rw [← hcap] at hlen; exact hlen⟩ hsim hops
    exact ⟨hin, s1, f1, rs, hrs, hrf⟩
  · intro s f ops hcap hlen hf hflen hops
    obtain ⟨hfc, hfn⟩ := stack_fresh_fields hf
    have hsim : f.Similar s.clear := by
      refine ⟨by rw [hfc]; exact hcap.symm, hfn, ?_⟩
      intro j hj
      omega
    obtain ⟨hin, f1, s1, rs, hrf, hrs, -⟩ := stack_run_similar ops f s.clear
      (stack_fresh_cursorsOk hf h0) ⟨by rw [hfc]; exact hC, by rw [hfc]; exact hflen⟩
      ⟨by rw [← hcap] at hC; exact hC, by rw [← hcap] at hlen; exact hlen⟩ hsim hops
    exact ⟨hin, s1, f1, rs, hrs, hrf⟩
  · intro q f ops hcap hlen hf hflen hops
    obtain ⟨hfc, hff, hfb⟩ := queue_fresh_fields hf
    have hsim : f.Similar q.clear := by
      refine ⟨by rw [hfc]; exact hcap.symm, hff, hfb, ?_⟩
      intro j hj
      omega
    obtain ⟨hin, f1, q1, rs, hrf, hrs, -⟩ := queue_run_similar ops f q.clear
      (queue_fresh_cursorsOk hf h0) ⟨by rw [hfc]; exact hC, by rw [hfc]; exact hflen⟩
      ⟨by rw [← hcap] at hC; exact hC, by rw [← hcap] at hlen; exact hlen⟩ hsim hops
    exact ⟨hin, q1, f1, rs, hrs, hrf⟩
  · intro s f ops hcap hf hlen
    obtain ⟨hfc, hfn⟩ := stack_fresh_fields hf
    refine stack_run_agree ops s.clear f ⟨by rw [hfc]; exact hcap, hfn.symm, ?_⟩ hlen
    intro j hj
    simp only [Stack.clear] at hj
    omega

/-- Witness for C9: containers of capacity 2 holding leftovers `7, 8`
against fresh ones over two borrowed cells holding `0, 0`, element type `int`. -/
theorem clear_like_fresh_witness :
    (∃ s1 f1 rs,
      ({ m_capa := 2, m_n := 2, m_data := [7, 8], m_own := false } : SeqList Int).clear.run
        [SeqList.Op.add 1, SeqList.Op.get 0, SeqList.Op.size, SeqList.Op.set 1 9,
          SeqList.Op.add 2, SeqList.Op.get 1, SeqList.Op.empty] = some (s1, rs) ∧
      (SeqList.ofRef (refmem 2 [(0 : Int), 0])).run
        [SeqList.Op.add 1, SeqList.Op.get 0, SeqList.Op.size, SeqList.Op.set 1 9,
          SeqList.Op.add 2, SeqList.Op.get 1, SeqList.Op.empty] = some (f1, rs)) ∧
    (∃ s1 f1 rs,
      ({ m_capa := 2, m_n := 2, m_data := [7, 8], m_own := false } : Stack Int).clear.run
        [Stack.Op.push 1, Stack.Op.top, Stack.Op.push 2, Stack.Op.pop, Stack.Op.top,
          Stack.Op.size] = some (s1, rs) ∧
      (Stack.ofRef (refmem 2 [(0 : Int), 0])).run
        [Stack.Op.push 1, Stack.Op.top, Stack.Op.push 2, Stack.Op.pop, Stack.Op.top,
          Stack.Op.size] = some (f1, rs)) ∧
    (∃ q1 f1 rs,
      ({ m_capa := 2, m_ifront := 1, m_iback := 2, m_data := [7, 8], m_own := false } : Queue Int).clear.run
        [Queue.Op.enqueue 1, Queue.Op.front, Queue.Op.enqueue 2, Queue.Op.dequeue,
          Queue.Op.front, Queue.Op.size] = some (q1, rs) ∧
      (Queue.ofRef (refmem 2 [(0 : Int), 0])).run
        [Queue.Op.enqueue 1, Queue.Op.front, Queue.Op.enqueue 2, Queue.Op.dequeue,
          Queue.Op.front, Queue.Op.size] = some (f1, rs)) ∧
    ((({ m_capa := 2, m_n := 2, m_data := [7, 8], m_own := false } : Stack Int).clear.run
        [Stack.Op.pop, Stack.Op.size, Stack.Op.clear, Stack.Op.push 3, Stack.Op.top]).map
        Prod.snd =
      ((Stack.ofRef (refmem 2 [(0 : Int), 0])).run
        [Stack.Op.pop, Stack.Op.size, Stack.Op.clear, Stack.Op.push 3, Stack.Op.top]).map
        Prod.snd) :=
  have h := clear_like_fresh (T := Int) 2 (by decide) (by decide)
  ⟨(h.1 ({ m_capa := 2, m_n := 2, m_data := [7, 8], m_own := false } : SeqList Int)
      (SeqList.ofRef (refmem 2 [0, 0]))
      [SeqList.Op.add 1, SeqList.Op.get 0, SeqList.Op.size, SeqList.Op.set 1 9,
        SeqList.Op.add 2, SeqList.Op.get 1, SeqList.Op.empty]
      rfl (by decide) (Or.inr ⟨refmem 2 [0, 0], rfl, rfl⟩) (by decide) rfl).2,
    (h.2.1 ({ m_capa := 2, m_n := 2, m_data := [7, 8], m_own := false } : Stack Int)
      (Stack.ofRef (refmem 2 [0, 0]))
      [Stack.Op.push 1, Stack.Op.top, Stack.Op.push 2, Stack.Op.pop, Stack.Op.top,
        Stack.Op.size]
      rfl (by decide) (Or.inr ⟨refmem 2 [0, 0], rfl, rfl⟩) (by decide) rfl).2,
    (h.2.2.1 ({ m_capa := 2, m_ifront := 1, m_iback := 2, m_data := [7, 8], m_own := false } : Queue Int)
      (Queue.ofRef (refmem 2 [0, 0]))
      [Queue.Op.enqueue 1, Queue.Op.front, Queue.Op.enqueue 2, Queue.Op.dequeue,
        Queue.Op.front, Queue.Op.size]
      rfl (by decide) (Or.inr ⟨refmem 2 [0, 0], rfl, rfl⟩) (by decide) rfl).2,
    h.2.2.2 ({ m_capa := 2, m_n := 2, m_data := [7, 8], m_own := false } : Stack Int)
      (Stack.ofRef (refmem 2 [0, 0]))
      [Stack.Op.pop, Stack.Op.size, Stack.Op.clear, Stack.Op.push 3, Stack.Op.top]
      rfl (Or.inr ⟨refmem 2 [0, 0], rfl, rfl⟩) rfl⟩

end ClearClaims

section CursorClaims

variable {T : Type}

/-- C10: cursor invariant. For a capacity `0 <= C` (an `int`) and a container built by
either constructor with count `C` over storage of at least `C` cells, every sequence of
calls that each meet their stated precondition has a defined effect and leads to a
state with `0 <= m_n <= m_capa` (list and stack) or
`0 <= m_ifront <= m_iback <= m_capa` (queue); there `size()` is neither negative nor
above `capacity()`, and every call that meets its precondition reads or writes only a
cell with an index in `[0, m_capa)`, inside the storage block. -/
theorem cursor_invariant (C : Int) (h0 : 0 ≤ C) (hC : C ≤ INT_MAX) :
    (∀ (s : SeqList T) (ops : List (SeqList.Op T)), s.Fresh C → C ≤ s.m_data.length →
      s.inContract ops = true →
        ∃ s1 rs, s.run ops = some (s1, rs) ∧ (0 ≤ s1.m_n ∧ s1.m_n ≤ s1.m_capa) ∧
          (0 ≤ s1.size ∧ s1.size ≤ s1.capacity) ∧
          ∀ op i, s1.pre op = true → s1.cell op = some i →
            0 ≤ i ∧ i < s1.m_capa ∧ i < s1.m_data.length) ∧
    (∀ (s : Stack T) (ops : List (Stack.Op T)), s.Fresh C → C ≤ s.m_data.length →
      s.inContract ops = true →
        ∃ s1 rs, s.run ops = some (s1, rs) ∧ (0 ≤ s1.m_n ∧ s1.m_n ≤ s1.m_capa) ∧
          (0 ≤ s1.size ∧ s1.size ≤ s1.capacity) ∧
          ∀ op i, s1.pre op = true → s1.cell op = some i →
            0 ≤ i ∧ i < s1.m_capa ∧ i < s1.m_data.length) ∧
    (∀ (q : Queue T) (ops : List (Queue.Op T)), q.Fresh C → C ≤ q.m_data.length →
      q.inContract ops = true →
        ∃ q1 rs, q.run ops = some (q1, rs) ∧
          (0 ≤ q1.m_ifront ∧ q1.m_ifront ≤ q1.m_iback ∧ q1.m_iback ≤ q1.m_capa) ∧
          (∃ n, q1.size = some n ∧ 0 ≤ n ∧ n ≤ q1.capacity) ∧
          ∀ op i, q1.pre op = true → q1.cell op = some i →
            0 ≤ i ∧ i < q1.m_capa ∧ i < q1.m_data.length) := by
  unfold INT_MAX at hC
  refine ⟨?_, ?_, ?_⟩
  · intro s ops hs hlen hops
    obtain ⟨hcap, hn⟩ := seqlist_fresh_fields hs
    have hst : s.StorageOk := ⟨by rw [hcap]; exact hC, by rw [hcap]; exact hlen⟩
    obtain ⟨-, s1, -, rs, hrun, -, ⟨h1, h2⟩, ⟨-, h4⟩, -, -⟩ := seqlist_run_similar ops s s
      (seqlist_fresh_cursorsOk hs h0) hst hst (seqlist_similar_refl s) hops
    refine ⟨s1, rs, hrun, ⟨h1, h2⟩, ⟨h1, h2⟩, ?_⟩
    intro op i hp hc
    cases op <;> simp only [SeqList.cell, SeqList.pre, decide_eq_true_eq, Option.some.injEq,
      reduceCtorEq] at hp hc <;> omega
  · intro s ops hs hlen hops
    obtain ⟨hcap, hn⟩ := stack_fresh_fields hs
    have hst : s.StorageOk := ⟨by rw [hcap]; exact hC, by rw [hcap]; exact hlen⟩
    obtain ⟨-, s1, -, rs, hrun, -, ⟨h1, h2⟩, ⟨-, h4⟩, -, -⟩ := stack_run_similar ops s s
      (stack_fresh_cursorsOk hs h0) hst hst (stack_similar_refl s) hops
    refine ⟨s1, rs, hrun, ⟨h1, h2⟩, ⟨h1, h2⟩, ?_⟩
    intro op i hp hc
    cases op <;> simp only [Stack.cell, Stack.pre, decide_eq_true_eq, Option.some.injEq,
      reduceCtorEq] at hp hc <;> omega
  · intro q ops hq hlen hops
    obtain ⟨hcap, hf, hb⟩ := queue_fresh_fields hq
    have hst : q.StorageOk := ⟨by rw [hcap]; exact hC, by rw [hcap]; exact hlen⟩
    obtain ⟨-, q1, -, rs, hrun, -, ⟨h1, h2, h3⟩, ⟨h5, h4⟩, -, -⟩ := queue_run_similar ops q q
      (queue_fresh_cursorsOk hq h0) hst hst (queue_similar_refl q) hops
    unfold INT_MAX at h5
    refine ⟨q1, rs, hrun, ⟨h1, h2, h3⟩, ⟨q1.m_iback - q1.m_ifront, ?_, ?_, ?_⟩, ?_⟩
    · exact int_result_eq_some_iff.mpr ⟨⟨by omega, by omega⟩, rfl⟩
    · omega
    · simp only [Queue.capacity]
      omega
    · intro op i hp hc
      cases op <;> simp only [Queue.cell, Queue.pre, decide_eq_true_eq, Option.some.injEq,
        reduceCtorEq] at hp hc <;> omega

/-- Witness for C10: containers over three borrowed cells, element type `int`, with a
sequence of calls within the contract each. -/
theorem cursor_invariant_witness :
    (∃ s1 rs, (SeqList.ofRef (refmem 3 [(0 : Int), 0, 0])).run
        [SeqList.Op.add 4, SeqList.Op.add 5, SeqList.Op.get 1, SeqList.Op.clear,
          SeqList.Op.add 6] = some (s1, rs) ∧
      (0 ≤ s1.m_n ∧ s1.m_n ≤ s1.m_capa) ∧ (0 ≤ s1.size ∧ s1.size ≤ s1.capacity) ∧
      ∀ op i, s1.pre op = true → s1.cell op = some i →
        0 ≤ i ∧ i < s1.m_capa ∧ i < s1.m_data.length) ∧
    (∃ s1 rs, (Stack.ofRef (refmem 3 [(0 : Int), 0, 0])).run
        [Stack.Op.push 4, Stack.Op.push 5, Stack.Op.top, Stack.Op.pop, Stack.Op.clear,
          Stack.Op.push 6] = some (s1, rs) ∧
      (0 ≤ s1.m_n ∧ s1.m_n ≤ s1.m_capa) ∧ (0 ≤ s1.size ∧ s1.size ≤ s1.capacity) ∧
      ∀ op i, s1.pre op = true → s1.cell op = some i →
        0 ≤ i ∧ i < s1.m_capa ∧ i < s1.m_data.length) ∧
    (∃ q1 rs, (Queue.ofRef (refmem 3 [(0 : Int), 0, 0])).run
        [Queue.Op.enqueue 4, Queue.Op.enqueue 5, Queue.Op.front, Queue.Op.dequeue,
          Queue.Op.enqueue 6] = some (q1, rs) ∧
      (0 ≤ q1.m_ifront ∧ q1.m_ifront ≤ q1.m_iback ∧ q1.m_iback ≤ q1.m_capa) ∧
      (∃ n, q1.size = some n ∧ 0 ≤ n ∧ n ≤ q1.capacity) ∧
      ∀ op i, q1.pre op = true → q1.cell op = some i →
        0 ≤ i ∧ i < q1.m_capa ∧ i < q1.m_data.length) :=
  have h := cursor_invariant (T := Int) 3 (by decide) (by decide)
  ⟨h.1 (SeqList.ofRef (refmem 3 [0, 0, 0])) _ (Or.inr ⟨refmem 3 [0, 0, 0], rfl, rfl⟩)
      (by decide) rfl,
    h.2.1 (Stack.ofRef (refmem 3 [0, 0, 0])) _ (Or.inr ⟨refmem 3 [0, 0, 0], rfl, rfl⟩)
      (by decide) rfl,
    h.2.2 (Queue.ofRef (refmem 3 [0, 0, 0])) _ (Or.inr ⟨refmem 3 [0, 0, 0], rfl, rfl⟩)
      (by decide) rfl⟩

end CursorClaims

/-! ## Traffic with the free store -/

section HeapLemmas

variable {T : Type}

theorem seqlist_run_heap (ops : List (SeqList.Op T)) : SeqList.run_heap ops = [] := by
  induction ops with
  | nil => rfl
  | cons op ops ih =>
    rw [SeqList.run_heap, ih]
    rfl

theorem stack_run_heap (ops : List (Stack.Op T)) : Stack.run_heap ops = [] := by
  induction ops with
  | nil => rfl
  | cons op ops ih =>
    rw [Stack.run_heap, ih]
    rfl

theorem queue_run_heap (ops : List (Queue.Op T)) : Queue.run_heap ops = [] := by
  induction ops with
  | nil => rfl
  | cons op ops ih =>
    rw [Queue.run_heap, ih]
    rfl

theorem seqlist_ofCapacity_own {n : Int} {heap : Option (Nat → T)} {s : SeqList T}
    (h : SeqList.ofCapacity n heap = some s) : s.m_own = true := by
  obtain ⟨junk, -, -, rfl⟩ := seqlist_ofCapacity_eq_some_iff.mp h
  rfl

theorem stack_ofCapacity_own {n : Int} {heap : Option (Nat → T)} {s : Stack T}
    (h : Stack.ofCapacity n heap = some s) : s.m_own = true := by
  obtain ⟨junk, -, -, rfl⟩ := stack_ofCapacity_eq_some_iff.mp h
  rfl

theorem queue_ofCapacity_own {n : Int} {heap : Option (Nat → T)} {q : Queue T}
    (h : Queue.ofCapacity n heap = some q) : q.m_own = true := by
  obtain ⟨junk, -, -, rfl⟩ := queue_ofCapacity_eq_some_iff.mp h
  rfl

end HeapLemmas

/-! ## Queue: range of the cursors after arbitrary calls -/

section QueueRange

open Queue

variable {T : Type}

theorem queue_exec_cursor_range {q q1 : Queue T} {op : Op T} {r : Ret T}
    (h : exec q op = some (q1, r))
    (hq : (0 ≤ q.m_ifront ∧ q.m_ifront ≤ 2147483647) ∧ 0 ≤ q.m_iback ∧ q.m_iback ≤ 2147483647) :
    (0 ≤ q1.m_ifront ∧ q1.m_ifront ≤ 2147483647) ∧ 0 ≤ q1.m_iback ∧ q1.m_iback ≤ 2147483647 := by
  cases op with
  | capacity =>
    cases h
    exact hq
  | size =>
    simp only [exec] at h
    split at h
    · cases h
      exact hq
    · cases h
  | empty =>
    cases h
    exact hq
  | enqueue e =>
    obtain ⟨he, -⟩ := exec_enqueue_inv h
    obtain ⟨-, hb, rfl⟩ := enqueue_eq_some_iff.mp he
    exact ⟨hq.1, by simp only; omega, hb⟩
  | dequeue =>
    obtain ⟨he, -⟩ := exec_dequeue_inv h
    obtain ⟨hf, rfl⟩ := dequeue_eq_some_iff.mp he
    exact ⟨⟨by simp only; omega, hf.2⟩, hq.2⟩
  | front =>
    simp only [exec] at h
    split at h
    · cases h
      exact hq
    · cases h
  | setFront e =>
    simp only [exec] at h
    split at h
    · next q2 he =>
      cases h
      obtain ⟨-, rfl⟩ := setFront_eq_some_iff.mp he
      exact hq
    · cases h
  | clear =>
    cases h
    exact ⟨⟨le_refl 0, by simp only [Queue.clear]; omega⟩, le_refl 0,
      by simp only [Queue.clear]; omega⟩

theorem queue_run_cursor_range (ops : List (Op T)) : ∀ (q q1 : Queue T) (rs : List (Ret T)),
    q.run ops = some (q1, rs) →
    ((0 ≤ q.m_ifront ∧ q.m_ifront ≤ 2147483647) ∧ 0 ≤ q.m_iback ∧ q.m_iback ≤ 2147483647) →
    (0 ≤ q1.m_ifront ∧ q1.m_ifront ≤ 2147483647) ∧ 0 ≤ q1.m_iback ∧ q1.m_iback ≤ 2147483647 := by
  induction ops with
  | nil =>
    intro q q1 rs h hq
    cases h
    exact hq
  | cons op ops ih =>
    intro q q1 rs h hq
    unfold run at h ih
    obtain ⟨qa, r, rs1, he, hr, -⟩ := runCalls_cons_eq_some_iff.mp h
    exact ih qa q1 rs1 hr (queue_exec_cursor_range he hq)

end QueueRange

/-! ## Facts on prefixes and windows of a block -/

section BlockFacts

variable {T : Type}

theorem take_set_at {l : List T} {n : Nat} (v : T) : (l.set n v).take n = l.take n := by
  apply List.ext_getElem?
  intro i
  by_cases hi : i < n
  · rw [List.getElem?_take_of_lt hi, List.getElem?_take_of_lt hi,
      List.getElem?_set_ne (by omega)]
  · rw [List.getElem?_take_eq_none (by omega), List.getElem?_take_eq_none (by omega)]

theorem take_succ_set_at {l : List T} {n : Nat} (v : T) (h : n < l.length) :
    (l.set n v).take (n + 1) = l.take n ++ [v] := by
  rw [List.take_succ, take_set_at, List.getElem?_set_self h]
  rfl

theorem take_pred_eq_dropLast {l : List T} {n : Nat} (h : n ≤ l.length) :
    l.take (n - 1) = (l.take n).dropLast := by
  rw [List.dropLast_eq_take, List.length_take, Nat.min_eq_left h, List.take_take,
    Nat.min_eq_left (Nat.sub_le n 1)]

theorem getLast?_take_eq {l : List T} {n : Nat} (h1 : 0 < n) (h : n ≤ l.length) :
    (l.take n).getLast? = l[n - 1]? := by
  rw [List.getLast?_eq_getElem?, List.length_take, Nat.min_eq_left h,
    List.getElem?_take_of_lt (by omega)]

theorem drop_take_set_head {l : List T} {f b : Nat} (e : T) (h1 : f < b)
    (h2 : b ≤ l.length) :
    ((l.set f e).take b).drop f = e :: ((l.take b).drop f).tail := by
  apply List.ext_getElem?
  intro i
  rw [List.getElem?_drop]
  cases i with
  | zero =>
    rw [Nat.add_zero, List.getElem?_take_of_lt h1, List.getElem?_set_self (by omega),
      List.getElem?_cons_zero]
  | succ i =>
    rw [List.getElem?_cons_succ, List.getElem?_tail, List.getElem?_drop]
    by_cases hi : f + (i + 1) < b
    · rw [List.getElem?_take_of_lt hi, List.getElem?_take_of_lt hi,
        List.getElem?_set_ne (by omega)]
    · rw [List.getElem?_take_eq_none (by omega), List.getElem?_take_eq_none (by omega)]

end BlockFacts

/-! ## Stack: refinement of the abstract LIFO list -/

section StackRefinement

open Stack

variable {T : Type}

theorem stack_abs_length {s : Stack T} (hc : s.CursorsOk) (hs : s.StorageOk) :
    (s.abs.length : Int) = s.m_n := by
  obtain ⟨h0, h1⟩ := hc
  obtain ⟨-, h2⟩ := hs
  unfold Stack.abs
  rw [List.length_take, Nat.min_eq_left (by omega)]
  omega

theorem exec_push_inv {s s1 : Stack T} {e : T} {r : Ret T}
    (h : exec s (Op.push e) = some (s1, r)) : s.push e = some s1 ∧ r = Ret.void := by
  simp only [exec] at h
  split at h
  · next s2 he =>
    cases h
    exact ⟨he, rfl⟩
  · cases h

theorem exec_pop_inv {s s1 : Stack T} {r : Ret T}
    (h : exec s Op.pop = some (s1, r)) : s.pop = some s1 ∧ r = Ret.void := by
  simp only [exec] at h
  split at h
  · next s2 he =>
    cases h
    exact ⟨he, rfl⟩
  · cases h

theorem exec_setTop_inv {s s1 : Stack T} {e : T} {r : Ret T}
    (h : exec s (Op.setTop e) = some (s1, r)) : s.setTop e = some s1 ∧ r = Ret.void := by
  simp only [exec] at h
  split at h
  · next s2 he =>
    cases h
    exact ⟨he, rfl⟩
  · cases h

theorem exec_top_inv {s s1 : Stack T} {r : Ret T}
    (h : exec s Op.top = some (s1, r)) : ∃ x, s.top = some x ∧ s1 = s ∧ r = Ret.ref x := by
  simp only [exec] at h
  split at h
  · next x he =>
    cases h
    exact ⟨x, he, rfl, rfl⟩
  · cases h

theorem stack_exec_refines {s : Stack T} {op : Op T} (hc : s.CursorsOk) (hs : s.StorageOk)
    (hp : s.pre op = true) :
    ∃ s1 r, exec s op = some (s1, r) ∧ s1.CursorsOk ∧ s1.StorageOk ∧
      s1.m_capa = s.m_capa ∧ lifoExec s.m_capa s.abs op = some (s1.abs, r) := by
  obtain ⟨a1, b1, r, hea, heb, hc1, hs1, hsb1, hsim⟩ :=
    stack_exec_similar hc hs hs (stack_similar_refl s) hp
  refine ⟨a1, r, hea, hc1, hs1, (stack_exec_frame hea).1, ?_⟩
  have hlen := stack_abs_length hc hs
  obtain ⟨h0, h1⟩ := hc
  obtain ⟨hmax, h2⟩ := hs
  unfold INT_MAX at hmax
  cases op with
  | capacity =>
    cases hea
    rfl
  | size =>
    cases hea
    simp only [lifoExec, lifoRet, lifoStep, hlen, Stack.size]
  | empty =>
    cases hea
    simp only [lifoExec, lifoRet, lifoStep, Stack.empty, Option.some.injEq, Prod.mk.injEq,
      true_and, Ret.bool.injEq]
    rw [Bool.eq_iff_iff, List.isEmpty_iff_length_eq_zero, decide_eq_true_eq]
    omega
  | push e =>
    simp only [pre, decide_eq_true_eq] at hp
    obtain ⟨hpush, rfl⟩ := exec_push_inv hea
    obtain ⟨-, -, rfl⟩ := push_eq_some_iff.mp hpush
    have hidx : (s.m_n + 1).toNat = s.m_n.toNat + 1 := by omega
    simp only [lifoExec, lifoRet, lifoStep, Stack.abs, hidx]
    rw [take_succ_set_at e (by omega)]
  | pop =>
    simp only [pre, decide_eq_true_eq] at hp
    obtain ⟨hpop, rfl⟩ := exec_pop_inv hea
    obtain ⟨-, rfl⟩ := pop_eq_some_iff.mp hpop
    have hidx : (s.m_n - 1).toNat = s.m_n.toNat - 1 := by omega
    simp only [lifoExec, lifoRet, lifoStep, Stack.abs, hidx]
    rw [take_pred_eq_dropLast (by omega)]
  | top =>
    simp only [pre, decide_eq_true_eq] at hp
    obtain ⟨x, htop, rfl, rfl⟩ := exec_top_inv hea
    rw [top_of_pos hp (by omega)] at htop
    have hidx : (a1.m_n - 1).toNat = a1.m_n.toNat - 1 := by omega
    have hlast : a1.abs.getLast? = some x := by
      unfold Stack.abs
      rw [getLast?_take_eq (by omega) (by omega), ← hidx, htop]
    simp only [lifoExec, lifoRet, lifoStep, hlast]
  | setTop e =>
    simp only [pre, decide_eq_true_eq] at hp
    obtain ⟨hset, rfl⟩ := exec_setTop_inv hea
    obtain ⟨-, -, rfl⟩ := setTop_eq_some_iff.mp hset
    have hidx : (s.m_n - 1).toNat = s.m_n.toNat - 1 := by omega
    have key : (s.m_data.set (s.m_n.toNat - 1) e).take s.m_n.toNat =
        (s.m_data.take s.m_n.toNat).dropLast ++ [e] := by
      obtain ⟨k, hk⟩ : ∃ k, s.m_n.toNat = k + 1 := ⟨s.m_n.toNat - 1, by omega⟩
      rw [hk, Nat.add_sub_cancel, take_succ_set_at e (by omega),
        ← take_pred_eq_dropLast (by omega), Nat.add_sub_cancel]
    simp only [lifoExec, lifoRet, lifoStep, Stack.abs, hidx, key]
  | clear =>
    cases hea
    rfl

theorem stack_run_refines (ops : List (Op T)) : ∀ s : Stack T, s.CursorsOk → s.StorageOk →
    s.inContract ops = true →
    ∃ s1 rs, s.run ops = some (s1, rs) ∧ s1.CursorsOk ∧ s1.StorageOk ∧
      s1.m_capa = s.m_capa ∧ runCalls (lifoExec s.m_capa) s.abs ops = some (s1.abs, rs) := by
  induction ops with
  | nil =>
    intro s hc hs _
    exact ⟨s, [], rfl, hc, hs, rfl, rfl⟩
  | cons op ops ih =>
    intro s hc hs hin
    unfold inContract at hin ih
    unfold run at ih ⊢
    have hp : s.pre op = true := by
      rw [callsInContract] at hin
      exact (Bool.and_eq_true_iff.mp hin).1
    obtain ⟨s1, r, he, hc1, hs1, hcap1, habs⟩ := stack_exec_refines hc hs hp
    rw [callsInContract_cons_of_exec _ he] at hin
    obtain ⟨s2, rs, hrun, hc2, hs2, hcap2, habs2⟩ :=
      ih s1 hc1 hs1 (Bool.and_eq_true_iff.mp hin).2
    refine ⟨s2, r :: rs, ?_, hc2, hs2, hcap2.trans hcap1, ?_⟩
    · rw [runCalls_cons_of_exec _ he, hrun]
      rfl
    · rw [runCalls_cons_of_exec _ habs, ← hcap1, habs2]
      rfl

end StackRefinement

/-! ## Queue: refinement of the abstract FIFO list -/

section QueueRefinement

open Queue

variable {T : Type}

theorem queue_abs_length {q : Queue T} (hc : q.CursorsOk) (hs : q.StorageOk) :
    (q.abs.length : Int) = q.m_iback - q.m_ifront := by
  obtain ⟨h0, h1, h2⟩ := hc
  obtain ⟨-, h3⟩ := hs
  unfold Queue.abs
  rw [List.length_drop, List.length_take, Nat.min_eq_left (by omega)]
  omega

theorem exec_setFront_inv {q q1 : Queue T} {e : T} {r : Ret T}
    (h : exec q (Op.setFront e) = some (q1, r)) : q.setFront e = some q1 ∧ r = Ret.void := by
  simp only [exec] at h
  split at h
  · next q2 he =>
    cases h
    exact ⟨he, rfl⟩
  · cases h

theorem exec_front_inv {q q1 : Queue T} {r : Ret T}
    (h : exec q Op.front = some (q1, r)) : ∃ x, q.front = some x ∧ q1 = q ∧ r = Ret.ref x := by
  simp only [exec] at h
  split at h
  · next x he =>
    cases h
    exact ⟨x, he, rfl, rfl⟩
  · cases h

theorem exec_size_inv {q q1 : Queue T} {r : Ret T}
    (h : exec q Op.size = some (q1, r)) : ∃ n, q.size = some n ∧ q1 = q ∧ r = Ret.int n := by
  simp only [exec] at h
  split at h
  · next n he =>
    cases h
    exact ⟨n, he, rfl, rfl⟩
  · cases h

theorem queue_exec_refines {q : Queue T} {op : Op T} (hc : q.CursorsOk) (hs : q.StorageOk)
    (hp : q.pre op = true) :
    ∃ q1 r, exec q op = some (q1, r) ∧ q1.CursorsOk ∧ q1.StorageOk ∧
      q1.m_capa = q.m_capa ∧ fifoExec q.m_capa q.abs op = some (q1.abs, r) := by
  obtain ⟨a1, b1, r, hea, heb, hc1, hs1, hsb1, hsim⟩ :=
    queue_exec_similar hc hs hs (queue_similar_refl q) hp
  refine ⟨a1, r, hea, hc1, hs1, (queue_exec_frame hea).1, ?_⟩
  have hlen := queue_abs_length hc hs
  obtain ⟨h0, h1, h2⟩ := hc
  obtain ⟨hmax, h3⟩ := hs
  unfold INT_MAX at hmax
  cases op with
  | capacity =>
    cases hea
    rfl
  | size =>
    obtain ⟨n, hn, rfl, rfl⟩ := exec_size_inv hea
    obtain ⟨-, rfl⟩ := int_result_eq_some_iff.mp hn
    simp only [fifoExec, fifoRet, fifoStep, hlen]
  | empty =>
    cases hea
    simp only [fifoExec, fifoRet, fifoStep, Queue.empty, Option.some.injEq, Prod.mk.injEq,
      true_and, Ret.bool.injEq]
    rw [Bool.eq_iff_iff, List.isEmpty_iff_length_eq_zero, decide_eq_true_eq]
    omega
  | enqueue e =>
    simp only [pre, decide_eq_true_eq] at hp
    obtain ⟨henq, rfl⟩ := exec_enqueue_inv hea
    obtain ⟨-, -, rfl⟩ := enqueue_eq_some_iff.mp henq
    have hidx : (q.m_iback + 1).toNat = q.m_iback.toNat + 1 := by omega
    simp only [fifoExec, fifoRet, fifoStep, Queue.abs, hidx]
    rw [take_succ_set_at e (by omega), List.drop_append_of_le_length]
    rw [List.length_take, Nat.min_eq_left (by omega)]
    omega
  | dequeue =>
    simp only [pre, decide_eq_true_eq] at hp
    obtain ⟨hdeq, rfl⟩ := exec_dequeue_inv hea
    obtain ⟨-, rfl⟩ := dequeue_eq_some_iff.mp hdeq
    have hidx : (q.m_ifront + 1).toNat = q.m_ifront.toNat + 1 := by omega
    simp only [fifoExec, fifoRet, fifoStep, Queue.abs, hidx, List.tail_drop]
  | front =>
    simp only [pre, decide_eq_true_eq] at hp
    obtain ⟨x, hfront, rfl, rfl⟩ := exec_front_inv hea
    unfold Queue.front at hfront
    rw [load_of_nonneg h0] at hfront
    have hhead : a1.abs.head? = some x := by
      unfold Queue.abs
      rw [List.head?_drop, List.getElem?_take_of_lt (by omega), hfront]
    simp only [fifoExec, fifoRet, fifoStep, hhead]
  | setFront e =>
    simp only [pre, decide_eq_true_eq] at hp
    obtain ⟨hset, rfl⟩ := exec_setFront_inv hea
    obtain ⟨-, rfl⟩ := setFront_eq_some_iff.mp hset
    simp only [fifoExec, fifoRet, fifoStep, Queue.abs]
    rw [drop_take_set_head e (by omega) (by omega)]
  | clear =>
    cases hea
    rfl

theorem queue_run_refines (ops : List (Op T)) : ∀ q : Queue T, q.CursorsOk → q.StorageOk →
    q.inContract ops = true →
    ∃ q1 rs, q.run ops = some (q1, rs) ∧ q1.CursorsOk ∧ q1.StorageOk ∧
      q1.m_capa = q.m_capa ∧ runCalls (fifoExec q.m_capa) q.abs ops = some (q1.abs, rs) := by
  induction ops with
  | nil =>
    intro q hc hs _
    exact ⟨q, [], rfl, hc, hs, rfl, rfl⟩
  | cons op ops ih =>
    intro q hc hs hin
    unfold inContract at hin ih
    unfold run at ih ⊢
    have hp : q.pre op = true := by
      rw [callsInContract] at hin
      exact (Bool.and_eq_true_iff.mp hin).1
    obtain ⟨q1, r, he, hc1, hs1, hcap1, habs⟩ := queue_exec_refines hc hs hp
    rw [callsInContract_cons_of_exec _ he] at hin
    obtain ⟨q2, rs, hrun, hc2, hs2, hcap2, habs2⟩ :=
      ih q1 hc1 hs1 (Bool.and_eq_true_iff.mp hin).2
    refine ⟨q2, r :: rs, ?_, hc2, hs2, hcap2.trans hcap1, ?_⟩
    · rw [runCalls_cons_of_exec _ he, hrun]
      rfl
    · rw [runCalls_cons_of_exec _ habs, ← hcap1, habs2]
      rfl

end QueueRefinement

section FrameClaims

variable {T : Type}

/-- C11: capacity and ownership are fixed at construction. For each of `SeqList`,
`Stack` and `Queue`, every mutating member function with a defined effect (`add`,
indexed write, `clear`; `push`, `pop`, write through `top()`, `clear`; `enqueue`,
`dequeue`, write through `front()`, `clear`) leaves `m_capa` and `m_own` unchanged;
hence after any sequence of calls with a defined effect on a container built by either
constructor with count `C`, `capacity()` still returns `C` and `m_own` still has the
value the constructor gave it. -/
theorem capacity_ownership_fixed :
    ((∀ (s s1 : SeqList T) e, s.add e = some s1 → s1.m_capa = s.m_capa ∧ s1.m_own = s.m_own) ∧
      (∀ (s s1 : SeqList T) i e, s.set i e = some s1 →
        s1.m_capa = s.m_capa ∧ s1.m_own = s.m_own) ∧
      (∀ s : SeqList T, s.clear.m_capa = s.m_capa ∧ s.clear.m_own = s.m_own) ∧
      (∀ (C : Int) (s s1 : SeqList T) ops rs, s.Fresh C → s.run ops = some (s1, rs) →
        s1.capacity = C ∧ s1.m_own = s.m_own)) ∧
    ((∀ (s s1 : Stack T) e, s.push e = some s1 → s1.m_capa = s.m_capa ∧ s1.m_own = s.m_own) ∧
      (∀ (s s1 : Stack T), s.pop = some s1 → s1.m_capa = s.m_capa ∧ s1.m_own = s.m_own) ∧
      (∀ (s s1 : Stack T) e, s.setTop e = some s1 →
        s1.m_capa = s.m_capa ∧ s1.m_own = s.m_own) ∧
      (∀ s : Stack T, s.clear.m_capa = s.m_capa ∧ s.clear.m_own = s.m_own) ∧
      (∀ (C : Int) (s s1 : Stack T) ops rs, s.Fresh C → s.run ops = some (s1, rs) →
        s1.capacity = C ∧ s1.m_own = s.m_own)) ∧
    ((∀ (q q1 : Queue T) e, q.enqueue e = some q1 →
        q1.m_capa = q.m_capa ∧ q1.m_own = q.m_own) ∧
      (∀ (q q1 : Queue T), q.dequeue = some q1 → q1.m_capa = q.m_capa ∧ q1.m_own = q.m_own) ∧
      (∀ (q q1 : Queue T) e, q.setFront e = some q1 →
        q1.m_capa = q.m_capa ∧ q1.m_own = q.m_own) ∧
      (∀ q : Queue T, q.clear.m_capa = q.m_capa ∧ q.clear.m_own = q.m_own) ∧
      (∀ (C : Int) (q q1 : Queue T) ops rs, q.Fresh C → q.run ops = some (q1, rs) →
        q1.capacity = C ∧ q1.m_own = q.m_own)) := by
  refine ⟨⟨?_, ?_, fun _ => ⟨rfl, rfl⟩, ?_⟩, ⟨?_, ?_, ?_, fun _ => ⟨rfl, rfl⟩, ?_⟩,
    ⟨?_, ?_, ?_, fun _ => ⟨rfl, rfl⟩, ?_⟩⟩
  · intro s s1 e h
    obtain ⟨-, -, rfl⟩ := add_eq_some_iff.mp h
    exact ⟨rfl, rfl⟩
  · intro s s1 i e h
    obtain ⟨-, rfl⟩ := set_eq_some_iff.mp h
    exact ⟨rfl, rfl⟩
  · intro C s s1 ops rs hs h
    obtain ⟨h1, h2, -⟩ := seqlist_run_frame ops s s1 rs h
    exact ⟨h1.trans (seqlist_fresh_fields hs).1, h2⟩
  · intro s s1 e h
    obtain ⟨-, -, rfl⟩ := push_eq_some_iff.mp h
    exact ⟨rfl, rfl⟩
  · intro s s1 h
    obtain ⟨-, rfl⟩ := pop_eq_some_iff.mp h
    exact ⟨rfl, rfl⟩
  · intro s s1 e h
    obtain ⟨-, -, rfl⟩ := setTop_eq_some_iff.mp h
    exact ⟨rfl, rfl⟩
  · intro C s s1 ops rs hs h
    obtain ⟨h1, h2, -⟩ := stack_run_frame ops s s1 rs h
    exact ⟨h1.trans (stack_fresh_fields hs).1, h2⟩
  · intro q q1 e h
    obtain ⟨-, -, rfl⟩ := enqueue_eq_some_iff.mp h
    exact ⟨rfl, rfl⟩
  · intro q q1 h
    obtain ⟨-, rfl⟩ := dequeue_eq_some_iff.mp h
    exact ⟨rfl, rfl⟩
  · intro q q1 e h
    obtain ⟨-, rfl⟩ := setFront_eq_some_iff.mp h
    exact ⟨rfl, rfl⟩
  · intro C q q1 ops rs hq h
    obtain ⟨h1, h2, -⟩ := queue_run_frame ops q q1 rs h
    exact ⟨h1.trans (queue_fresh_fields hq).1, h2⟩

/-- Witness for C11: a `Queue<int>` allocated with capacity 3 (cells initially `0`)
after a sequence of calls that goes as far as the exhausted window and a `clear()`. -/
theorem capacity_ownership_fixed_witness :
    ({ m_capa := 3, m_ifront := 0, m_iback := 1, m_data := [9, 2, 3], m_own := true } : Queue Int).capacity = 3 ∧
    ({ m_capa := 3, m_ifront := 0, m_iback := 1, m_data := [9, 2, 3], m_own := true } : Queue Int).m_own =
      ({ m_capa := 3, m_ifront := 0, m_iback := 0, m_data := [0, 0, 0], m_own := true } : Queue Int).m_own :=
  (capacity_ownership_fixed (T := Int)).2.2.2.2.2.2 3
    { m_capa := 3, m_ifront := 0, m_iback := 0, m_data := [0, 0, 0], m_own := true }
    { m_capa := 3, m_ifront := 0, m_iback := 1, m_data := [9, 2, 3], m_own := true }
    [Queue.Op.enqueue 1, Queue.Op.enqueue 2, Queue.Op.enqueue 3, Queue.Op.dequeue,
      Queue.Op.clear, Queue.Op.enqueue 9]
    [Ret.void, Ret.void, Ret.void, Ret.void, Ret.void, Ret.void]
    (Or.inl ⟨some fun _ => (0 : Int), rfl⟩) rfl

/-- C12: `clear()` resets only the logical extent. For every state of a `SeqList`,
`clear()` sets `m_n` to `0` and leaves the storage block (every cell of it), `m_capa`
and `m_own` as they were; the same holds for `Stack::clear` with `m_n` and for
`Queue::clear` with `m_ifront` and `m_iback`. -/
theorem clear_resets_cursors_only :
    (∀ s : SeqList T, s.clear.m_n = 0 ∧ s.clear.m_data = s.m_data ∧
      s.clear.m_capa = s.m_capa ∧ s.clear.m_own = s.m_own) ∧
    (∀ s : Stack T, s.clear.m_n = 0 ∧ s.clear.m_data = s.m_data ∧
      s.clear.m_capa = s.m_capa ∧ s.clear.m_own = s.m_own) ∧
    (∀ q : Queue T, q.clear.m_ifront = 0 ∧ q.clear.m_iback = 0 ∧ q.clear.m_data = q.m_data ∧
      q.clear.m_capa = q.m_capa ∧ q.clear.m_own = q.m_own) :=
  ⟨fun _ => ⟨rfl, rfl, rfl, rfl⟩, fun _ => ⟨rfl, rfl, rfl, rfl⟩,
    fun _ => ⟨rfl, rfl, rfl, rfl, rfl⟩⟩

end FrameClaims

section OwnershipClaims

variable {T : Type}

/-- C13: ownership decides release. For each of `SeqList`, `Stack` and `Queue`:
(1) a container built by the allocating constructor has `m_own == true`, and over its
life (construction with count `n`, any calls with a defined effect, destruction) the
traffic with the free store is exactly one block of `n` cells acquired at construction
and one release, made by the destructor; (2) a container built by the borrowing
constructor has `m_own == false`, and over its life there is no traffic with the free
store at all, the destructor releasing nothing; (3) the calls of the member functions
acquire and release nothing. -/
theorem ownership_decides_release :
    ((∀ (n : Int) (heap : Option (Nat → T)) (s s1 : SeqList T) ops rs,
        SeqList.ofCapacity n heap = some s → s.run ops = some (s1, rs) →
          s.m_own = true ∧ s1.destroy = [HeapEvent.release] ∧
          SeqList.lifeOwning n heap ops = some [HeapEvent.acquire n, HeapEvent.release]) ∧
      (∀ (r : RefMemory T) (s1 : SeqList T) ops rs, (SeqList.ofRef r).run ops = some (s1, rs) →
          (SeqList.ofRef r).m_own = false ∧ s1.destroy = [] ∧
          SeqList.lifeBorrowing r ops = some []) ∧
      (∀ ops : List (SeqList.Op T), SeqList.run_heap ops = [])) ∧
    ((∀ (n : Int) (heap : Option (Nat → T)) (s s1 : Stack T) ops rs,
        Stack.ofCapacity n heap = some s → s.run ops = some (s1, rs) →
          s.m_own = true ∧ s1.destroy = [HeapEvent.release] ∧
          Stack.lifeOwning n heap ops = some [HeapEvent.acquire n, HeapEvent.release]) ∧
      (∀ (r : RefMemory T) (s1 : Stack T) ops rs, (Stack.ofRef r).run ops = some (s1, rs) →
          (Stack.ofRef r).m_own = false ∧ s1.destroy = [] ∧
          Stack.lifeBorrowing r ops = some []) ∧
      (∀ ops : List (Stack.Op T), Stack.run_heap ops = [])) ∧
    ((∀ (n : Int) (heap : Option (Nat → T)) (q q1 : Queue T) ops rs,
        Queue.ofCapacity n heap = some q → q.run ops = some (q1, rs) →
          q.m_own = true ∧ q1.destroy = [HeapEvent.release] ∧
          Queue.lifeOwning n heap ops = some [HeapEvent.acquire n, HeapEvent.release]) ∧
      (∀ (r : RefMemory T) (q1 : Queue T) ops rs, (Queue.ofRef r).run ops = some (q1, rs) →
          (Queue.ofRef r).m_own = false ∧ q1.destroy = [] ∧
          Queue.lifeBorrowing r ops = some []) ∧
      (∀ ops : List (Queue.Op T), Queue.run_heap ops = [])) := by
  refine ⟨⟨?_, ?_, seqlist_run_heap⟩, ⟨?_, ?_, stack_run_heap⟩, ⟨?_, ?_, queue_run_heap⟩⟩
  · intro n heap s s1 ops rs hs hrun
    have hown := seqlist_ofCapacity_own hs
    have hown1 : s1.m_own = true := (seqlist_run_frame ops s s1 rs hrun).2.1.trans hown
    have hd : s1.destroy = [HeapEvent.release] := by
      unfold SeqList.destroy
      rw [if_pos hown1]
    refine ⟨hown, hd, ?_⟩
    unfold SeqList.lifeOwning
    rw [hs]
    simp only [hrun, hd, seqlist_run_heap, SeqList.ofCapacity_heap, List.append_nil,
      List.singleton_append]
  · intro r s1 ops rs hrun
    have hown1 : s1.m_own = false := (seqlist_run_frame ops _ s1 rs hrun).2.1
    have hd : s1.destroy = [] := by
      unfold SeqList.destroy
      rw [hown1]
      rfl
    refine ⟨rfl, hd, ?_⟩
    unfold SeqList.lifeBorrowing
    simp only [hrun, hd, seqlist_run_heap, SeqList.ofRef_heap, List.append_nil]
  · intro n heap s s1 ops rs hs hrun
    have hown := stack_ofCapacity_own hs
    have hown1 : s1.m_own = true := (stack_run_frame ops s s1 rs hrun).2.1.trans hown
    have hd : s1.destroy = [HeapEvent.release] := by
      unfold Stack.destroy
      rw [if_pos hown1]
    refine ⟨hown, hd, ?_⟩
    unfold Stack.lifeOwning
    rw [hs]
    simp only [hrun, hd, stack_run_heap, Stack.ofCapacity_heap, List.append_nil,
      List.singleton_append]
  · intro r s1 ops rs hrun
    have hown1 : s1.m_own = false := (stack_run_frame ops _ s1 rs hrun).2.1
    have hd : s1.destroy = [] := by
      unfold Stack.destroy
      rw [hown1]
      rfl
    refine ⟨rfl, hd, ?_⟩
    unfold Stack.lifeBorrowing
    simp only [hrun, hd, stack_run_heap, Stack.ofRef_heap, List.append_nil]
  · intro n heap q q1 ops rs hq hrun
    have hown := queue_ofCapacity_own hq
    have hown1 : q1.m_own = true := (queue_run_frame ops q q1 rs hrun).2.1.trans hown
    have hd : q1.destroy = [HeapEvent.release] := by
      unfold Queue.destroy
      rw [if_pos hown1]
    refine ⟨hown, hd, ?_⟩
    unfold Queue.lifeOwning
    rw [hq]
    simp only [hrun, hd, queue_run_heap, Queue.ofCapacity_heap, List.append_nil,
      List.singleton_append]
  · intro r q1 ops rs hrun
    have hown1 : q1.m_own = false := (queue_run_frame ops _ q1 rs hrun).2.1
    have hd : q1.destroy = [] := by
      unfold Queue.destroy
      rw [hown1]
      rfl
    refine ⟨rfl, hd, ?_⟩
    unfold Queue.lifeBorrowing
    simp only [hrun, hd, queue_run_heap, Queue.ofRef_heap, List.append_nil]

/-- Witness for C13: a `Queue<int>` allocated with capacity 2 and a `SeqList<int>` over
two borrowed cells, each used and then destroyed. -/
theorem ownership_decides_release_witness :
    (({ m_capa := 2, m_ifront := 0, m_iback := 0, m_data := [0, 0], m_own := true } : Queue Int).m_own = true ∧
      ({ m_capa := 2, m_ifront := 1, m_iback := 2, m_data := [5, 6], m_own := true } : Queue Int).destroy = [HeapEvent.release] ∧
      Queue.lifeOwning 2 (some fun _ => (0 : Int))
          [Queue.Op.enqueue 5, Queue.Op.enqueue 6, Queue.Op.dequeue] =
        some [HeapEvent.acquire 2, HeapEvent.release]) ∧
    ((SeqList.ofRef (refmem 2 [(0 : Int), 0])).m_own = false ∧
      ({ m_capa := 2, m_n := 0, m_data := [5, 0], m_own := false } : SeqList Int).destroy = [] ∧
      SeqList.lifeBorrowing (refmem 2 [(0 : Int), 0])
        [SeqList.Op.add 5, SeqList.Op.clear] = some []) :=
  ⟨(ownership_decides_release (T := Int)).2.2.1 2 (some fun _ => 0)
      { m_capa := 2, m_ifront := 0, m_iback := 0, m_data := [0, 0], m_own := true }
      { m_capa := 2, m_ifront := 1, m_iback := 2, m_data := [5, 6], m_own := true }
      [Queue.Op.enqueue 5, Queue.Op.enqueue 6, Queue.Op.dequeue]
      [Ret.void, Ret.void, Ret.void] rfl rfl,
    (ownership_decides_release (T := Int)).1.2.1 (refmem 2 [0, 0])
      { m_capa := 2, m_n := 0, m_data := [5, 0], m_own := false }
      [SeqList.Op.add 5, SeqList.Op.clear] [Ret.void, Ret.void] rfl⟩

end OwnershipClaims

section SizeClaims

variable {T : Type}

/-- C14: `size()` and `empty()` agree. For a queue: (1) in every state, whenever
`size()` has a value it is `m_iback - m_ifront`, and `empty()` is true exactly when
`size()` returns `0`; (2) `size()` does have that value in every state a queue built by
either constructor reaches through calls with a defined effect, within the contract or
not (there both cursors lie in `[0, INT_MAX]`, so the subtraction cannot overflow).
For every state of a list or a stack, `empty()` is true exactly when `size()` is `0`. -/
theorem size_empty_agree :
    ((∀ q : Queue T, (q.empty = true ↔ q.size = some 0) ∧
        ∀ n, q.size = some n → n = q.m_iback - q.m_ifront) ∧
      (∀ (C : Int) (q0 q : Queue T) ops rs, q0.Fresh C → q0.run ops = some (q, rs) →
        q.size = some (q.m_iback - q.m_ifront))) ∧
    (∀ s : SeqList T, s.empty = true ↔ s.size = 0) ∧
    (∀ s : Stack T, s.empty = true ↔ s.size = 0) := by
  refine ⟨⟨?_, ?_⟩, ?_, ?_⟩
  · intro q
    constructor
    · constructor
      · intro h
        simp only [Queue.empty, decide_eq_true_eq] at h
        exact int_result_eq_some_iff.mpr ⟨⟨by omega, by omega⟩, by omega⟩
      · intro h
        obtain ⟨-, h0⟩ := int_result_eq_some_iff.mp h
        simp only [Queue.empty, decide_eq_true_eq]
        omega
    · intro n h
      exact (int_result_eq_some_iff.mp h).2
  · intro C q0 q ops rs hq hrun
    obtain ⟨-, hf, hb⟩ := queue_fresh_fields hq
    obtain ⟨⟨h1, h2⟩, h3, h4⟩ := queue_run_cursor_range ops q0 q rs hrun
      ⟨⟨by omega, by omega⟩, by omega, by omega⟩
    exact int_result_eq_some_iff.mpr ⟨⟨by omega, by omega⟩, rfl⟩
  · intro s
    simp only [SeqList.empty, SeqList.size, decide_eq_true_eq]
  · intro s
    simp only [Stack.empty, Stack.size, decide_eq_true_eq]

/-- Witness for C14: a `Queue<int>` over two borrowed cells after one `enqueue` and
three calls of `dequeue`, two of them outside the contract. -/
theorem size_empty_agree_witness :
    ({ m_capa := 2, m_ifront := 3, m_iback := 1, m_data := [4, 0], m_own := false } : Queue Int).size =
      some (({ m_capa := 2, m_ifront := 3, m_iback := 1, m_data := [4, 0], m_own := false } : Queue Int).m_iback -
        ({ m_capa := 2, m_ifront := 3, m_iback := 1, m_data := [4, 0], m_own := false } : Queue Int).m_ifront) :=
  (size_empty_agree (T := Int)).1.2 2 (Queue.ofRef (refmem 2 [0, 0]))
    { m_capa := 2, m_ifront := 3, m_iback := 1, m_data := [4, 0], m_own := false }
    [Queue.Op.enqueue 4, Queue.Op.dequeue, Queue.Op.dequeue, Queue.Op.dequeue]
    [Ret.void, Ret.void, Ret.void, Ret.void] (Or.inr ⟨refmem 2 [0, 0], rfl, rfl⟩) rfl

end SizeClaims

section StackRefinementClaim

open Stack

variable {T : Type}

/-- C15: the stack refines an abstract LIFO list under arbitrary interleaving. With
`abs s` the first `m_n` cells of the block: for a stack built by either constructor with
count `C` (`0 <= C`, an `int`, storage of at least `C` cells) and every sequence of
calls that each meet their stated precondition, the calls have a defined effect, and
the state reached and the values returned are those of the abstract list run from the
empty list (`push(v)` appends `v`, `pop()` removes the last element and nothing else,
`clear()` empties). In the state reached `size()` is the length of `abs`, `top()`
returns the last element of `abs` when there is one, and one more `push(v)`, `pop()` or
`clear()` within the contract acts on `abs` in that same way. -/
theorem stack_refines_lifo (C : Int) (h0 : 0 ≤ C) (hC : C ≤ INT_MAX) (s0 : Stack T)
    (hs : s0.Fresh C) (hroom : C ≤ s0.m_data.length) (ops : List (Op T))
    (hops : s0.inContract ops = true) :
    ∃ s rs, s0.run ops = some (s, rs) ∧
      runCalls (lifoExec C) [] ops = some (s.abs, rs) ∧
      s.size = (s.abs.length : Int) ∧
      (∀ x, s.abs.getLast? = some x → s.top = some x) ∧
      (∀ v, s.m_n < s.m_capa → ∃ s2, s.push v = some s2 ∧ s2.abs = s.abs ++ [v]) ∧
      (0 < s.m_n → ∃ s2, s.pop = some s2 ∧ s2.abs = s.abs.dropLast) ∧
      s.clear.abs = [] := by
  obtain ⟨hcap, hn⟩ := stack_fresh_fields hs
  have hst : s0.StorageOk := ⟨by rw [hcap]; exact hC, by rw [hcap]; exact hroom⟩
  have habs0 : s0.abs = [] := by
    unfold Stack.abs
    rw [hn]
    rfl
  obtain ⟨s, rs, hrun, hc1, hs1, hcap1, hrefine⟩ :=
    stack_run_refines ops s0 (stack_fresh_cursorsOk hs h0) hst hops
  rw [hcap, habs0] at hrefine
  have hlen := stack_abs_length hc1 hs1
  refine ⟨s, rs, hrun, hrefine, hlen.symm, ?_, ?_, ?_, rfl⟩
  · intro x hx
    have hpos : 0 < s.m_n := by
      rcases Nat.eq_zero_or_pos s.abs.length with hz | hz
      · rw [List.length_eq_zero.mp hz] at hx
        cases hx
      · omega
    have hmax := hs1.1
    unfold INT_MAX at hmax
    have hle := hc1.2
    have hlen2 := hs1.2
    rw [top_of_pos hpos (by omega)]
    unfold Stack.abs at hx
    rw [getLast?_take_eq (by omega) (by omega)] at hx
    have hidx : (s.m_n - 1).toNat = s.m_n.toNat - 1 := by omega
    rw [hidx, hx]
  · intro v hv
    have hp : s.pre (Op.push v) = true := by
      simp only [pre, decide_eq_true_eq]
      exact hv
    obtain ⟨s2, r, he, -, -, -, habs⟩ := stack_exec_refines hc1 hs1 hp
    refine ⟨s2, (exec_push_inv he).1, ?_⟩
    simp only [lifoExec, lifoRet, lifoStep, Option.some.injEq, Prod.mk.injEq] at habs
    exact habs.1.symm
  · intro hv
    have hp : s.pre Op.pop = true := by
      simp only [pre, decide_eq_true_eq]
      exact hv
    obtain ⟨s2, r, he, -, -, -, habs⟩ := stack_exec_refines hc1 hs1 hp
    refine ⟨s2, (exec_pop_inv he).1, ?_⟩
    simp only [lifoExec, lifoRet, lifoStep, Option.some.injEq, Prod.mk.injEq] at habs
    exact habs.1.symm

/-- Witness for C15: a `Stack<int>` over three borrowed cells with pushes, pops, reads
and a `clear()` interleaved. -/
theorem stack_refines_lifo_witness :
    ∃ s rs, (Stack.ofRef (refmem 3 [(0 : Int), 0, 0])).run
        [Op.push 1, Op.push 2, Op.top, Op.pop, Op.push 3, Op.size, Op.clear, Op.push 4,
          Op.push 5, Op.top] = some (s, rs) ∧
      runCalls (lifoExec 3) []
        [Op.push 1, Op.push 2, Op.top, Op.pop, Op.push 3, Op.size, Op.clear, Op.push 4,
          Op.push 5, Op.top] = some (s.abs, rs) ∧
      s.size = (s.abs.length : Int) ∧
      (∀ x, s.abs.getLast? = some x → s.top = some x) ∧
      (∀ v, s.m_n < s.m_capa → ∃ s2, s.push v = some s2 ∧ s2.abs = s.abs ++ [v]) ∧
      (0 < s.m_n → ∃ s2, s.pop = some s2 ∧ s2.abs = s.abs.dropLast) ∧
      s.clear.abs = [] :=
  stack_refines_lifo 3 (by decide) (by decide) (Stack.ofRef (refmem 3 [(0 : Int), 0, 0]))
    (Or.inr ⟨refmem 3 [0, 0, 0], rfl, rfl⟩) (by decide)
    [Op.push 1, Op.push 2, Op.top, Op.pop, Op.push 3, Op.size, Op.clear, Op.push 4,
      Op.push 5, Op.top] rfl

end StackRefinementClaim

section QueueRefinementClaim

open Queue

variable {T : Type}

/-- C16: the queue refines an abstract FIFO list under arbitrary interleaving. With
`abs q` the cells `m_ifront`, ..., `m_iback - 1` of the block: for a queue built by
either constructor with count `C` (`0 <= C`, an `int`, storage of at least `C` cells)
and every sequence of calls that each meet their stated precondition, the calls have a
defined effect, and the state reached and the values returned are those of the
abstract list run from the empty list (`enqueue(v)` appends `v` at the end,
`dequeue()` removes the first element and nothing else, `clear()` empties). In the
state reached `size()` is the length of `abs`, `front()` returns the first element of
`abs` when there is one, and one more `enqueue(v)`, `dequeue()` or `clear()` within
the contract acts on `abs` in that same way. -/
theorem queue_refines_fifo (C : Int) (h0 : 0 ≤ C) (hC : C ≤ INT_MAX) (q0 : Queue T)
    (hq : q0.Fresh C) (hroom : C ≤ q0.m_data.length) (ops : List (Op T))
    (hops : q0.inContract ops = true) :
    ∃ q rs, q0.run ops = some (q, rs) ∧
      runCalls (fifoExec C) [] ops = some (q.abs, rs) ∧
      q.size = some (q.abs.length : Int) ∧
      (∀ x, q.abs.head? = some x → q.front = some x) ∧
      (∀ v, q.m_iback < q.m_capa → ∃ q2, q.enqueue v = some q2 ∧ q2.abs = q.abs ++ [v]) ∧
      (q.m_ifront < q.m_iback → ∃ q2, q.dequeue = some q2 ∧ q2.abs = q.abs.tail) ∧
      q.clear.abs = [] := by
  obtain ⟨hcap, hf, hb⟩ := queue_fresh_fields hq
  have hst : q0.StorageOk := ⟨by rw [hcap]; exact hC, by rw [hcap]; exact hroom⟩
  have habs0 : q0.abs = [] := by
    unfold Queue.abs
    rw [hb, hf]
    rfl
  obtain ⟨q, rs, hrun, hc1, hs1, hcap1, hrefine⟩ :=
    queue_run_refines ops q0 (queue_fresh_cursorsOk hq h0) hst hops
  rw [hcap, habs0] at hrefine
  have hlen := queue_abs_length hc1 hs1
  have hmax := hs1.1
  unfold INT_MAX at hmax
  obtain ⟨k0, k1, k2⟩ := hc1
  refine ⟨q, rs, hrun, hrefine, ?_, ?_, ?_, ?_, rfl⟩
  · rw [hlen]
    exact int_result_eq_some_iff.mpr ⟨⟨by omega, by omega⟩, rfl⟩
  · intro x hx
    have hpos : q.m_ifront < q.m_iback := by
      rcases Nat.eq_zero_or_pos q.abs.length with hz | hz
      · rw [List.length_eq_zero.mp hz] at hx
        cases hx
      · omega
    unfold Queue.abs at hx
    rw [List.head?_drop, List.getElem?_take_of_lt (by omega)] at hx
    unfold Queue.front
    rw [load_of_nonneg k0, hx]
  · intro v hv
    have hp : q.pre (Op.enqueue v) = true := by
      simp only [pre, decide_eq_true_eq]
      exact hv
    obtain ⟨q2, r, he, -, -, -, habs⟩ := queue_exec_refines ⟨k0, k1, k2⟩ hs1 hp
    refine ⟨q2, (exec_enqueue_inv he).1, ?_⟩
    simp only [fifoExec, fifoRet, fifoStep, Option.some.injEq, Prod.mk.injEq] at habs
    exact habs.1.symm
  · intro hv
    have hp : q.pre Op.dequeue = true := by
      simp only [pre, decide_eq_true_eq]
      exact hv
    obtain ⟨q2, r, he, -, -, -, habs⟩ := queue_exec_refines ⟨k0, k1, k2⟩ hs1 hp
    refine ⟨q2, (exec_dequeue_inv he).1, ?_⟩
    simp only [fifoExec, fifoRet, fifoStep, Option.some.injEq, Prod.mk.injEq] at habs
    exact habs.1.symm

/-- Witness for C16: a `Queue<int>` over four borrowed cells with enqueues, dequeues,
reads and a `clear()` interleaved. -/
theorem queue_refines_fifo_witness :
    ∃ q rs, (Queue.ofRef (refmem 4 [(0 : Int), 0, 0, 0])).run
        [Op.enqueue 1, Op.enqueue 2, Op.front, Op.dequeue, Op.enqueue 3, Op.size,
          Op.front, Op.clear, Op.enqueue 4, Op.enqueue 5, Op.front] = some (q, rs) ∧
      runCalls (fifoExec 4) []
        [Op.enqueue 1, Op.enqueue 2, Op.front, Op.dequeue, Op.enqueue 3, Op.size,
          Op.front, Op.clear, Op.enqueue 4, Op.enqueue 5, Op.front] = some (q.abs, rs) ∧
      q.size = some (q.abs.length : Int) ∧
      (∀ x, q.abs.head? = some x → q.front = some x) ∧
      (∀ v, q.m_iback < q.m_capa → ∃ q2, q.enqueue v = some q2 ∧ q2.abs = q.abs ++ [v]) ∧
      (q.m_ifront < q.m_iback → ∃ q2, q.dequeue = some q2 ∧ q2.abs = q.abs.tail) ∧
      q.clear.abs = [] :=
  queue_refines_fifo 4 (by decide) (by decide) (Queue.ofRef (refmem 4 [(0 : Int), 0, 0, 0]))
    (Or.inr ⟨refmem 4 [0, 0, 0, 0], rfl, rfl⟩) (by decide)
    [Op.enqueue 1, Op.enqueue 2, Op.front, Op.dequeue, Op.enqueue 3, Op.size,
      Op.front, Op.clear, Op.enqueue 4, Op.enqueue 5, Op.front] rfl

end QueueRefinementClaim

/-! ## Claims on the mex function -/

section MexClaims

variable {MArray Mx : Type}

theorem do_extract_nbs_out (api : CellApi Mx) (G : GraphLib MArray Mx) (mG : MArray)
    {op : Char} (h : op = 'o' ∨ op = 'O') :
    do_extract_nbs api G mG op =
      Except.ok (nbnodes_to_matlab_cells api G (G.adjList (G.to_refgraph mG))) := by
  simp only [do_extract_nbs, if_pos h]

theorem do_extract_nbs_in (api : CellApi Mx) (G : GraphLib MArray Mx) (mG : MArray)
    {op : Char} (h : op = 'i' ∨ op = 'I') :
    do_extract_nbs api G mG op =
      Except.ok (nbnodes_to_matlab_cells api G (G.adjList (G.transpose (G.to_refgraph mG)))) := by
  have hn : ¬ (op = 'o' ∨ op = 'O') := by
    rcases h with rfl | rfl <;> decide
  simp only [do_extract_nbs, if_neg hn, if_pos h]

theorem do_extract_nbs_other (api : CellApi Mx) (G : GraphLib MArray Mx) (mG : MArray)
    {op : Char} (h1 : ¬ (op = 'o' ∨ op = 'O')) (h2 : ¬ (op = 'i' ∨ op = 'I')) :
    do_extract_nbs api G mG op = raise_operr := by
  simp only [do_extract_nbs, if_neg h1, if_neg h2]

theorem do_extract_wnbs_out (api : CellApi Mx) {G : GraphLib MArray Mx}
    (W : WGraphLib MArray Mx G) (mG : MArray) {op : Char} (h : op = 'o' ∨ op = 'O') :
    do_extract_wnbs api W mG op =
      Except.ok (nbnodes_to_matlab_cells api G (W.toAdjList (W.wadjList (W.to_refwgraph mG))),
        nbweights_to_matlab_cells api W (W.wadjList (W.to_refwgraph mG))) := by
  simp only [do_extract_wnbs, if_pos h]

theorem do_extract_wnbs_in (api : CellApi Mx) {G : GraphLib MArray Mx}
    (W : WGraphLib MArray Mx G) (mG : MArray) {op : Char} (h : op = 'i' ∨ op = 'I') :
    do_extract_wnbs api W mG op =
      Except.ok
        (nbnodes_to_matlab_cells api G
          (W.toAdjList (W.wadjList (W.transpose (W.to_refwgraph mG)))),
        nbweights_to_matlab_cells api W (W.wadjList (W.transpose (W.to_refwgraph mG)))) := by
  have hn : ¬ (op = 'o' ∨ op = 'O') := by
    rcases h with rfl | rfl <;> decide
  simp only [do_extract_wnbs, if_neg hn, if_pos h]

theorem do_extract_wnbs_other (api : CellApi Mx) {G : GraphLib MArray Mx}
    (W : WGraphLib MArray Mx G) (mG : MArray) {op : Char}
    (h1 : ¬ (op = 'o' ∨ op = 'O')) (h2 : ¬ (op = 'i' ∨ op = 'I')) :
    do_extract_wnbs api W mG op = raise_operr := by
  simp only [do_extract_wnbs, if_neg h1, if_neg h2]

/-- C17: validation of the option character in the neighbour extraction. For every
graph handle and every character `op`, each of `do_extract_nbs` and `do_extract_wnbs`
raises an error exactly when `op` is none of `'o'`, `'O'`, `'i'`, `'I'`, and the error
is `gr_neighbors:invalidarg`; for `'o'` and `'O'` the result is built from the
adjacency list of the graph itself, for `'i'` and `'I'` from the adjacency list of the
transposed graph; the upper-case and the lower-case letter give the same result. -/
theorem extract_validates_op (api : CellApi Mx) (G : GraphLib MArray Mx)
    (W : WGraphLib MArray Mx G) (mG : MArray) (op : Char) :
    (((∃ e, do_extract_nbs api G mG op = Except.error e) ↔
          ¬ (op = 'o' ∨ op = 'O' ∨ op = 'i' ∨ op = 'I')) ∧
      (∀ e, do_extract_nbs api G mG op = Except.error e →
          e.id = "gr_neighbors:invalidarg") ∧
      (op = 'o' ∨ op = 'O' → do_extract_nbs api G mG op =
          Except.ok (nbnodes_to_matlab_cells api G (G.adjList (G.to_refgraph mG)))) ∧
      (op = 'i' ∨ op = 'I' → do_extract_nbs api G mG op =
          Except.ok
            (nbnodes_to_matlab_cells api G (G.adjList (G.transpose (G.to_refgraph mG))))) ∧
      do_extract_nbs api G mG 'O' = do_extract_nbs api G mG 'o' ∧
      do_extract_nbs api G mG 'I' = do_extract_nbs api G mG 'i') ∧
    (((∃ e, do_extract_wnbs api W mG op = Except.error e) ↔
          ¬ (op = 'o' ∨ op = 'O' ∨ op = 'i' ∨ op = 'I')) ∧
      (∀ e, do_extract_wnbs api W mG op = Except.error e →
          e.id = "gr_neighbors:invalidarg") ∧
      (op = 'o' ∨ op = 'O' → do_extract_wnbs api W mG op =
          Except.ok
            (nbnodes_to_matlab_cells api G (W.toAdjList (W.wadjList (W.to_refwgraph mG))),
              nbweights_to_matlab_cells api W (W.wadjList (W.to_refwgraph mG)))) ∧
      (op = 'i' ∨ op = 'I' → do_extract_wnbs api W mG op =
          Except.ok
            (nbnodes_to_matlab_cells api G
                (W.toAdjList (W.wadjList (W.transpose (W.to_refwgraph mG)))),
              nbweights_to_matlab_cells api W
                (W.wadjList (W.transpose (W.to_refwgraph mG))))) ∧
      do_extract_wnbs api W mG 'O' = do_extract_wnbs api W mG 'o' ∧
      do_extract_wnbs api W mG 'I' = do_extract_wnbs api W mG 'i') := by
  have key : (op = 'o' ∨ op = 'O' ∨ op = 'i' ∨ op = 'I') ↔
      ((op = 'o' ∨ op = 'O') ∨ (op = 'i' ∨ op = 'I')) := by
    constructor
    · rintro (h | h | h | h)
      · exact Or.inl (Or.inl h)
      · exact Or.inl (Or.inr h)
      · exact Or.inr (Or.inl h)
      · exact Or.inr (Or.inr h)
    · rintro ((h | h) | (h | h))
      · exact Or.inl h
      · exact Or.inr (Or.inl h)
      · exact Or.inr (Or.inr (Or.inl h))
      · exact Or.inr (Or.inr (Or.inr h))
  refine ⟨⟨?_, ?_, do_extract_nbs_out api G mG, do_extract_nbs_in api G mG, ?_, ?_⟩,
    ⟨?_, ?_, do_extract_wnbs_out api W mG, do_extract_wnbs_in api W mG, ?_, ?_⟩⟩
  · rw [key]
    constructor
    · rintro ⟨e, he⟩ (h | h)
      · rw [do_extract_nbs_out api G mG h] at he
        cases he
      · rw [do_extract_nbs_in api G mG h] at he
        cases he
    · intro h
      exact ⟨_, do_extract_nbs_other api G mG (fun k => h (Or.inl k)) (fun k => h (Or.inr k))⟩
  · intro e he
    by_cases h1 : op = 'o' ∨ op = 'O'
    · rw [do_extract_nbs_out api G mG h1] at he
      cases he
    · by_cases h2 : op = 'i' ∨ op = 'I'
      · rw [do_extract_nbs_in api G mG h2] at he
        cases he
      · rw [do_extract_nbs_other api G mG h1 h2] at he
        cases he
        rfl
  · rw [do_extract_nbs_out api G mG (Or.inr rfl), do_extract_nbs_out api G mG (Or.inl rfl)]
  · rw [do_extract_nbs_in api G mG (Or.inr rfl), do_extract_nbs_in api G mG (Or.inl rfl)]
  · rw [key]
    constructor
    · rintro ⟨e, he⟩ (h | h)
      · rw [do_extract_wnbs_out api W mG h] at he
        cases he
      · rw [do_extract_wnbs_in api W mG h] at he
        cases he
    · intro h
      exact ⟨_, do_extract_wnbs_other api W mG (fun k => h (Or.inl k))
        (fun k => h (Or.inr k))⟩
  · intro e he
    by_cases h1 : op = 'o' ∨ op = 'O'
    · rw [do_extract_wnbs_out api W mG h1] at he
      cases he
    · by_cases h2 : op = 'i' ∨ op = 'I'
      · rw [do_extract_wnbs_in api W mG h2] at he
        cases he
      · rw [do_extract_wnbs_other api W mG h1 h2] at he
        cases he
        rfl
  · rw [do_extract_wnbs_out api W mG (Or.inr rfl), do_extract_wnbs_out api W mG (Or.inl rfl)]
  · rw [do_extract_wnbs_in api W mG (Or.inr rfl), do_extract_wnbs_in api W mG (Or.inl rfl)]

/-- Witness for C17: on the small host, the graph with edges `0 -> 1`, `0 -> 2`,
`1 -> 2`: `'i'` yields the in-neighbours `[], [0], [0, 1]` with the weights
`[], [5], [7, 9]`, and for `'x'` both functions raise an error. -/
theorem extract_validates_op_witness :
    do_extract_nbs toyCells toyGraphLib (toyGraph mxClassID.mxDOUBLE_CLASS) 'i' =
      Except.ok (ToyArray.cells [some [], some [0], some [0, 1]]) ∧
    do_extract_wnbs toyCells toyWGraphLib (toyGraph mxClassID.mxDOUBLE_CLASS) 'i' =
      Except.ok (ToyArray.cells [some [], some [0], some [0, 1]],
        ToyArray.cells [some [], some [5], some [7, 9]]) ∧
    (∃ e, do_extract_nbs toyCells toyGraphLib (toyGraph mxClassID.mxDOUBLE_CLASS) 'x' =
      Except.error e) ∧
    (∃ e, do_extract_wnbs toyCells toyWGraphLib (toyGraph mxClassID.mxDOUBLE_CLASS) 'x' =
      Except.error e) :=
  ⟨(extract_validates_op toyCells toyGraphLib toyWGraphLib
      (toyGraph mxClassID.mxDOUBLE_CLASS) 'i').1.2.2.2.1 (Or.inl rfl),
    (extract_validates_op toyCells toyGraphLib toyWGraphLib
      (toyGraph mxClassID.mxDOUBLE_CLASS) 'i').2.2.2.2.1 (Or.inl rfl),
    (extract_validates_op toyCells toyGraphLib toyWGraphLib
      (toyGraph mxClassID.mxDOUBLE_CLASS) 'x').1.1.mpr (by decide),
    (extract_validates_op toyCells toyGraphLib toyWGraphLib
      (toyGraph mxClassID.mxDOUBLE_CLASS) 'x').2.1.mpr (by decide)⟩

end MexClaims

section MexDispatchClaim

variable {MArray Mx : Type}

/-- C18: dispatch of `mexFunction` on the output count and the weight class, with
`op` the character read from `prhs[1]`. (1) When `nlhs <= 1` the call does what
`do_extract_nbs` does: it assigns output `[0]` only, or raises its error, and the
outcome does not depend on what `get_graph_weight_class` would return. (2) When
`nlhs > 1` and the weight class is double, int32 or single, the call does what
`do_extract_wnbs` at that weight type does: it assigns outputs `[0]` and `[1]`, or
raises its error. (3) When `nlhs > 1` and the weight class is any other, the call
assigns no output and raises no error, whatever `op` is. -/
theorem mexFunction_dispatch (api : CellApi Mx) (A : MArrayApi MArray)
    (G : GraphLib MArray Mx) (Wd Wi Wf : WGraphLib MArray Mx G) (nlhs : Int)
    (prhs0 prhs1 : MArray) :
    (nlhs ≤ 1 →
      (∀ nbs, do_extract_nbs api G prhs0 (char_of_mxChar (A.get_scalar_mxChar prhs1)) =
          Except.ok nbs →
        mexFunction api A G Wd Wi Wf nlhs prhs0 prhs1 = Except.ok (some nbs, none)) ∧
      (∀ e, do_extract_nbs api G prhs0 (char_of_mxChar (A.get_scalar_mxChar prhs1)) =
          Except.error e →
        mexFunction api A G Wd Wi Wf nlhs prhs0 prhs1 = Except.error e) ∧
      (∀ B : MArrayApi MArray, B.get_scalar_mxChar = A.get_scalar_mxChar →
        mexFunction api B G Wd Wi Wf nlhs prhs0 prhs1 =
          mexFunction api A G Wd Wi Wf nlhs prhs0 prhs1)) ∧
    (1 < nlhs →
      (∀ W : WGraphLib MArray Mx G,
        (A.get_graph_weight_class prhs0 = mxClassID.mxDOUBLE_CLASS ∧ W = Wd) ∨
        (A.get_graph_weight_class prhs0 = mxClassID.mxINT32_CLASS ∧ W = Wi) ∨
        (A.get_graph_weight_class prhs0 = mxClassID.mxSINGLE_CLASS ∧ W = Wf) →
        (∀ nbs ws,
          do_extract_wnbs api W prhs0 (char_of_mxChar (A.get_scalar_mxChar prhs1)) =
            Except.ok (nbs, ws) →
          mexFunction api A G Wd Wi Wf nlhs prhs0 prhs1 = Except.ok (some nbs, some ws)) ∧
        (∀ e,
          do_extract_wnbs api W prhs0 (char_of_mxChar (A.get_scalar_mxChar prhs1)) =
            Except.error e →
          mexFunction api A G Wd Wi Wf nlhs prhs0 prhs1 = Except.error e)) ∧
      (A.get_graph_weight_class prhs0 ≠ mxClassID.mxDOUBLE_CLASS →
        A.get_graph_weight_class prhs0 ≠ mxClassID.mxINT32_CLASS →
        A.get_graph_weight_class prhs0 ≠ mxClassID.mxSINGLE_CLASS →
        mexFunction api A G Wd Wi Wf nlhs prhs0 prhs1 = Except.ok (none, none))) := by
  constructor
  · intro hn
    refine ⟨?_, ?_, ?_⟩
    · intro nbs h
      simp only [mexFunction, if_pos hn, h]
    · intro e h
      simp only [mexFunction, if_pos hn, h]
    · intro B hB
      simp only [mexFunction, if_pos hn, hB]
  · intro hn
    have hn1 : ¬ nlhs ≤ 1 := by omega
    constructor
    · rintro W (⟨hw, rfl⟩ | ⟨hw, rfl⟩ | ⟨hw, rfl⟩)
      · constructor
        · intro nbs ws h
          simp only [mexFunction, if_neg hn1, hw, h]
        · intro e h
          simp only [mexFunction, if_neg hn1, hw, h]
      · constructor
        · intro nbs ws h
          simp only [mexFunction, if_neg hn1, hw, h]
        · intro e h
          simp only [mexFunction, if_neg hn1, hw, h]
      · constructor
        · intro nbs ws h
          simp only [mexFunction, if_neg hn1, hw, h]
        · intro e h
          simp only [mexFunction, if_neg hn1, hw, h]
    · intro h1 h2 h3
      simp only [mexFunction, if_neg hn1]

/-- Witness for C18: on the small host with the graph `0 -> 1`, `0 -> 2`, `1 -> 2`.
One output and weight class int8: output `[0]` only; two outputs, weight class int32
and `op = 'o'`: both outputs; two outputs, weight class int8 and the invalid
`op = 'x'`: no output and no error. -/
theorem mexFunction_dispatch_witness :
    mexFunction toyCells toyArrays toyGraphLib toyWGraphLib toyWGraphLib toyWGraphLib 1
        (toyGraph mxClassID.mxINT8_CLASS) (ToyArray.char 111) =
      Except.ok (some (ToyArray.cells [some [1, 2], some [2], some []]), none) ∧
    mexFunction toyCells toyArrays toyGraphLib toyWGraphLib toyWGraphLib toyWGraphLib 2
        (toyGraph mxClassID.mxINT32_CLASS) (ToyArray.char 111) =
      Except.ok (some (ToyArray.cells [some [1, 2], some [2], some []]),
        some (ToyArray.cells [some [5, 7], some [9], some []])) ∧
    mexFunction toyCells toyArrays toyGraphLib toyWGraphLib toyWGraphLib toyWGraphLib 2
        (toyGraph mxClassID.mxINT8_CLASS) (ToyArray.char 120) = Except.ok (none, none) :=
  ⟨((mexFunction_dispatch toyCells toyArrays toyGraphLib toyWGraphLib toyWGraphLib
        toyWGraphLib 1 (toyGraph mxClassID.mxINT8_CLASS) (ToyArray.char 111)).1
      (by decide)).1 _ rfl,
    (((mexFunction_dispatch toyCells toyArrays toyGraphLib toyWGraphLib toyWGraphLib
        toyWGraphLib 2 (toyGraph mxClassID.mxINT32_CLASS) (ToyArray.char 111)).2
      (by decide)).1 toyWGraphLib (Or.inr (Or.inl ⟨rfl, rfl⟩))).1 _ _ rfl,
    ((mexFunction_dispatch toyCells toyArrays toyGraphLib toyWGraphLib toyWGraphLib
        toyWGraphLib 2 (toyGraph mxClassID.mxINT8_CLASS) (ToyArray.char 120)).2
      (by decide)).2 (fun h => nomatch h) (fun h => nomatch h) (fun h => nomatch h)⟩

end MexDispatchClaim

end smi
